import Mathlib

/-! # AlekseySav/stuff: `UnorderedMap` over the intrusive `List` (src/unordered_map.h)

A shallow embedding of `src/unordered_map.h`.

* Node storage is an arena `Nat → Option (Node T)`; the address `0` is `nullptr`, the allocator
  hands out increasing addresses and fails (`bad_alloc`) once the 64-bit address space is used up.
* Every operation returns `Except Err _`: `Err.ub` is undefined behaviour of the C++ code (reading
  through a dangling or null pointer, reading the unconstructed buffer of the sentinel, index out
  of range, `% 0`), `Err.diverge` is a loop that never ends, `Err.bad_alloc` an allocation failure.
* `size_t` counters are `Nat` reduced modulo `2 ^ 64` where the code increments / decrements them.
* `float` is IEEE-754 binary32 with round-to-nearest-even (`F32`), exact on rationals.
* `Hash()(key)` is a parameter `hash : K → Nat`, `Equal` is decidable equality on `K`.
-/

set_option autoImplicit false

/-- Outcomes of a call other than a normal return. -/
inductive Err where
  | ub
  | diverge
  | bad_alloc
  | out_of_range
deriving DecidableEq, Repr

deriving instance DecidableEq for Except

/-- An exception in flight: the exception `e` as a constructor threw it (what `throw;` in a
handler lets through), or an object of type `std::exception_ptr` that refers to `e`. -/
inductive Thrown where
  | raised (e : Nat)
  | exception_ptr (e : Nat)
deriving DecidableEq, Repr

/-! ## binary32 arithmetic -/

/-- IEEE-754 binary32 values. `fin neg mag` is the finite value `± mag · 2⁻¹⁴⁹`; every finite
binary32 number (subnormals included) is an integer multiple of `2⁻¹⁴⁹`. -/
inductive F32 where
  | nan
  | inf (neg : Bool)
  | fin (neg : Bool) (mag : Nat)
deriving DecidableEq, Repr

namespace F32

/-- Spacing of the binary32 grid around the magnitude `k` (in units of `2⁻¹⁴⁹`): the least power
of two `u` with `k / u < 2 ^ 24`. The first argument bounds the number of doublings. -/
def ulpOf : Nat → Nat → Nat → Nat
  | 0, _, u => u
  | fuel + 1, k, u => if k / u < 2 ^ 24 then u else ulpOf fuel k (2 * u)

/-- Round the rational `± p / q` (`0 < q`) to binary32, round-to-nearest, ties-to-even;
magnitudes that round to `2 ^ 128` or more become infinite. -/
def round (neg : Bool) (p q : Nat) : F32 :=
  let n := p * 2 ^ 149
  let u := ulpOf (n / q) (n / q) 1
  let d := q * u
  let k := n / d
  let r := n % d
  let k1 := if 2 * r < d then k else if d < 2 * r then k + 1 else if k % 2 = 0 then k else k + 1
  if k1 * u < 2 ^ 149 * 2 ^ 128 then fin neg (k1 * u) else inf neg

/-- Conversion `(float)n` of a `size_t` / `int` value `n ≥ 0`. -/
def ofNat (n : Nat) : F32 := round false n 1

/-- The literal `0.66f`. -/
def lit066 : F32 := round false 66 100

/-- Float division `a / b`. -/
def div : F32 → F32 → F32
  | nan, _ => nan
  | _, nan => nan
  | inf _, inf _ => nan
  | inf s, fin t _ => inf (xor s t)
  | fin s _, inf t => fin (xor s t) 0
  | fin s a, fin t b =>
    if b = 0 then (if a = 0 then nan else inf (xor s t)) else round (xor s t) a b

/-- Float multiplication `a * b`. -/
def mul : F32 → F32 → F32
  | nan, _ => nan
  | _, nan => nan
  | inf s, inf t => inf (xor s t)
  | inf s, fin t b => if b = 0 then nan else inf (xor s t)
  | fin s a, inf t => if a = 0 then nan else inf (xor s t)
  | fin s a, fin t b => round (xor s t) (a * b) (2 ^ 149 * 2 ^ 149)

/-- Float comparison `a < b` (false when either side is NaN; `-0 = +0`). -/
def lt : F32 → F32 → Bool
  | nan, _ => false
  | _, nan => false
  | inf s, inf t => s && !t
  | inf s, fin _ _ => s
  | fin _ _, inf t => !t
  | fin false a, fin false b => decide (a < b)
  | fin false _, fin true _ => false
  | fin true a, fin false b => decide (0 < a ∨ 0 < b)
  | fin true a, fin true b => decide (b < a)

/-- Conversion of a float to `size_t`: truncation toward zero; undefined behaviour when the
truncated value is not a `size_t`. -/
def toSizeT : F32 → Except Err Nat
  | fin false m => if m / 2 ^ 149 < 2 ^ 64 then .ok (m / 2 ^ 149) else .error .ub
  | fin true m => if m < 2 ^ 149 then .ok 0 else .error .ub
  | _ => .error .ub

end F32

/-! ## `List<T, Alloc>`: the circular doubly linked list with a sentinel -/

/-- `size_t` increment `c++`. -/
def sz_inc (c : Nat) : Nat := (c + 1) % 2 ^ 64

/-- `size_t` decrement `c--` (wraps around at zero). -/
def sz_dec (c : Nat) : Nat := (c + (2 ^ 64 - 1)) % 2 ^ 64

/-- The number of addresses of the machine. -/
def addr_space : Nat := 2 ^ 64

/-- `List::Node`: the value buffer (`none` while no value has been constructed in it, as in the
sentinel) and the two links. -/
structure Node (T : Type) where
  buf : Option T
  prev : Nat
  next : Nat

/-- Node storage: which addresses hold a node. -/
abbrev Mem (T : Type) := Nat → Option (Node T)

/-- Store `v` at address `a`. -/
def Mem.set {T : Type} (m : Mem T) (a : Nat) (v : Option (Node T)) : Mem T :=
  fun b => if b = a then v else m b

/-- `List<T, Alloc>`: the allocator state (`mem`, and `brk`, the next address it hands out),
`count` and the sentinel pointer `fake`. -/
structure DList (T : Type) where
  mem : Mem T
  brk : Nat
  count : Nat
  fake : Nat

namespace DList
variable {T : Type}

/-- Read the node behind a pointer. -/
def deref (l : DList T) (a : Nat) : Except Err (Node T) :=
  match l.mem a with
  | some n => .ok n
  | none => .error .ub

/-- `a->next`. -/
def getNext (l : DList T) (a : Nat) : Except Err Nat := do
  let n ← l.deref a
  pure n.next

/-- `a->prev`. -/
def getPrev (l : DList T) (a : Nat) : Except Err Nat := do
  let n ← l.deref a
  pure n.prev

/-- `a->value()`: the constructed value of a node. -/
def value (l : DList T) (a : Nat) : Except Err T := do
  let n ← l.deref a
  match n.buf with
  | some v => pure v
  | none => .error .ub

/-- `a->next = v`. -/
def setNext (l : DList T) (a v : Nat) : Except Err (DList T) := do
  let n ← l.deref a
  pure { l with mem := l.mem.set a (some { n with next := v }) }

/-- `a->prev = v`. -/
def setPrev (l : DList T) (a v : Nat) : Except Err (DList T) := do
  let n ← l.deref a
  pure { l with mem := l.mem.set a (some { n with prev := v }) }

/-- `traits::allocate(alloc, 1)`: a fresh node with nothing constructed in it. -/
def allocate (l : DList T) : Except Err (Nat × DList T) :=
  if l.brk < addr_space then
    .ok (l.brk, { l with mem := l.mem.set l.brk (some ⟨none, 0, 0⟩), brk := l.brk + 1 })
  else .error .bad_alloc

/-- `traits::deallocate(alloc, a, 1)`. -/
def deallocate (l : DList T) (a : Nat) : Except Err (DList T) := do
  let _ ← l.deref a
  pure { l with mem := l.mem.set a none }

/-- `List()`: `count(0)`, `fake(allocate)`, `fake->next = fake->prev = fake`; the sentinel is the
first allocation (address 1) of a fresh arena. -/
def new : DList T :=
  { mem := Mem.set (fun _ => none) 1 (some ⟨none, 1, 1⟩), brk := 2, count := 0, fake := 1 }

/-- `size()`. -/
def size (l : DList T) : Nat := l.count

/-- `begin()`: `head()`, that is `fake->next`. -/
def begin (l : DList T) : Except Err Nat := l.getNext l.fake

/-- `cend()` / `end()`: the sentinel. -/
def cend (l : DList T) : Nat := l.fake

/-- `make_node(args...)` with `args` the value `x`. -/
def make_node (l : DList T) (x : T) : Except Err (Nat × DList T) := do
  let (node, l) ← l.allocate
  let n ← l.deref node
  let l : DList T := { l with mem := l.mem.set node (some { n with buf := some x }) }
  let l : DList T := { l with count := sz_inc l.count }
  let l ← l.setPrev node l.fake
  let l ← l.setNext node l.fake
  pure (node, l)

/-- `delete_node(node)`: destroy the value, free the node, `count--`. -/
def delete_node (l : DList T) (node : Nat) : Except Err (DList T) := do
  let n ← l.deref node
  match n.buf with
  | none => .error .ub
  | some _ =>
    let l ← l.deallocate node
    pure { l with count := sz_dec l.count }

/-- `emplace_node(it, node)`: link `node` immediately before `it`. -/
def emplace_node (l : DList T) (it node : Nat) : Except Err (Nat × DList T) := do
  let l : DList T := { l with count := sz_inc l.count }
  let l ← l.setNext node it
  let p ← l.getPrev it
  let l ← l.setPrev node p
  let p ← l.getPrev it
  let l ← l.setNext p node
  let l ← l.setPrev it node
  pure (node, l)

/-- `create_node(args...)`: a constructed node that is not linked. -/
def create_node (l : DList T) (x : T) : Except Err (Nat × DList T) := do
  let (res, l) ← l.make_node x
  pure (res, { l with count := sz_dec l.count })

/-- `remove_node(node)`: discard a node that is not linked. -/
def remove_node (l : DList T) (node : Nat) : Except Err (DList T) := do
  let l ← l.delete_node node
  pure { l with count := sz_inc l.count }

/-- `emplace(it, args...)`. -/
def emplace (l : DList T) (it : Nat) (x : T) : Except Err (Nat × DList T) := do
  let (node, l) ← l.create_node x
  l.emplace_node it node

/-- `push_back(object)`. -/
def push_back (l : DList T) (x : T) : Except Err (DList T) := do
  let (node, l) ← l.make_node x
  let t ← l.getPrev l.fake
  let l ← l.setPrev node t
  let l ← (if l.size ≠ 0 then (do let t ← l.getPrev l.fake; l.setNext t node)
    else l.setNext l.fake node)
  l.setPrev l.fake node

/-- `push_front(object)`. -/
def push_front (l : DList T) (x : T) : Except Err (DList T) := do
  let (node, l) ← l.make_node x
  let h ← l.getNext l.fake
  let l ← l.setNext node h
  let l ← (if l.size ≠ 0 then (do let h ← l.getNext l.fake; l.setPrev h node)
    else l.setPrev l.fake node)
  l.setNext l.fake node

/-- `pop_back()`. -/
def pop_back (l : DList T) : Except Err (DList T) := do
  let node ← l.getPrev l.fake
  let t ← l.getPrev node
  let l ← l.setPrev l.fake t
  let t ← l.getPrev l.fake
  let l ← l.setNext t l.fake
  let l ← l.delete_node node
  if l.size = 0 then l.setNext l.fake l.fake else pure l

/-- `pop_front()`. -/
def pop_front (l : DList T) : Except Err (DList T) := do
  let node ← l.getNext l.fake
  let h ← l.getNext node
  let l ← l.setNext l.fake h
  let h ← l.getNext l.fake
  let l ← l.setPrev h l.fake
  let l ← l.delete_node node
  if l.size = 0 then l.setPrev l.fake l.fake else pure l

/-- `insert(it, object)`. -/
def insert (l : DList T) (it : Nat) (x : T) : Except Err (DList T) := do
  let (node, l) ← l.make_node x
  let l ← l.setNext node it
  let p ← l.getPrev it
  let l ← l.setPrev node p
  let p ← l.getPrev it
  let l ← l.setNext p node
  l.setPrev it node

/-- `erase(it)`. -/
def erase (l : DList T) (it : Nat) : Except Err (DList T) := do
  let p ← l.getPrev it
  let n ← l.getNext it
  let l ← l.setNext p n
  let n ← l.getNext it
  let p ← l.getPrev it
  let l ← l.setPrev n p
  l.delete_node it

/-- The loop `for (it = from; it != end(); ++it)` collecting the positions it visits. The first
argument bounds the number of iterations; `nodes` passes `brk`, more than the number of nodes
that exist, so that running out means the loop never reaches `end()`. -/
def walk (l : DList T) : Nat → Nat → Except Err (List Nat)
  | 0, _ => .error .diverge
  | fuel + 1, it =>
    if it = l.fake then pure [] else do
      let nx ← l.getNext it
      let rest ← walk l fuel nx
      pure (it :: rest)

/-- The nodes linked between `begin()` and `end()`, in order. -/
def nodes (l : DList T) : Except Err (List Nat) := do
  let b ← l.begin
  l.walk l.brk b

/-- The values of a list of positions. -/
def values (l : DList T) : List Nat → Except Err (List T)
  | [] => pure []
  | a :: as => do
    let v ← l.value a
    let vs ← values l as
    pure (v :: vs)

/-- The element sequence `*begin() ... ` up to `end()`. -/
def toList (l : DList T) : Except Err (List T) := do
  let ns ← l.nodes
  l.values ns

/-- The loop `while (size()) pop_back();` of the destructor and of move assignment. -/
def clear_loop : Nat → DList T → Except Err (DList T)
  | 0, _ => .error .diverge
  | fuel + 1, l =>
    if l.size = 0 then pure l else do
      let l ← l.pop_back
      clear_loop fuel l

/-- `operator=(List&& list)` on `dst` with argument `src`, two distinct objects: returns the new
`dst` and the moved-from `src`. The nodes of the old `dst` die with its arena. The call on one
object, `l = std::move(l)`, is `move_assign_self`. -/
def move_assign (dst src : DList T) : Except Err (DList T × DList T) := do
  let _ ← (if dst.fake ≠ 0 then (do
      let d ← clear_loop (dst.count + 1) dst
      d.deallocate d.fake)
    else pure dst)
  pure (src, { src with fake := 0, count := 0 })

/-- `List(List&& list)`: returns the new list and the moved-from argument. -/
def move_ctor (src : DList T) : DList T × DList T :=
  (src, { src with fake := 0, count := 0 })

/-- The loop `for (auto& i : list) push_back(i);` of the copy constructor, over the nodes of
`src`, appending to `dst`. The first argument bounds the number of iterations. -/
def copy_loop (src : DList T) : Nat → Nat → DList T → Except Err (DList T)
  | 0, _, _ => .error .diverge
  | fuel + 1, it, dst =>
    if it = src.cend then pure dst else do
      let v ← src.value it
      let dst ← dst.push_back v
      let nx ← src.getNext it
      copy_loop src fuel nx dst

/-- `List(const List& list)`: a freshly constructed list, then `push_back` of every element of
`list` in order. The new list lives in an arena of its own. -/
def copy_ctor (src : DList T) : Except Err (DList T) := do
  let b ← src.begin
  copy_loop src src.brk b DList.new

/-- The path of `make_node(args...)` on which constructing the value throws the exception `e`:
`node = allocate(alloc, 1); try { construct(...) } catch (...) { deallocate(alloc, node, 1);
throw std::current_exception(); }`. The handler throws a new object, of type
`std::exception_ptr`, that refers to `e`. The result is what leaves `make_node` and the list at
that moment. -/
def make_node_throw (l : DList T) (e : Nat) : Except Err (Thrown × DList T) := do
  let (node, l) ← l.allocate
  let l ← l.deallocate node
  pure (.exception_ptr e, l)

/-- The path of `create_node(args...)` on which constructing the value throws: what leaves
`make_node` passes through (`count--` is not reached). -/
def create_node_throw (l : DList T) (e : Nat) : Except Err (Thrown × DList T) :=
  l.make_node_throw e

/-- The loop `for (it = rbegin(); it != rend(); ++it)` collecting the positions it visits:
`rbegin()` is the reverse iterator on `end()`, `rend()` the one on `begin()`; dereferencing a
reverse iterator reads the node before its base (`node = node->prev`), and `++` moves the base
to that node. The first argument bounds the number of iterations. -/
def walk_back (l : DList T) : Nat → Nat → Nat → Except Err (List Nat)
  | 0, _, _ => .error .diverge
  | fuel + 1, base, stop =>
    if base = stop then pure [] else do
      let p ← l.getPrev base
      let rest ← walk_back l fuel p stop
      pure (p :: rest)

/-- The nodes visited from `rbegin()` to `rend()`, in the order of the visit. -/
def nodes_back (l : DList T) : Except Err (List Nat) := do
  let b ← l.begin
  l.walk_back l.brk l.cend b

/-- The least value of `ptrdiff_t`. -/
def ptrdiff_min : Int := -9223372036854775808

/-- The loop `while (n--) ++*this;` of `Iter::operator+=` (`fwd = true`, `node = node->next`)
and the loop `while (n--) --*this;` of `Iter::operator-=` (`fwd = false`, `node = node->prev`)
on a `ptrdiff_t n`: decrementing the least `ptrdiff_t` overflows. The first argument bounds the
number of iterations. -/
def iter_loop (l : DList T) (fwd : Bool) : Nat → Int → Nat → Except Err Nat
  | 0, _, _ => .error .diverge
  | fuel + 1, n, it =>
    if n = 0 then pure it
    else if n = ptrdiff_min then .error .ub
    else do
      let it ← (if fwd then l.getNext it else l.getPrev it)
      iter_loop l fwd fuel (n - 1) it

/-- `Iter::operator+=(n)` (`fwd = true`): `if (n < 0) *this -= -n; while (n--) ++*this;`, and
`Iter::operator-=(n)` (`fwd = false`): `if (n < 0) *this += -n; while (n--) --*this;`. The
iterator is the node it points to. `fuel` bounds the iterations of each loop, the next argument
the depth of the calls between the two operators. -/
def iter_assign (l : DList T) (fuel : Nat) : Nat → Bool → Nat → Int → Except Err Nat
  | 0, _, _, _ => .error .diverge
  | d + 1, fwd, it, n => do
    let it ← (if n < 0 then
        (if n = ptrdiff_min then .error .ub else iter_assign l fuel d (!fwd) it (-n))
      else pure it : Except Err Nat)
    iter_loop l fwd fuel n it

/-- `Iter::operator+=(n)`. -/
def iter_add_assign (l : DList T) (fuel depth it : Nat) (n : Int) : Except Err Nat :=
  iter_assign l fuel depth true it n

/-- `Iter::operator-=(n)`. -/
def iter_sub_assign (l : DList T) (fuel depth it : Nat) (n : Int) : Except Err Nat :=
  iter_assign l fuel depth false it n

/-- `Iter::operator+(n)`: `copy = *this; return copy += n;`. -/
def iter_add (l : DList T) (fuel depth it : Nat) (n : Int) : Except Err Nat :=
  iter_add_assign l fuel depth it n

/-- `Iter::operator-(n)`: `copy = *this; return copy -= n;`. -/
def iter_sub (l : DList T) (fuel depth it : Nat) (n : Int) : Except Err Nat :=
  iter_sub_assign l fuel depth it n

end DList

/-! ## The `List` of `stackallocator.cpp`

It is the `List` above except for the move constructor and the move assignment, which leave
`count` of their argument as it is. -/

namespace StackList
variable {T : Type}

/-- `List(List&& list)` of `stackallocator.cpp`: `alloc(list.alloc), count(list.count),
fake(list.fake)`, then `list.fake = nullptr;`. Returns the new list and the moved-from
argument. -/
def move_ctor (src : DList T) : DList T × DList T :=
  (src, { src with fake := 0 })

/-- `operator=(List&& list)` of `stackallocator.cpp` on `dst` with argument `src`: returns the
new `dst` and the moved-from `src`. -/
def move_assign (dst src : DList T) : Except Err (DList T × DList T) := do
  let _ ← (if dst.fake ≠ 0 then (do
      let d ← DList.clear_loop (dst.count + 1) dst
      d.deallocate d.fake)
    else pure dst)
  pure (src, { src with fake := 0 })

end StackList

/-! ## `UnorderedMap<Key, Value, Hash, Equal, Alloc>` -/

/-- `std::vector<Node*>::max_size()`. -/
def vec_max_size : Nat := 2 ^ 60 - 1

/-- `std::vector<Node*>::resize(n)` with null-initialised new slots; a request for more than
`max_size()` elements throws. -/
def vec_resize (v : List Nat) (n : Nat) : Except Err (List Nat) :=
  if vec_max_size < n then .error .bad_alloc
  else if n ≤ v.length then pure (v.take n)
  else pure (v ++ List.replicate (n - v.length) 0)

/-- `UnorderedMap`: `max_factor`, the node list `list` and the bucket cache `buckets` (a vector of
node pointers, `0` for an empty slot). The member `hash_cache`, an empty list that no member
function touches, is left out. -/
structure UnorderedMap (K V : Type) where
  max_factor : F32
  list : DList (K × V)
  buckets : List Nat

namespace UnorderedMap
variable {K V : Type} [DecidableEq K]

/-- `UnorderedMap()`: `max_factor(0.66f)`, `buckets(2)`. -/
def new : UnorderedMap K V :=
  { max_factor := F32.lit066, list := DList.new, buckets := List.replicate 2 0 }

/-- `begin()`. -/
def begin (m : UnorderedMap K V) : Except Err Nat := m.list.begin

/-- `end()` / `cend()`. -/
def cend (m : UnorderedMap K V) : Nat := m.list.cend

/-- `size()`. -/
def size (m : UnorderedMap K V) : Nat := m.list.size

/-- `load_factor()`: `(float)size() / buckets.size()`. -/
def load_factor (m : UnorderedMap K V) : F32 :=
  F32.div (F32.ofNat m.size) (F32.ofNat m.buckets.length)

/-- `get_hash(key)`: `Hash()(key) % buckets.size()`. -/
def get_hash (hash : K → Nat) (m : UnorderedMap K V) (key : K) : Except Err Nat :=
  if m.buckets.length = 0 then .error .ub else pure (hash key % m.buckets.length)

/-- `buckets[i]`. -/
def bucket (m : UnorderedMap K V) (i : Nat) : Except Err Nat :=
  match m.buckets[i]? with
  | some p => pure p
  | none => .error .ub

/-- `update_bucket(it, hash)`: `if (!buckets[hash]) buckets[hash] = it`. -/
def update_bucket (m : UnorderedMap K V) (it h : Nat) : Except Err (UnorderedMap K V) := do
  let p ← m.bucket h
  if p = 0 then pure { m with buckets := m.buckets.set h it } else pure m

/-- The loop of `find_by_hash`:
`for (; it != cend() && get_hash(it->first) == hash; ++it) if (Equal()(it->first, key)) return it;`
followed by `return it`. The first argument bounds the number of iterations. -/
def scan (hash : K → Nat) (m : UnorderedMap K V) (key : K) (h : Nat) :
    Nat → Nat → Except Err Nat
  | 0, _ => .error .diverge
  | fuel + 1, it =>
    if it = m.cend then pure it else do
      let kv ← m.list.value it
      let hh ← m.get_hash hash kv.1
      if hh ≠ h then pure it
      else if kv.1 = key then pure it
      else do
        let nx ← m.list.getNext it
        scan hash m key h fuel nx

/-- `find_by_hash(key, hash)`. -/
def find_by_hash (hash : K → Nat) (m : UnorderedMap K V) (key : K) (h : Nat) :
    Except Err Nat := do
  let p ← m.bucket h
  if p = 0 then m.begin
  else scan hash m key h m.list.brk p

/-- The non-const `find(key)`. -/
def find (hash : K → Nat) (m : UnorderedMap K V) (key : K) : Except Err Nat := do
  let h ← m.get_hash hash key
  let it ← m.find_by_hash hash key h
  if it ≠ m.list.cend then do
    let kv ← m.list.value it
    let hh ← m.get_hash hash kv.1
    if hh = h then pure it else pure m.cend
  else pure m.cend

/-- `operator=(UnorderedMap&& map)` on `dst` with argument `src`: returns the new `dst` and the
moved-from `src`. -/
def move_assign (dst src : UnorderedMap K V) :
    Except Err (UnorderedMap K V × UnorderedMap K V) := do
  let dst : UnorderedMap K V := { dst with max_factor := src.max_factor }
  let dst : UnorderedMap K V := { dst with buckets := src.buckets }
  let src : UnorderedMap K V := { src with buckets := [] }
  let (dl, sl) ← DList.move_assign dst.list src.list
  pure ({ dst with list := dl }, { src with list := sl })

/-- The loop of `rehash`:
`for (it = begin(); it != end(); it++) copy.update_bucket(it, copy.get_hash(it->first));`
over the nodes of `src`. -/
def rehash_loop (hash : K → Nat) (src : DList (K × V)) :
    Nat → Nat → UnorderedMap K V → Except Err (UnorderedMap K V)
  | 0, _, _ => .error .diverge
  | fuel + 1, it, copy =>
    if it = src.cend then pure copy else do
      let kv ← src.value it
      let h ← copy.get_hash hash kv.1
      let copy ← copy.update_bucket it h
      let nx ← src.getNext it
      rehash_loop hash src fuel nx copy

/-- `rehash()`. -/
def rehash (hash : K → Nat) (m : UnorderedMap K V) : Except Err (UnorderedMap K V) :=
  if F32.lt m.load_factor m.max_factor then pure m
  else do
    let copy : UnorderedMap K V := UnorderedMap.new
    let n ← F32.toSizeT
      (F32.mul (F32.ofNat (m.buckets.length * 2 % 2 ^ 64)) (F32.div (F32.ofNat 1) m.max_factor))
    let cb ← vec_resize copy.buckets n
    let copy : UnorderedMap K V := { copy with buckets := cb }
    let b ← m.begin
    let copy ← rehash_loop hash m.list m.list.brk b copy
    let (cl, ml) ← DList.move_assign copy.list m.list
    let copy : UnorderedMap K V := { copy with list := cl }
    let m : UnorderedMap K V := { m with list := ml }
    let (m, _) ← move_assign m copy
    pure m

/-- The flag `it == list.end() || get_hash(it->first) != hash` of `insert` and `emplace`. -/
def ins_flag (hash : K → Nat) (m : UnorderedMap K V) (it h : Nat) : Except Err Bool :=
  if it = m.list.cend then pure true
  else do
    let e ← m.list.value it
    let hh ← m.get_hash hash e.1
    pure (decide (hh ≠ h))

/-- `insert(const NodeType& kv)`: returns the position and the `inserted` flag. -/
def insert (hash : K → Nat) (m : UnorderedMap K V) (kv : K × V) :
    Except Err ((Nat × Bool) × UnorderedMap K V) := do
  let m ← m.rehash hash
  let h ← m.get_hash hash kv.1
  let it ← m.find_by_hash hash kv.1 h
  let ins ← m.ins_flag hash it h
  let r ← (if ins then (do
      let r ← m.list.emplace it kv
      pure (r.1, { m with list := r.2 }))
    else pure (it, m) : Except Err (Nat × UnorderedMap K V))
  let m ← r.2.update_bucket r.1 h
  pure ((r.1, ins), m)

/-- `emplace(args...)` with `args` the key and the value of the pair to construct. -/
def emplace (hash : K → Nat) (m : UnorderedMap K V) (k : K) (v : V) :
    Except Err ((Nat × Bool) × UnorderedMap K V) := do
  let m ← m.rehash hash
  let c ← m.list.create_node (k, v)
  let node := c.1
  let m : UnorderedMap K V := { m with list := c.2 }
  let nv ← m.list.value node
  let h ← m.get_hash hash nv.1
  let it ← m.find_by_hash hash nv.1 h
  let ins ← m.ins_flag hash it h
  let r ← (if ins then (do
      let r ← m.list.emplace_node it node
      pure (r.1, { m with list := r.2 }))
    else (do
      let l ← m.list.remove_node node
      pure (it, { m with list := l })) : Except Err (Nat × UnorderedMap K V))
  let m ← r.2.update_bucket r.1 h
  pure ((r.1, ins), m)

/-- `erase(it)`: `buckets[get_hash(it->first)] = nullptr; list.erase(it);`. -/
def erase (hash : K → Nat) (m : UnorderedMap K V) (it : Nat) :
    Except Err (UnorderedMap K V) := do
  let kv ← m.list.value it
  let h ← m.get_hash hash kv.1
  let m : UnorderedMap K V := { m with buckets := m.buckets.set h 0 }
  let l ← m.list.erase it
  pure { m with list := l }

/-- The keys stored in the nodes between `begin()` and `end()`, in list order. -/
def keys (m : UnorderedMap K V) : Except Err (List K) := do
  let es ← m.list.toList
  pure (es.map Prod.fst)

/-- The getter `max_load_factor()`. -/
def max_load_factor (m : UnorderedMap K V) : F32 := m.max_factor

/-- The setter `max_load_factor(factor)`. -/
def set_max_load_factor (m : UnorderedMap K V) (factor : F32) : UnorderedMap K V :=
  { m with max_factor := factor }

/-- `reserve(n)`: `if (buckets.size() >= n) return; buckets.resize(n, nullptr); rehash();`. -/
def reserve (hash : K → Nat) (m : UnorderedMap K V) (n : Nat) : Except Err (UnorderedMap K V) :=
  if n ≤ m.buckets.length then pure m
  else do
    let b ← vec_resize m.buckets n
    rehash hash { m with buckets := b }

/-- The non-const `at(key)`: the value of the node that `find` returns, or the exception
`std::out_of_range` when `find` returns `end()`. -/
def at_ (hash : K → Nat) (m : UnorderedMap K V) (key : K) : Except Err V := do
  let it ← m.find hash key
  if it = m.cend then .error .out_of_range
  else do
    let kv ← m.list.value it
    pure kv.2

/-- `operator[](key)`, with `dflt` the value `Value()`: returns the node whose value is
referenced, that value, and the map after the call. -/
def subscript (hash : K → Nat) (m : UnorderedMap K V) (key : K) (dflt : V) :
    Except Err ((Nat × V) × UnorderedMap K V) := do
  let it ← m.find hash key
  let r ← (if it = m.cend then (do
      let r ← m.emplace hash key dflt
      pure (r.1.1, r.2))
    else pure (it, m) : Except Err (Nat × UnorderedMap K V))
  let kv ← r.2.list.value r.1
  pure ((r.1, kv.2), r.2)

/-- The loop `for (auto& i : map) insert(i);` of the copy constructor, over the nodes of `src`. -/
def copy_loop (hash : K → Nat) (src : DList (K × V)) :
    Nat → Nat → UnorderedMap K V → Except Err (UnorderedMap K V)
  | 0, _, _ => .error .diverge
  | fuel + 1, it, m =>
    if it = src.cend then pure m else do
      let kv ← src.value it
      let r ← m.insert hash kv
      let nx ← src.getNext it
      copy_loop hash src fuel nx r.2

/-- `UnorderedMap(const UnorderedMap& map)`: `max_factor(map.max_factor)`,
`buckets(map.buckets.size())`, then every element of `map` is inserted. -/
def copy_ctor (hash : K → Nat) (src : UnorderedMap K V) : Except Err (UnorderedMap K V) := do
  let m : UnorderedMap K V :=
    { max_factor := src.max_factor, list := DList.new,
      buckets := List.replicate src.buckets.length 0 }
  let b ← src.begin
  copy_loop hash src.list src.list.brk b m

/-- `UnorderedMap(UnorderedMap&& map)`: `max_factor(map.max_factor)`,
`list(std::move(map.list))`, `buckets(std::move(map.buckets))`; returns the new map and the
moved-from argument. -/
def move_ctor (src : UnorderedMap K V) : UnorderedMap K V × UnorderedMap K V :=
  ({ max_factor := src.max_factor, list := (DList.move_ctor src.list).1, buckets := src.buckets },
   { src with list := (DList.move_ctor src.list).2, buckets := [] })

/-- The path of `emplace(args...)` on which constructing the pair throws the exception `e`:
`rehash();` has run, then what `list.create_node(args...)` throws passes through. The result is
what leaves `emplace` and the map at that moment. -/
def emplace_throw (hash : K → Nat) (m : UnorderedMap K V) (e : Nat) :
    Except Err (Thrown × UnorderedMap K V) := do
  let m ← m.rehash hash
  let c ← m.list.create_node_throw e
  pure (c.1, { m with list := c.2 })

/-- The const `find(key)`: `hash = get_hash(key); it = find_by_hash(key, hash);
if (get_hash(it->first) == hash) return it; return end();`. -/
def find_const (hash : K → Nat) (m : UnorderedMap K V) (key : K) : Except Err Nat := do
  let h ← m.get_hash hash key
  let it ← m.find_by_hash hash key h
  let kv ← m.list.value it
  let hh ← m.get_hash hash kv.1
  if hh = h then pure it else pure m.cend

/-- The loop of `erase(a, b)`:
`for (it = a; it != b; it = next) { next = it; ++next; erase(it); }`. The first argument bounds
the number of iterations. -/
def erase_loop (hash : K → Nat) : Nat → UnorderedMap K V → Nat → Nat →
    Except Err (UnorderedMap K V)
  | 0, _, _, _ => .error .diverge
  | fuel + 1, m, it, b =>
    if it = b then pure m else do
      let next ← m.list.getNext it
      let m ← m.erase hash it
      erase_loop hash fuel m next b

/-- `erase(a, b)`. -/
def erase_range (hash : K → Nat) (m : UnorderedMap K V) (a b : Nat) :
    Except Err (UnorderedMap K V) :=
  erase_loop hash m.list.brk m a b

end UnorderedMap

/-- A call on an `UnorderedMap`: `insert(kv)`, `emplace(k, v)`, or `erase(it)` with the iterator
given by the node it points to. -/
inductive MapOp (K V : Type) where
  | insert (kv : K × V)
  | emplace (k : K) (v : V)
  | erase (it : Nat)

namespace UnorderedMap
variable {K V : Type} [DecidableEq K]

/-- The map after one call. -/
def step (hash : K → Nat) (m : UnorderedMap K V) : MapOp K V → Except Err (UnorderedMap K V)
  | .insert kv => do
    let r ← m.insert hash kv
    pure r.2
  | .emplace k v => do
    let r ← m.emplace hash k v
    pure r.2
  | .erase it => m.erase hash it

/-- The map after a sequence of calls. -/
def steps (hash : K → Nat) : UnorderedMap K V → List (MapOp K V) → Except Err (UnorderedMap K V)
  | m, [] => pure m
  | m, op :: ops => do
    let m ← m.step hash op
    steps hash m ops

/-- The map obtained from the default-constructed map by a sequence of calls. -/
def run (hash : K → Nat) (ops : List (MapOp K V)) : Except Err (UnorderedMap K V) :=
  steps hash UnorderedMap.new ops

end UnorderedMap

/-- A call on an `UnorderedMap`, `operator[]` and the range `erase` included: `insert(kv)`,
`emplace(k, v)`, `operator[](k)` for a value type whose default-constructed value is `dflt`,
`erase(it)` and `erase(a, b)`, with iterators given by the nodes they point to. -/
inductive MapCall (K V : Type) where
  | insert (kv : K × V)
  | emplace (k : K) (v : V)
  | subscript (k : K) (dflt : V)
  | erase (it : Nat)
  | erase_range (a b : Nat)

namespace UnorderedMap
variable {K V : Type} [DecidableEq K]

/-- The map after one call. -/
def call (hash : K → Nat) (m : UnorderedMap K V) : MapCall K V → Except Err (UnorderedMap K V)
  | .insert kv => do
    let r ← m.insert hash kv
    pure r.2
  | .emplace k v => do
    let r ← m.emplace hash k v
    pure r.2
  | .subscript k dflt => do
    let r ← m.subscript hash k dflt
    pure r.2
  | .erase it => m.erase hash it
  | .erase_range a b => m.erase_range hash a b

/-- The map after a sequence of calls. -/
def calls (hash : K → Nat) : UnorderedMap K V → List (MapCall K V) → Except Err (UnorderedMap K V)
  | m, [] => pure m
  | m, c :: cs => do
    let m ← m.call hash c
    calls hash m cs

/-- The map obtained from the default-constructed map by a sequence of calls. -/
def run_calls (hash : K → Nat) (cs : List (MapCall K V)) : Except Err (UnorderedMap K V) :=
  calls hash UnorderedMap.new cs

end UnorderedMap

/-! ## Predicates used to state and prove the properties -/

variable {T : Type}

/-- Following the link `f` from `a` visits exactly `xs` and then arrives at `b`. -/
def Chain (f : Nat → Option Nat) : Nat → List Nat → Nat → Prop
  | a, [], b => f a = some b
  | a, x :: xs, b => f a = some x ∧ Chain f x xs b

/-- The last element of `a :: xs`. -/
def lastOr : List Nat → Nat → Nat
  | [], a => a
  | x :: xs, _ => lastOr xs x

/-- The first element of `xs ++ [b]`. -/
def headOr : List Nat → Nat → Nat
  | [], b => b
  | x :: _, _ => x

/-- The `next` link stored at an address where a node lives. -/
def nxt (m : Mem T) (a : Nat) : Option Nat := (m a).map Node.next

/-- The `prev` link stored at an address where a node lives. -/
def prv (m : Mem T) (a : Nat) : Option Nat := (m a).map Node.prev

/-- The value buffer at an address where a node lives. -/
def bufOf (m : Mem T) (a : Nat) : Option (Option T) := (m a).map Node.buf

/-- The shape of a list: the nodes `xs` are linked through `next` from the sentinel back to the
sentinel and through `prev` the other way round; `pend` are the constructed nodes that are not
linked (made by `create_node`); these and the sentinel are the only nodes that exist, all at
distinct non-null addresses below `brk`; exactly the sentinel holds no value. -/
structure DList.Shape (l : DList T) (xs pend : List Nat) : Prop where
  fwd : Chain (nxt l.mem) l.fake xs l.fake
  bwd : Chain (prv l.mem) l.fake xs.reverse l.fake
  nodup : (l.fake :: (xs ++ pend)).Nodup
  live : ∀ a, bufOf l.mem a ≠ none → a ∈ l.fake :: (xs ++ pend)
  fake_buf : bufOf l.mem l.fake = some none
  bufs : ∀ a ∈ xs ++ pend, ∃ v, bufOf l.mem a = some (some v)
  lt_brk : ∀ a ∈ l.fake :: (xs ++ pend), 0 < a ∧ a < l.brk
  room : xs.length + pend.length + 2 ≤ l.brk
  brk_le : l.brk ≤ addr_space

namespace DList
variable {T : Type}

/-- What a call changed: the links and buffers before and after, seen address by address. -/
structure Upd (l l2 : DList T) (nx pv : Nat → Option Nat) (bf : Nat → Option (Option T))
    (brk count : Nat) : Prop where
  fake : l2.fake = l.fake
  brk : l2.brk = brk
  count : l2.count = count
  nx : ∀ z, nxt l2.mem z = nx z
  pv : ∀ z, prv l2.mem z = pv z
  bf : ∀ z, bufOf l2.mem z = bf z

end DList

/-- The `List` states reached from a freshly constructed list by its operations, together with
the nodes that `create_node` has made and that are not linked yet. Positions passed to `insert`,
`emplace` and `emplace_node` are `end()` or a linked node, `erase` gets a linked node,
`pop_back` / `pop_front` a non-empty list, and `emplace_node` / `remove_node` a node from
`create_node`. (`push_back()` without an argument is `push_back` of a default value.) -/
inductive ListReach {T : Type} : DList T → List Nat → Prop where
  | ctor : ListReach DList.new []
  | push_back {l l2 : DList T} {pend : List Nat} (x : T) :
      ListReach l pend → l.push_back x = .ok l2 → ListReach l2 pend
  | push_front {l l2 : DList T} {pend : List Nat} (x : T) :
      ListReach l pend → l.push_front x = .ok l2 → ListReach l2 pend
  | pop_back {l l2 : DList T} {pend xs : List Nat} :
      ListReach l pend → l.nodes = .ok xs → xs ≠ [] → l.pop_back = .ok l2 → ListReach l2 pend
  | pop_front {l l2 : DList T} {pend xs : List Nat} :
      ListReach l pend → l.nodes = .ok xs → xs ≠ [] → l.pop_front = .ok l2 → ListReach l2 pend
  | insert {l l2 : DList T} {pend xs : List Nat} (it : Nat) (x : T) :
      ListReach l pend → l.nodes = .ok xs → it ∈ l.cend :: xs → l.insert it x = .ok l2 →
      ListReach l2 pend
  | erase {l l2 : DList T} {pend xs : List Nat} (it : Nat) :
      ListReach l pend → l.nodes = .ok xs → it ∈ xs → l.erase it = .ok l2 → ListReach l2 pend
  | create_node {l l2 : DList T} {pend : List Nat} (x : T) (n : Nat) :
      ListReach l pend → l.create_node x = .ok (n, l2) → ListReach l2 (n :: pend)
  | emplace_node {l l2 : DList T} {pend xs : List Nat} (it n r : Nat) :
      ListReach l pend → l.nodes = .ok xs → it ∈ l.cend :: xs → n ∈ pend →
      l.emplace_node it n = .ok (r, l2) → ListReach l2 (pend.erase n)
  | remove_node {l l2 : DList T} {pend : List Nat} (n : Nat) :
      ListReach l pend → n ∈ pend → l.remove_node n = .ok l2 → ListReach l2 (pend.erase n)
  | emplace {l l2 : DList T} {pend xs : List Nat} (it r : Nat) (x : T) :
      ListReach l pend → l.nodes = .ok xs → it ∈ l.cend :: xs → l.emplace it x = .ok (r, l2) →
      ListReach l2 pend

section
variable {K V : Type} [DecidableEq K]

/-- Cache validity of a bucket vector `bs` over the nodes `xs` of the list `l`: every non-empty
slot `i` references a linked node whose key hashes to `i` modulo the number of slots. -/
def CacheOK (hash : K → Nat) (l : DList (K × V)) (xs bs : List Nat) : Prop :=
  ∀ i p, bs[i]? = some p → p ≠ 0 →
    p ∈ xs ∧ ∃ kv, bufOf l.mem p = some (some kv) ∧ hash kv.1 % bs.length = i

/-- The slot of the node at address `a` under `n` buckets: `Hash()(key) % n` for the key stored
in the node (`none` when the address holds no constructed pair). -/
def slotOf (hash : K → Nat) (l : DList (K × V)) (n a : Nat) : Option Nat :=
  match bufOf l.mem a with
  | some (some kv) => some (hash kv.1 % n)
  | _ => none

/-- The bucket vector `bs` is the first-writer-wins cache of the node sequence `xs` of `l`: an
empty slot `i` means that no node of `xs` has slot `i`, and a non-empty slot `i` references the
first node of `xs` that has slot `i`. -/
def FirstWriter (hash : K → Nat) (l : DList (K × V)) (xs bs : List Nat) : Prop :=
  ∀ i p, bs[i]? = some p →
    (p = 0 → ∀ a ∈ xs, slotOf hash l bs.length a ≠ some i) ∧
    (p ≠ 0 → ∃ d1 d2, xs = d1 ++ p :: d2 ∧ slotOf hash l bs.length p = some i ∧
      ∀ a ∈ d1, slotOf hash l bs.length a ≠ some i)

/-- First-writer-wins over an arbitrary slot function `s`: an empty slot `i` of `bs` means that
no node of `xs` has slot `i`, and a non-empty slot `i` references the first node of `xs` that
has slot `i`. -/
def FirstWriterBy (s : Nat → Option Nat) (xs bs : List Nat) : Prop :=
  ∀ i p, bs[i]? = some p →
    (p = 0 → ∀ a ∈ xs, s a ≠ some i) ∧
    (p ≠ 0 → ∃ d1 d2, xs = d1 ++ p :: d2 ∧ s p = some i ∧ ∀ a ∈ d1, s a ≠ some i)

/-- The nodes of each slot are contiguous in `xs`, for an arbitrary slot function `s`: for every
slot `i` the sequence is `a ++ r ++ b` with the nodes of slot `i` being exactly those of `r`. -/
def ContiguousBy (s : Nat → Option Nat) (xs : List Nat) : Prop :=
  ∀ i, ∃ a r b, xs = a ++ r ++ b ∧ (∀ x ∈ r, s x = some i) ∧ (∀ x ∈ a ++ b, s x ≠ some i)

/-- The nodes of each slot are contiguous in the node sequence `xs` of the list `l`, with slots
taken modulo `n` buckets. -/
def Contiguous (hash : K → Nat) (l : DList (K × V)) (n : Nat) (xs : List Nat) : Prop :=
  ContiguousBy (slotOf hash l n) xs

/-- No two nodes of the sequence `xs` of the list `l` hold the same key. -/
def DistinctKeys (l : DList (K × V)) (xs : List Nat) : Prop :=
  ∀ a ∈ xs, ∀ b ∈ xs, ∀ ka kb, bufOf l.mem a = some (some ka) →
    bufOf l.mem b = some (some kb) → ka.1 = kb.1 → a = b

/-- The invariant of the map: its list is well shaped with nodes `xs` and no pending node,
`size()` is the number of linked nodes, and the bucket cache is valid. -/
structure UnorderedMap.Inv (hash : K → Nat) (m : UnorderedMap K V) (xs : List Nat) : Prop where
  shape : m.list.Shape xs []
  count : m.list.count = xs.length
  cache : CacheOK hash m.list xs m.buckets

end

section
variable {K V : Type} [DecidableEq K]

/-- The map after the calls `ops` on a default-constructed map (the default-constructed map itself
when one of the calls does not return). -/
def UnorderedMap.after (hash : K → Nat) (ops : List (MapOp K V)) : UnorderedMap K V :=
  match UnorderedMap.run hash ops with
  | .ok m => m
  | .error _ => UnorderedMap.new

/-- The result of a call that returned (`d` for a call that did not). -/
def Except.resultD {α : Type} (x : Except Err α) (d : α) : α :=
  match x with
  | .ok a => a
  | .error _ => d

/-- The list after `push_back(7)` and `push_front(8)` on an empty list: the nodes at the
addresses 3 and 2, holding 8 and 7. -/
def DList.with_two_nodes : DList Nat :=
  Except.resultD (DList.push_front
    (Except.resultD (DList.push_back (DList.new : DList Nat) 7) DList.new) 8) DList.new

/-- The list after `push_back(7)` and `create_node(8)` on an empty list: the node at address 2
is linked; the node at address 3 is made and not linked. -/
def DList.with_pending_node : DList Nat :=
  (Except.resultD (DList.create_node
    (Except.resultD (DList.push_back (DList.new : DList Nat) 7) DList.new) 8) (0, DList.new)).2

end

/-! # Theorems -/

set_option linter.unusedSectionVars false

variable {T K V : Type} [DecidableEq K]

/-! ## Results of calls -/

theorem Except.bind_ok_eq {ε α β : Type} (a : α) (f : α → Except ε β) :
    (Except.ok a >>= f) = f a := rfl

theorem Except.bind_error_eq {ε α β : Type} (e : ε) (f : α → Except ε β) :
    (Except.error e >>= f) = Except.error e := rfl

theorem Except.pure_eq_ok {ε α : Type} (a : α) : (pure a : Except ε α) = Except.ok a := rfl

theorem Except.bind_eq_ok_iff {ε α β : Type} {x : Except ε α} {f : α → Except ε β} {b : β} :
    (x >>= f) = Except.ok b ↔ ∃ a, x = Except.ok a ∧ f a = Except.ok b := by
  cases x with
  | error e => simp [Except.bind_error_eq]
  | ok a => simp [Except.bind_ok_eq]

/-! ## Chains of links -/

theorem Chain.append {f : Nat → Option Nat} {b y : Nat} {ys : List Nat} :
    ∀ {p : List Nat} {a : Nat},
      Chain f a (p ++ y :: ys) b ↔ Chain f a p y ∧ Chain f y ys b
  | [], a => by simp [Chain]
  | x :: xs, a => by simp [Chain, Chain.append (p := xs), and_assoc]

theorem Chain.congr {f g : Nat → Option Nat} {b : Nat} :
    ∀ {xs : List Nat} {a : Nat}, (∀ z ∈ a :: xs, g z = f z) → Chain f a xs b → Chain g a xs b
  | [], a, h, hc => by
    simp only [Chain] at hc ⊢
    rw [h a (by simp)]; exact hc
  | x :: xs, a, h, hc => by
    simp only [Chain] at hc ⊢
    refine ⟨by rw [h a (by simp)]; exact hc.1, Chain.congr (fun z hz => h z ?_) hc.2⟩
    exact List.mem_cons_of_mem _ hz

theorem lastOr_mem : ∀ (xs : List Nat) (a : Nat), lastOr xs a ∈ a :: xs
  | [], a => by simp [lastOr]
  | x :: xs, a => by
    simp only [lastOr]
    exact List.mem_cons_of_mem _ (lastOr_mem xs x)

theorem headOr_mem (xs : List Nat) (b : Nat) : headOr xs b ∈ b :: xs := by
  cases xs <;> simp [headOr]

theorem lastOr_append_singleton : ∀ (xs : List Nat) (a y : Nat), lastOr (xs ++ [y]) a = y
  | [], a, y => by simp [lastOr]
  | x :: xs, a, y => by simp [lastOr, lastOr_append_singleton xs]

theorem headOr_append_singleton (xs : List Nat) (b y : Nat) :
    headOr (xs ++ [y]) b = headOr xs y := by
  cases xs <;> simp [headOr]

theorem lastOr_reverse (xs : List Nat) (a : Nat) : lastOr xs.reverse a = headOr xs a := by
  cases xs with
  | nil => simp [lastOr, headOr]
  | cons x xs => simp [headOr, lastOr_append_singleton]

theorem headOr_reverse : ∀ (xs : List Nat) (a : Nat), headOr xs.reverse a = lastOr xs a
  | [], a => by simp [lastOr, headOr]
  | x :: xs, a => by
    simp only [List.reverse_cons, headOr_append_singleton, lastOr]
    exact headOr_reverse xs x

/-- The last link of a chain can be redirected. -/
theorem Chain.redirect {f g : Nat → Option Nat} {c n : Nat} :
    ∀ {pre : List Nat} {a : Nat}, Chain f a pre c → (a :: pre).Nodup →
      (∀ z ∈ a :: pre, z ≠ lastOr pre a → g z = f z) → g (lastOr pre a) = some n →
      Chain g a pre n
  | [], a, _, _, _, hl => by simpa [Chain, lastOr] using hl
  | x :: xs, a, hc, hnd, h, hl => by
    simp only [Chain] at hc ⊢
    have hne : a ≠ lastOr (x :: xs) a := by
      intro e
      have hmem : lastOr (x :: xs) a ∈ x :: xs := lastOr_mem xs x
      rw [← e] at hmem
      exact (List.nodup_cons.mp hnd).1 hmem
    refine ⟨by rw [h a (by simp) hne]; exact hc.1, ?_⟩
    have hnd2 := (List.nodup_cons.mp hnd).2
    exact Chain.redirect hc.2 hnd2 (fun z hz hzl => h z (List.mem_cons_of_mem _ hz) hzl) hl

/-- Neighbours in a chain are linked. -/
theorem Chain.adj {f : Nat → Option Nat} {b : Nat} {rest : List Nat} :
    ∀ {p : List Nat} {a : Nat}, Chain f a (p ++ rest) b →
      f (lastOr p a) = some (headOr rest b)
  | [], a, hc => by
    cases rest with
    | nil => simpa [Chain, lastOr, headOr] using hc
    | cons y ys => simpa [Chain, lastOr, headOr] using hc.1
  | x :: xs, a, hc => Chain.adj (p := xs) (a := x) hc.2

/-- Linking a new element `n` into a chain between two neighbours. -/
theorem Chain.link {f g : Nat → Option Nat} {a b n : Nat} {pre rest : List Nat}
    (hc : Chain f a (pre ++ rest) b) (hnd : (a :: (pre ++ rest)).Nodup)
    (hn : n ∉ a :: (pre ++ rest))
    (hg : ∀ z, g z = if z = n then some (headOr rest b)
      else if z = lastOr pre a then some n else f z) :
    Chain g a (pre ++ n :: rest) b := by
  have hlm := lastOr_mem pre a
  have hln : lastOr pre a ≠ n := by
    intro e; apply hn; rw [← e]
    rcases List.mem_cons.mp hlm with h | h
    · simp [h]
    · exact List.mem_cons_of_mem _ (List.mem_append_left _ h)
  have hndp : (a :: pre).Nodup := by
    rw [← List.cons_append] at hnd
    exact (List.nodup_append.mp hnd).1
  have hdisj : ∀ z ∈ rest, z ≠ lastOr pre a := by
    intro z hz e
    rw [← List.cons_append] at hnd
    exact (List.nodup_append.mp hnd).2.2 (e ▸ hlm) hz
  rw [Chain.append]
  cases rest with
  | nil =>
    simp only [List.append_nil] at hc
    refine ⟨Chain.redirect hc hndp (fun z hz hzl => ?_) ?_, ?_⟩
    · rw [hg z, if_neg, if_neg hzl]
      intro e; apply hn; rw [← e]; simpa using hz
    · rw [hg, if_neg hln, if_pos rfl]
    · simp [Chain, hg, headOr]
  | cons y ys =>
    rw [Chain.append] at hc
    refine ⟨Chain.redirect hc.1 hndp (fun z hz hzl => ?_) ?_, ?_⟩
    · rw [hg z, if_neg, if_neg hzl]
      intro e; apply hn; rw [← e]
      rcases List.mem_cons.mp hz with h | h
      · simp [h]
      · exact List.mem_cons_of_mem _ (List.mem_append_left _ h)
    · rw [hg, if_neg hln, if_pos rfl]
    · simp only [Chain]
      refine ⟨by simp [hg, headOr], Chain.congr (fun z hz => ?_) hc.2⟩
      rw [hg z, if_neg, if_neg (hdisj z hz)]
      intro e; apply hn; rw [← e]
      exact List.mem_cons_of_mem _ (List.mem_append_right _ hz)

/-- Unlinking the element `x` from a chain. -/
theorem Chain.unlink {f g : Nat → Option Nat} {a b x : Nat} {pre post : List Nat}
    (hc : Chain f a (pre ++ x :: post) b) (hnd : (a :: (pre ++ x :: post)).Nodup)
    (hg : ∀ z, z ≠ x → g z = if z = lastOr pre a then some (headOr post b) else f z) :
    Chain g a (pre ++ post) b := by
  have hlm := lastOr_mem pre a
  rw [← List.cons_append] at hnd
  have hndp : (a :: pre).Nodup := (List.nodup_append.mp hnd).1
  have hdisj : ∀ z ∈ x :: post, z ∉ a :: pre :=
    fun z hz hz2 => (List.nodup_append.mp hnd).2.2 hz2 hz
  have hndx : (x :: post).Nodup := (List.nodup_append.mp hnd).2.1
  have hlx : lastOr pre a ≠ x := fun e => hdisj x (by simp) (e ▸ hlm)
  rw [Chain.append] at hc
  have hpre : ∀ z ∈ a :: pre, z ≠ x := fun z hz e => hdisj x (by simp) (e ▸ hz)
  cases post with
  | nil =>
    simp only [List.append_nil]
    refine Chain.redirect hc.1 hndp (fun z hz hzl => ?_) ?_
    · rw [hg z (hpre z hz), if_neg hzl]
    · rw [hg _ hlx, if_pos rfl]; simp [headOr]
  | cons y ys =>
    rw [Chain.append]
    have hc2 := hc.2
    simp only [Chain] at hc2
    refine ⟨Chain.redirect hc.1 hndp (fun z hz hzl => ?_) ?_, Chain.congr (fun z hz => ?_) hc2.2⟩
    · rw [hg z (hpre z hz), if_neg hzl]
    · rw [hg _ hlx, if_pos rfl]; simp [headOr]
    · have hzx : z ≠ x := by
        intro e
        have := (List.nodup_cons.mp hndx).1
        exact this (e ▸ hz)
      rw [hg z hzx, if_neg]
      intro e
      exact hdisj z (List.mem_cons_of_mem _ hz) (e ▸ hlm)

/-! ## Rings: both chains of a list -/

theorem ring_link {nx nx2 pv pv2 : Nat → Option Nat} {fake n : Nat} {pre rest : List Nat}
    (hf : Chain nx fake (pre ++ rest) fake) (hb : Chain pv fake (pre ++ rest).reverse fake)
    (hnd : (fake :: (pre ++ rest)).Nodup) (hn : n ∉ fake :: (pre ++ rest))
    (hnx : ∀ z, nx2 z = if z = n then some (headOr rest fake)
      else if z = lastOr pre fake then some n else nx z)
    (hpv : ∀ z, pv2 z = if z = n then some (lastOr pre fake)
      else if z = headOr rest fake then some n else pv z) :
    Chain nx2 fake (pre ++ n :: rest) fake ∧ Chain pv2 fake (pre ++ n :: rest).reverse fake := by
  refine ⟨Chain.link hf hnd hn hnx, ?_⟩
  have e : (pre ++ n :: rest).reverse = rest.reverse ++ n :: pre.reverse := by simp
  rw [e]
  rw [List.reverse_append] at hb
  refine Chain.link hb ?_ ?_ ?_
  · rw [← List.reverse_append]
    rw [List.nodup_cons] at hnd ⊢
    exact ⟨fun h => hnd.1 (List.mem_reverse.mp h), List.nodup_reverse.mpr hnd.2⟩
  · rw [← List.reverse_append]
    intro h
    apply hn
    rcases List.mem_cons.mp h with h | h
    · simp [h]
    · exact List.mem_cons_of_mem _ (List.mem_reverse.mp h)
  · intro z
    rw [hpv z, headOr_reverse, lastOr_reverse]

theorem ring_unlink {nx nx2 pv pv2 : Nat → Option Nat} {fake x : Nat} {pre post : List Nat}
    (hf : Chain nx fake (pre ++ x :: post) fake)
    (hb : Chain pv fake (pre ++ x :: post).reverse fake)
    (hnd : (fake :: (pre ++ x :: post)).Nodup)
    (hnx : ∀ z, z ≠ x → nx2 z = if z = lastOr pre fake then some (headOr post fake) else nx z)
    (hpv : ∀ z, z ≠ x → pv2 z = if z = headOr post fake then some (lastOr pre fake) else pv z) :
    Chain nx2 fake (pre ++ post) fake ∧ Chain pv2 fake (pre ++ post).reverse fake := by
  refine ⟨Chain.unlink hf hnd hnx, ?_⟩
  have e : (pre ++ x :: post).reverse = post.reverse ++ x :: pre.reverse := by simp
  rw [e] at hb
  rw [List.reverse_append]
  refine Chain.unlink hb ?_ ?_
  · have e2 : post.reverse ++ x :: pre.reverse = (pre ++ x :: post).reverse := by simp
    rw [e2]
    rw [List.nodup_cons] at hnd ⊢
    exact ⟨fun h => hnd.1 (List.mem_reverse.mp h), List.nodup_reverse.mpr hnd.2⟩
  · intro z hz
    rw [hpv z hz, headOr_reverse, lastOr_reverse]

/-! ## Reading and writing nodes -/

theorem nxt_set (m : Mem T) (a z : Nat) (v : Option (Node T)) :
    nxt (Mem.set m a v) z = if z = a then v.map Node.next else nxt m z := by
  unfold nxt Mem.set; split <;> rfl

theorem prv_set (m : Mem T) (a z : Nat) (v : Option (Node T)) :
    prv (Mem.set m a v) z = if z = a then v.map Node.prev else prv m z := by
  unfold prv Mem.set; split <;> rfl

theorem bufOf_set (m : Mem T) (a z : Nat) (v : Option (Node T)) :
    bufOf (Mem.set m a v) z = if z = a then v.map Node.buf else bufOf m z := by
  unfold bufOf Mem.set; split <;> rfl

theorem bufOf_eq_none {m : Mem T} {a : Nat} : bufOf m a = none ↔ m a = none := by
  simp [bufOf]

theorem nxt_eq_none {m : Mem T} {a : Nat} : nxt m a = none ↔ m a = none := by
  simp [nxt]

theorem prv_eq_none {m : Mem T} {a : Nat} : prv m a = none ↔ m a = none := by
  simp [prv]

namespace DList

theorem getNext_eq_ok {l : DList T} {a b : Nat} : l.getNext a = .ok b ↔ nxt l.mem a = some b := by
  unfold getNext deref nxt
  cases h : l.mem a <;> simp [Except.bind_ok_eq, Except.bind_error_eq, Except.pure_eq_ok]

theorem getPrev_eq_ok {l : DList T} {a b : Nat} : l.getPrev a = .ok b ↔ prv l.mem a = some b := by
  unfold getPrev deref prv
  cases h : l.mem a <;> simp [Except.bind_ok_eq, Except.bind_error_eq, Except.pure_eq_ok]

theorem value_eq_ok {l : DList T} {a : Nat} {v : T} :
    l.value a = .ok v ↔ bufOf l.mem a = some (some v) := by
  unfold value deref bufOf
  cases h : l.mem a with
  | none => simp [Except.bind_error_eq]
  | some n =>
    simp only [Except.bind_ok_eq, Option.map_some']
    cases n.buf <;> simp [Except.pure_eq_ok]

theorem setNext_spec {l : DList T} {a : Nat} (v : Nat) (h : l.mem a ≠ none) :
    ∃ l2, l.setNext a v = .ok l2 ∧ Upd l l2
      (fun z => if z = a then some v else nxt l.mem z) (prv l.mem) (bufOf l.mem) l.brk l.count := by
  obtain ⟨n, hn⟩ := Option.ne_none_iff_exists'.mp h
  simp only [setNext, deref, hn, Except.bind_ok_eq, Except.pure_eq_ok]
  refine ⟨_, rfl, ?_⟩
  constructor <;> try rfl
  · intro z; simp only [nxt_set]; split <;> rfl
  · intro z; simp only [prv_set]; split
    · subst_vars; simp [prv, hn]
    · rfl
  · intro z; simp only [bufOf_set]; split
    · subst_vars; simp [bufOf, hn]
    · rfl

theorem setPrev_spec {l : DList T} {a : Nat} (v : Nat) (h : l.mem a ≠ none) :
    ∃ l2, l.setPrev a v = .ok l2 ∧ Upd l l2
      (nxt l.mem) (fun z => if z = a then some v else prv l.mem z) (bufOf l.mem) l.brk l.count := by
  obtain ⟨n, hn⟩ := Option.ne_none_iff_exists'.mp h
  simp only [setPrev, deref, hn, Except.bind_ok_eq, Except.pure_eq_ok]
  refine ⟨_, rfl, ?_⟩
  constructor <;> try rfl
  · intro z; simp only [nxt_set]; split
    · subst_vars; simp [nxt, hn]
    · rfl
  · intro z; simp only [prv_set]; split <;> rfl
  · intro z; simp only [bufOf_set]; split
    · subst_vars; simp [bufOf, hn]
    · rfl

theorem make_node_spec (l : DList T) (x : T) (h : l.brk < addr_space) :
    ∃ l2, l.make_node x = .ok (l.brk, l2) ∧ Upd l l2
      (fun z => if z = l.brk then some l.fake else nxt l.mem z)
      (fun z => if z = l.brk then some l.fake else prv l.mem z)
      (fun z => if z = l.brk then some (some x) else bufOf l.mem z)
      (l.brk + 1) (sz_inc l.count) := by
  simp only [make_node, allocate, if_pos h, deref, Mem.set, setPrev, setNext,
    Except.bind_ok_eq, Except.pure_eq_ok, if_true]
  refine ⟨_, rfl, ?_⟩
  constructor <;> try rfl
  · intro z; simp only [nxt_set]; split <;> simp
  · intro z; simp only [prv_set]; split <;> simp
  · intro z; simp only [bufOf_set]; split <;> simp

theorem delete_node_spec {l : DList T} {a : Nat} {v : T} (h : bufOf l.mem a = some (some v)) :
    ∃ l2, l.delete_node a = .ok l2 ∧ Upd l l2
      (fun z => if z = a then none else nxt l.mem z)
      (fun z => if z = a then none else prv l.mem z)
      (fun z => if z = a then none else bufOf l.mem z)
      l.brk (sz_dec l.count) := by
  unfold bufOf at h
  obtain ⟨n, hn, hb⟩ := Option.map_eq_some'.mp h
  simp only [delete_node, deallocate, deref, hn, hb, Except.bind_ok_eq, Except.pure_eq_ok]
  refine ⟨_, rfl, ?_⟩
  constructor <;> try rfl
  · intro z; simp only [nxt_set]; split <;> simp
  · intro z; simp only [prv_set]; split <;> simp
  · intro z; simp only [bufOf_set]; split <;> simp

end DList

/-! ## Operations that keep a list well shaped -/

namespace DList

theorem Shape.mem_live {l : DList T} {xs pend : List Nat} (hs : l.Shape xs pend) {a : Nat}
    (ha : a ∈ l.fake :: (xs ++ pend)) : l.mem a ≠ none := by
  intro e
  have e2 := bufOf_eq_none.mpr e
  rcases List.mem_cons.mp ha with h | h
  · rw [h, hs.fake_buf] at e2; exact Option.noConfusion e2
  · obtain ⟨v, hv⟩ := hs.bufs a h
    rw [hv] at e2; exact Option.noConfusion e2

theorem Shape.alloc {l l2 : DList T} {xs pend : List Nat} {x : T} (hs : l.Shape xs pend)
    (hlt : l.brk < addr_space) (hf : l2.fake = l.fake) (hb : l2.brk = l.brk + 1)
    (hnx : ∀ z, z ≠ l.brk → nxt l2.mem z = nxt l.mem z)
    (hpv : ∀ z, z ≠ l.brk → prv l2.mem z = prv l.mem z)
    (hbf : ∀ z, z ≠ l.brk → bufOf l2.mem z = bufOf l.mem z)
    (hnew : bufOf l2.mem l.brk = some (some x)) : l2.Shape xs (l.brk :: pend) := by
  have hold : ∀ a ∈ l.fake :: (xs ++ pend), a ≠ l.brk := fun a ha => by
    have := (hs.lt_brk a ha).2; omega
  have hperm : (l.fake :: (xs ++ l.brk :: pend)).Perm (l.brk :: l.fake :: (xs ++ pend)) := by
    refine (List.Perm.cons _ List.perm_middle).trans (List.Perm.swap _ _ _)
  constructor
  · rw [hf]
    refine Chain.congr (fun z hz => hnx z (hold z ?_)) hs.fwd
    rcases List.mem_cons.mp hz with h | h
    · simp [h]
    · exact List.mem_cons_of_mem _ (List.mem_append_left _ h)
  · rw [hf]
    refine Chain.congr (fun z hz => hpv z (hold z ?_)) hs.bwd
    rcases List.mem_cons.mp hz with h | h
    · simp [h]
    · exact List.mem_cons_of_mem _ (List.mem_append_left _ (List.mem_reverse.mp h))
  · rw [hf, hperm.nodup_iff, List.nodup_cons]
    exact ⟨fun h => hold _ h rfl, hs.nodup⟩
  · intro a ha
    rw [hf, hperm.mem_iff]
    by_cases e : a = l.brk
    · simp [e]
    · rw [hbf a e] at ha
      exact List.mem_cons_of_mem _ (hs.live a ha)
  · rw [hf, hbf _ (hold _ (by simp))]; exact hs.fake_buf
  · intro a ha
    by_cases e : a = l.brk
    · exact ⟨x, e ▸ hnew⟩
    · rw [hbf a e]
      refine hs.bufs a ?_
      rcases List.mem_append.mp ha with h | h
      · exact List.mem_append_left _ h
      · rcases List.mem_cons.mp h with h | h
        · exact absurd h e
        · exact List.mem_append_right _ h
  · intro a ha
    rw [hf, hperm.mem_iff] at ha
    rw [hb]
    rcases List.mem_cons.mp ha with h | h
    · have := (hs.lt_brk _ (List.mem_cons_self _ _)).1
      have := (hs.lt_brk _ (List.mem_cons_self _ _)).2
      omega
    · have := hs.lt_brk a h; omega
  · have := hs.room
    simp only [List.length_cons]; omega
  · rw [hb]; omega

theorem Shape.link_node {l k : DList T} {pre rest pend : List Nat} {n : Nat}
    (hs : l.Shape (pre ++ rest) pend) (hn : n ∈ pend)
    (hf : k.fake = l.fake) (hb : k.brk = l.brk)
    (hnx : ∀ z, nxt k.mem z = if z = n then some (headOr rest l.fake)
      else if z = lastOr pre l.fake then some n else nxt l.mem z)
    (hpv : ∀ z, prv k.mem z = if z = n then some (lastOr pre l.fake)
      else if z = headOr rest l.fake then some n else prv l.mem z)
    (hbf : ∀ z, bufOf k.mem z = bufOf l.mem z) :
    k.Shape (pre ++ n :: rest) (pend.erase n) := by
  have hperm : (l.fake :: ((pre ++ n :: rest) ++ pend.erase n)).Perm
      (l.fake :: ((pre ++ rest) ++ pend)) := by
    refine List.Perm.cons _ ?_
    have h1 : ((pre ++ n :: rest) ++ pend.erase n).Perm (n :: ((pre ++ rest) ++ pend.erase n)) := by
      rw [List.append_assoc, List.cons_append, List.append_assoc]
      exact List.perm_middle
    have h2 : ((pre ++ rest) ++ pend).Perm ((pre ++ rest) ++ n :: pend.erase n) :=
      List.Perm.append_left _ (List.perm_cons_erase hn)
    exact h1.trans (List.perm_middle.symm.trans h2.symm)
  have hnd := hs.nodup
  have hndx : (l.fake :: (pre ++ rest)).Nodup := by
    rw [← List.cons_append] at hnd
    exact (List.nodup_append.mp hnd).1
  have hnn : n ∉ l.fake :: (pre ++ rest) := by
    rw [← List.cons_append] at hnd
    exact fun h => (List.nodup_append.mp hnd).2.2 h hn
  have hr := ring_link hs.fwd hs.bwd hndx hnn hnx hpv
  constructor
  · rw [hf]; exact hr.1
  · rw [hf]; exact hr.2
  · rw [hf, hperm.nodup_iff]; exact hnd
  · intro a ha
    rw [hf, hperm.mem_iff]
    rw [hbf] at ha
    exact hs.live a ha
  · rw [hf, hbf]; exact hs.fake_buf
  · intro a ha
    rw [hbf]
    exact hs.bufs a (((List.perm_cons _).mp hperm).mem_iff.mp ha)
  · intro a ha
    rw [hf, hperm.mem_iff] at ha
    rw [hb]; exact hs.lt_brk a ha
  · have := hs.room
    have := List.length_erase_of_mem hn
    have : 0 < pend.length := List.length_pos_of_mem hn
    simp only [List.length_append, List.length_cons] at *
    omega
  · rw [hb]; exact hs.brk_le

theorem Shape.unlink_node {l k : DList T} {pre q pend : List Nat} {x : Nat}
    (hs : l.Shape (pre ++ x :: q) pend)
    (hf : k.fake = l.fake) (hb : k.brk = l.brk)
    (hnx : ∀ z, z ≠ x → nxt k.mem z = if z = lastOr pre l.fake then some (headOr q l.fake)
      else nxt l.mem z)
    (hpv : ∀ z, z ≠ x → prv k.mem z = if z = headOr q l.fake then some (lastOr pre l.fake)
      else prv l.mem z)
    (hbf : ∀ z, z ≠ x → bufOf k.mem z = bufOf l.mem z)
    (hx : bufOf k.mem x = none) :
    k.Shape (pre ++ q) pend := by
  have hperm : (l.fake :: ((pre ++ x :: q) ++ pend)).Perm
      (x :: l.fake :: ((pre ++ q) ++ pend)) := by
    refine (List.Perm.cons _ ?_).trans (List.Perm.swap _ _ _)
    rw [List.append_assoc, List.cons_append, List.append_assoc]
    exact List.perm_middle
  have hnd := hs.nodup
  rw [hperm.nodup_iff, List.nodup_cons] at hnd
  have hndx : (l.fake :: (pre ++ x :: q)).Nodup := by
    have := hs.nodup
    rw [← List.cons_append] at this
    exact (List.nodup_append.mp this).1
  have hr := ring_unlink hs.fwd hs.bwd hndx hnx hpv
  have hne : ∀ a ∈ l.fake :: ((pre ++ q) ++ pend), a ≠ x := fun a ha e => hnd.1 (e ▸ ha)
  have hsub : ∀ a ∈ l.fake :: ((pre ++ q) ++ pend), a ∈ l.fake :: ((pre ++ x :: q) ++ pend) :=
    fun a ha => hperm.mem_iff.mpr (List.mem_cons_of_mem _ ha)
  constructor
  · rw [hf]; exact hr.1
  · rw [hf]; exact hr.2
  · rw [hf]; exact hnd.2
  · intro a ha
    have hax : a ≠ x := fun e => ha (e ▸ hx)
    rw [hbf a hax] at ha
    rw [hf]
    have := hperm.mem_iff.mp (hs.live a ha)
    rcases List.mem_cons.mp this with h | h
    · exact absurd h hax
    · exact h
  · rw [hf, hbf _ (hne _ (List.mem_cons_self _ _))]; exact hs.fake_buf
  · intro a ha
    have ha2 : a ∈ l.fake :: ((pre ++ q) ++ pend) := List.mem_cons_of_mem _ ha
    rw [hbf a (hne a ha2)]
    have := hsub a ha2
    rcases List.mem_cons.mp this with h | h
    · exfalso
      have := hnd.2
      rw [List.nodup_cons] at this
      exact this.1 (h ▸ ha)
    · exact hs.bufs a h
  · intro a ha
    rw [hf] at ha
    rw [hb]; exact hs.lt_brk a (hsub a ha)
  · have := hs.room
    simp only [List.length_append, List.length_cons] at *
    omega
  · rw [hb]; exact hs.brk_le

theorem Shape.drop_node {l l2 : DList T} {xs pend : List Nat} {n : Nat}
    (hs : l.Shape xs pend) (hn : n ∈ pend)
    (hf : l2.fake = l.fake) (hb : l2.brk = l.brk)
    (hnx : ∀ z, z ≠ n → nxt l2.mem z = nxt l.mem z)
    (hpv : ∀ z, z ≠ n → prv l2.mem z = prv l.mem z)
    (hbf : ∀ z, z ≠ n → bufOf l2.mem z = bufOf l.mem z)
    (hx : bufOf l2.mem n = none) :
    l2.Shape xs (pend.erase n) := by
  have hperm : (l.fake :: (xs ++ pend)).Perm (n :: l.fake :: (xs ++ pend.erase n)) := by
    refine (List.Perm.cons _ ?_).trans (List.Perm.swap _ _ _)
    exact (List.Perm.append_left _ (List.perm_cons_erase hn)).trans List.perm_middle
  have hnd := hs.nodup
  rw [hperm.nodup_iff, List.nodup_cons] at hnd
  have hne : ∀ a ∈ l.fake :: (xs ++ pend.erase n), a ≠ n := fun a ha e => hnd.1 (e ▸ ha)
  have hsub : ∀ a ∈ l.fake :: (xs ++ pend.erase n), a ∈ l.fake :: (xs ++ pend) :=
    fun a ha => hperm.mem_iff.mpr (List.mem_cons_of_mem _ ha)
  have hxs : ∀ a ∈ l.fake :: xs, a ≠ n := fun a ha => hne a (by
    rcases List.mem_cons.mp ha with h | h
    · simp [h]
    · exact List.mem_cons_of_mem _ (List.mem_append_left _ h))
  constructor
  · rw [hf]
    exact Chain.congr (fun z hz => hnx z (hxs z hz)) hs.fwd
  · rw [hf]
    refine Chain.congr (fun z hz => hpv z (hxs z ?_)) hs.bwd
    rcases List.mem_cons.mp hz with h | h
    · simp [h]
    · exact List.mem_cons_of_mem _ (List.mem_reverse.mp h)
  · rw [hf]; exact hnd.2
  · intro a ha
    have hax : a ≠ n := fun e => ha (e ▸ hx)
    rw [hbf a hax] at ha
    rw [hf]
    have := hperm.mem_iff.mp (hs.live a ha)
    rcases List.mem_cons.mp this with h | h
    · exact absurd h hax
    · exact h
  · rw [hf, hbf _ (hne _ (List.mem_cons_self _ _))]; exact hs.fake_buf
  · intro a ha
    have ha2 : a ∈ l.fake :: (xs ++ pend.erase n) := List.mem_cons_of_mem _ ha
    rw [hbf a (hne a ha2)]
    have := hsub a ha2
    rcases List.mem_cons.mp this with h | h
    · exfalso
      have := hnd.2
      rw [List.nodup_cons] at this
      exact this.1 (h ▸ ha)
    · exact hs.bufs a h
  · intro a ha
    rw [hf] at ha
    rw [hb]; exact hs.lt_brk a (hsub a ha)
  · have := hs.room
    have := List.length_erase_of_mem hn
    have : 0 < pend.length := List.length_pos_of_mem hn
    omega
  · rw [hb]; exact hs.brk_le

end DList

/-! ## `create_node`, `emplace_node`, `remove_node` -/

namespace DList

theorem live_of_bufOf {l : DList T} {a : Nat} (h : bufOf l.mem a ≠ none) : l.mem a ≠ none :=
  fun e => h (bufOf_eq_none.mpr e)

theorem live_of_prv {l : DList T} {a b : Nat} (h : prv l.mem a = some b) : l.mem a ≠ none :=
  fun e => by rw [prv_eq_none.mpr e] at h; exact Option.noConfusion h

theorem bufOf_of_live {l : DList T} {a : Nat} (h : l.mem a ≠ none) : bufOf l.mem a ≠ none :=
  fun e => h (bufOf_eq_none.mp e)

/-- The four assignments that link `n` before `it`. -/
theorem link_steps {l : DList T} {it n p : Nat} (hn : l.mem n ≠ none)
    (hit : prv l.mem it = some p) (hp : l.mem p ≠ none) (hnit : n ≠ it) (hnp : n ≠ p) :
    ∃ l2 l3 l4 l5, l.setNext n it = .ok l2 ∧ l2.getPrev it = .ok p ∧ l2.setPrev n p = .ok l3 ∧
      l3.getPrev it = .ok p ∧ l3.setNext p n = .ok l4 ∧ l4.setPrev it n = .ok l5 ∧
      Upd l l5 (fun z => if z = n then some it else if z = p then some n else nxt l.mem z)
        (fun z => if z = n then some p else if z = it then some n else prv l.mem z)
        (bufOf l.mem) l.brk l.count := by
  obtain ⟨l2, e2, u2⟩ := setNext_spec it hn
  have g2 : l2.getPrev it = .ok p := getPrev_eq_ok.mpr (by rw [u2.pv]; exact hit)
  have b2 : ∀ z, l2.mem z ≠ none ↔ l.mem z ≠ none := fun z => by
    rw [← bufOf_eq_none.ne, ← bufOf_eq_none.ne, u2.bf]
  obtain ⟨l3, e3, u3⟩ := setPrev_spec p ((b2 n).mpr hn)
  have g3 : l3.getPrev it = .ok p := getPrev_eq_ok.mpr (by
    rw [u3.pv, if_neg (Ne.symm hnit), u2.pv]; exact hit)
  have b3 : ∀ z, l3.mem z ≠ none ↔ l.mem z ≠ none := fun z => by
    rw [← b2, ← bufOf_eq_none.ne, ← bufOf_eq_none.ne, u3.bf]
  obtain ⟨l4, e4, u4⟩ := setNext_spec n ((b3 p).mpr hp)
  have b4 : ∀ z, l4.mem z ≠ none ↔ l.mem z ≠ none := fun z => by
    rw [← b3, ← bufOf_eq_none.ne, ← bufOf_eq_none.ne, u4.bf]
  obtain ⟨l5, e5, u5⟩ := setPrev_spec n ((b4 it).mpr (live_of_prv hit))
  refine ⟨l2, l3, l4, l5, e2, g2, e3, g3, e4, e5, ?_⟩
  constructor
  · rw [u5.fake, u4.fake, u3.fake, u2.fake]
  · rw [u5.brk, u4.brk, u3.brk, u2.brk]
  · rw [u5.count, u4.count, u3.count, u2.count]
  · intro z
    rw [u5.nx, u4.nx, u3.nx, u2.nx]
    by_cases h1 : z = n
    · subst h1; simp [hnp]
    · simp [h1]
  · intro z
    rw [u5.pv, u4.pv, u3.pv, u2.pv]
    by_cases h1 : z = n
    · subst h1; simp [hnit]
    · simp [h1]
  · intro z
    rw [u5.bf, u4.bf, u3.bf, u2.bf]

theorem sz_inc_eq {c : Nat} (h : c + 1 < 2 ^ 64) : sz_inc c = c + 1 := by
  unfold sz_inc; exact Nat.mod_eq_of_lt h

theorem sz_dec_eq {c : Nat} (h : c + 1 < 2 ^ 64) : sz_dec (c + 1) = c := by
  unfold sz_dec
  have : c + 1 + (2 ^ 64 - 1) = c + 2 ^ 64 := by omega
  rw [this, Nat.add_mod_right]
  exact Nat.mod_eq_of_lt (by omega)

theorem sz_inc_dec {c : Nat} (h : c < 2 ^ 64) : sz_inc (sz_dec c) = c := by
  unfold sz_inc sz_dec
  omega

/-- Facts about a position `it = headOr rest fake` of a list `pre ++ rest`. -/
theorem Shape.pos_facts {l : DList T} {p r pend : List Nat}
    (hs : l.Shape (p ++ r) pend) :
    prv l.mem (headOr r l.fake) = some (lastOr p l.fake) ∧
    nxt l.mem (lastOr p l.fake) = some (headOr r l.fake) ∧
    headOr r l.fake ∈ l.fake :: (p ++ r) ∧ lastOr p l.fake ∈ l.fake :: (p ++ r) := by
  refine ⟨?_, Chain.adj hs.fwd, ?_, ?_⟩
  · have := hs.bwd
    rw [List.reverse_append] at this
    have := Chain.adj this
    rwa [lastOr_reverse, headOr_reverse] at this
  · rcases List.mem_cons.mp (headOr_mem r l.fake) with h | h
    · simp [h]
    · exact List.mem_cons_of_mem _ (List.mem_append_right _ h)
  · rcases List.mem_cons.mp (lastOr_mem p l.fake) with h | h
    · simp [h]
    · exact List.mem_cons_of_mem _ (List.mem_append_left _ h)

theorem Shape.mem_sub {l : DList T} {xs pend : List Nat} (_hs : l.Shape xs pend) {a : Nat}
    (h : a ∈ l.fake :: xs) : a ∈ l.fake :: (xs ++ pend) := by
  rcases List.mem_cons.mp h with h | h
  · simp [h]
  · exact List.mem_cons_of_mem _ (List.mem_append_left _ h)

theorem Shape.pend_ne {l : DList T} {xs pend : List Nat} (hs : l.Shape xs pend) {a n : Nat}
    (h : a ∈ l.fake :: xs) (hn : n ∈ pend) : n ≠ a := by
  intro e
  have := hs.nodup
  rw [← List.cons_append] at this
  exact (List.nodup_append.mp this).2.2 h (e ▸ hn)

theorem Shape.count_lt {l : DList T} {xs pend : List Nat} (hs : l.Shape xs pend) :
    xs.length + pend.length + 2 ≤ 2 ^ 64 := by
  have := hs.room
  have := hs.brk_le
  unfold addr_space at this
  omega

/-- `emplace_node` links a pending node before a position. -/
theorem emplace_node_spec {l : DList T} {pre rest pend : List Nat} {n : Nat}
    (hs : l.Shape (pre ++ rest) pend) (hc : l.count = (pre ++ rest).length) (hn : n ∈ pend) :
    ∃ l2, l.emplace_node (headOr rest l.fake) n = .ok (n, l2) ∧
      l2.Shape (pre ++ n :: rest) (pend.erase n) ∧ l2.count = (pre ++ n :: rest).length ∧
      l2.fake = l.fake ∧ l2.brk = l.brk ∧ ∀ z, bufOf l2.mem z = bufOf l.mem z := by
  obtain ⟨f1, _, f3, f4⟩ := hs.pos_facts
  have hnit := hs.pend_ne f3 hn
  have hnp := hs.pend_ne f4 hn
  have hnl : l.mem n ≠ none :=
    hs.mem_live (List.mem_cons_of_mem _ (List.mem_append_right _ hn))
  have hpl := hs.mem_live (hs.mem_sub f4)
  obtain ⟨l2, l3, l4, l5, e2, g2, e3, g3, e4, e5, u⟩ :=
    link_steps (l := { l with count := sz_inc l.count }) hnl f1 hpl hnit hnp
  refine ⟨l5, ?_, ?_, ?_, u.fake, u.brk, u.bf⟩
  · simp only [emplace_node, e2, g2, e3, g3, e4, e5, Except.bind_ok_eq, Except.pure_eq_ok]
  · exact hs.link_node hn u.fake u.brk u.nx u.pv u.bf
  · rw [u.count]
    have := hs.count_lt
    have : 0 < pend.length := List.length_pos_of_mem hn
    simp only [hc, List.length_append, List.length_cons] at *
    rw [sz_inc_eq (by omega)]; omega

/-- `create_node` makes a pending node and leaves the linked nodes alone. -/
theorem create_node_spec {l : DList T} {xs pend : List Nat} (x : T)
    (hs : l.Shape xs pend) (hc : l.count = xs.length) (hlt : l.brk < addr_space) :
    ∃ l2, l.create_node x = .ok (l.brk, l2) ∧ l2.Shape xs (l.brk :: pend) ∧
      l2.count = l.count ∧ l2.fake = l.fake ∧ l2.brk = l.brk + 1 ∧
      bufOf l2.mem l.brk = some (some x) ∧ ∀ z, z ≠ l.brk → bufOf l2.mem z = bufOf l.mem z := by
  obtain ⟨l1, e1, u⟩ := make_node_spec l x hlt
  refine ⟨{ l1 with count := sz_dec l1.count }, ?_, ?_, ?_, u.fake, u.brk, ?_, ?_⟩
  · simp only [create_node, e1, Except.bind_ok_eq, Except.pure_eq_ok]
  · refine hs.alloc (x := x) hlt u.fake u.brk ?_ ?_ ?_ ?_
    · intro z hz; show nxt l1.mem z = _; rw [u.nx]; simp [hz]
    · intro z hz; show prv l1.mem z = _; rw [u.pv]; simp [hz]
    · intro z hz; show bufOf l1.mem z = _; rw [u.bf]; simp [hz]
    · show bufOf l1.mem _ = _; rw [u.bf]; simp
  · show sz_dec l1.count = _
    have := hs.count_lt
    rw [u.count, hc, sz_inc_eq (by omega), sz_dec_eq (by omega)]
  · show bufOf l1.mem _ = _; rw [u.bf]; simp
  · intro z hz; show bufOf l1.mem z = _; rw [u.bf]; simp [hz]

/-- `remove_node` discards a pending node and leaves the linked nodes alone. -/
theorem remove_node_spec {l : DList T} {xs pend : List Nat} {n : Nat}
    (hs : l.Shape xs pend) (hc : l.count = xs.length) (hn : n ∈ pend) :
    ∃ l2, l.remove_node n = .ok l2 ∧ l2.Shape xs (pend.erase n) ∧
      l2.count = l.count ∧ l2.fake = l.fake ∧ l2.brk = l.brk ∧
      ∀ z, z ≠ n → bufOf l2.mem z = bufOf l.mem z := by
  obtain ⟨v, hv⟩ := hs.bufs n (List.mem_append_right _ hn)
  obtain ⟨l1, e1, u⟩ := delete_node_spec hv
  refine ⟨{ l1 with count := sz_inc l1.count }, ?_, ?_, ?_, u.fake, u.brk, ?_⟩
  · simp only [remove_node, e1, Except.bind_ok_eq, Except.pure_eq_ok]
  · refine hs.drop_node hn u.fake u.brk ?_ ?_ ?_ ?_
    · intro z hz; show nxt l1.mem z = _; rw [u.nx]; simp [hz]
    · intro z hz; show prv l1.mem z = _; rw [u.pv]; simp [hz]
    · intro z hz; show bufOf l1.mem z = _; rw [u.bf]; simp [hz]
    · show bufOf l1.mem _ = _; rw [u.bf]; simp
  · show sz_inc l1.count = _
    have := hs.count_lt
    rw [u.count, sz_inc_dec (by omega)]
  · intro z hz; show bufOf l1.mem z = _; rw [u.bf]; simp [hz]

end DList

/-! ## `emplace`, `insert`, `erase` -/

namespace DList

/-- `emplace` constructs a value in a new node linked before a position. -/
theorem list_emplace_spec {l : DList T} {pre rest : List Nat} (x : T)
    (hs : l.Shape (pre ++ rest) []) (hc : l.count = (pre ++ rest).length)
    (hlt : l.brk < addr_space) :
    ∃ l2, l.emplace (headOr rest l.fake) x = .ok (l.brk, l2) ∧
      l2.Shape (pre ++ l.brk :: rest) [] ∧ l2.count = (pre ++ l.brk :: rest).length ∧
      l2.fake = l.fake ∧ l2.brk = l.brk + 1 ∧
      bufOf l2.mem l.brk = some (some x) ∧ ∀ z, z ≠ l.brk → bufOf l2.mem z = bufOf l.mem z := by
  obtain ⟨l1, e1, s1, c1, f1, b1, v1, o1⟩ := create_node_spec x hs hc hlt
  obtain ⟨l2, e2, s2, c2, f2, b2, o2⟩ :=
    emplace_node_spec s1 (c1.trans hc) (List.mem_cons_self _ _)
  rw [f1] at e2
  refine ⟨l2, ?_, ?_, c2, f2.trans f1, b2.trans b1, ?_, ?_⟩
  · simp only [emplace, e1, e2, Except.bind_ok_eq]
  · simpa using s2
  · rw [o2]; exact v1
  · intro z hz; rw [o2]; exact o1 z hz

/-- `insert` constructs a value in a new node linked before a position. -/
theorem list_insert_spec {l : DList T} {pre rest pend : List Nat} (x : T)
    (hs : l.Shape (pre ++ rest) pend) (hc : l.count = (pre ++ rest).length)
    (hlt : l.brk < addr_space) :
    ∃ l2, l.insert (headOr rest l.fake) x = .ok l2 ∧
      l2.Shape (pre ++ l.brk :: rest) pend ∧ l2.count = (pre ++ l.brk :: rest).length ∧
      l2.fake = l.fake ∧ l2.brk = l.brk + 1 ∧
      bufOf l2.mem l.brk = some (some x) ∧ ∀ z, z ≠ l.brk → bufOf l2.mem z = bufOf l.mem z := by
  obtain ⟨l1, e1, u1⟩ := make_node_spec l x hlt
  have s1 : l1.Shape (pre ++ rest) (l.brk :: pend) := by
    refine hs.alloc (x := x) hlt u1.fake u1.brk ?_ ?_ ?_ ?_
    · intro z hz; rw [u1.nx]; simp [hz]
    · intro z hz; rw [u1.pv]; simp [hz]
    · intro z hz; rw [u1.bf]; simp [hz]
    · rw [u1.bf]; simp
  have hn : l.brk ∈ l.brk :: pend := List.mem_cons_self _ _
  obtain ⟨f1, _, f3, f4⟩ := s1.pos_facts
  have hnit := s1.pend_ne f3 hn
  have hnp := s1.pend_ne f4 hn
  have hnl : l1.mem l.brk ≠ none :=
    s1.mem_live (List.mem_cons_of_mem _ (List.mem_append_right _ hn))
  have hpl := s1.mem_live (s1.mem_sub f4)
  obtain ⟨l2, l3, l4, l5, e2, g2, e3, g3, e4, e5, u⟩ := link_steps hnl f1 hpl hnit hnp
  simp only [u1.fake] at e2 g2 e3 g3 e4 e5
  refine ⟨l5, ?_, ?_, ?_, u.fake.trans u1.fake, u.brk.trans u1.brk, ?_, ?_⟩
  · simp only [insert, e1, e2, g2, e3, g3, e4, e5, Except.bind_ok_eq]
  · have := s1.link_node hn u.fake u.brk u.nx u.pv u.bf
    simpa using this
  · rw [u.count, u1.count]
    have := hs.count_lt
    simp only [hc, List.length_append, List.length_cons] at *
    rw [sz_inc_eq (by omega)]; omega
  · rw [u.bf, u1.bf]; simp
  · intro z hz; rw [u.bf, u1.bf]; simp [hz]

/-- `erase` unlinks and frees the node at a position. -/
theorem list_erase_spec {l : DList T} {pre post pend : List Nat} {x : Nat}
    (hs : l.Shape (pre ++ x :: post) pend) (hc : l.count = (pre ++ x :: post).length) :
    ∃ l2, l.erase x = .ok l2 ∧ l2.Shape (pre ++ post) pend ∧
      l2.count = (pre ++ post).length ∧ l2.fake = l.fake ∧ l2.brk = l.brk ∧
      ∀ z, z ≠ x → bufOf l2.mem z = bufOf l.mem z := by
  have hq : nxt l.mem x = some (headOr post l.fake) := by
    have := hs.fwd
    rw [show pre ++ x :: post = (pre ++ [x]) ++ post by simp] at this
    have := Chain.adj this
    rwa [lastOr_append_singleton] at this
  have hp : prv l.mem x = some (lastOr pre l.fake) := by
    have := hs.pos_facts (p := pre) (r := x :: post)
    simpa [headOr] using this.1
  have hnd := hs.nodup
  rw [← List.cons_append] at hnd
  have hnd1 := (List.nodup_append.mp hnd).1
  rw [← List.cons_append] at hnd1
  have hpx : lastOr pre l.fake ≠ x := by
    intro e
    exact (List.nodup_append.mp hnd1).2.2 (lastOr_mem pre l.fake)
      (by rw [e]; exact List.mem_cons_self _ _)
  have hqx : headOr post l.fake ≠ x := by
    intro e
    rcases List.mem_cons.mp (headOr_mem post l.fake) with h | h
    · rw [h] at e
      exact (List.nodup_append.mp hnd1).2.2 (List.mem_cons_self _ _)
        (by rw [e]; exact List.mem_cons_self _ _)
    · have := (List.nodup_append.mp hnd1).2.1
      exact (List.nodup_cons.mp this).1 (e ▸ h)
  have hpm : lastOr pre l.fake ∈ l.fake :: ((pre ++ x :: post) ++ pend) := by
    rcases List.mem_cons.mp (lastOr_mem pre l.fake) with h | h
    · simp [h]
    · exact List.mem_cons_of_mem _ (List.mem_append_left _ (List.mem_append_left _ h))
  have hqm : headOr post l.fake ∈ l.fake :: ((pre ++ x :: post) ++ pend) := by
    rcases List.mem_cons.mp (headOr_mem post l.fake) with h | h
    · simp [h]
    · exact List.mem_cons_of_mem _ (List.mem_append_left _
        (List.mem_append_right _ (List.mem_cons_of_mem _ h)))
  obtain ⟨v, hv⟩ := hs.bufs x (List.mem_append_left _ (by simp))
  have g1 : l.getPrev x = .ok (lastOr pre l.fake) := getPrev_eq_ok.mpr hp
  have g2 : l.getNext x = .ok (headOr post l.fake) := getNext_eq_ok.mpr hq
  obtain ⟨l2, e2, u2⟩ := setNext_spec (headOr post l.fake) (hs.mem_live hpm)
  have g3 : l2.getNext x = .ok (headOr post l.fake) := getNext_eq_ok.mpr (by
    rw [u2.nx, if_neg (Ne.symm hpx)]; exact hq)
  have g4 : l2.getPrev x = .ok (lastOr pre l.fake) := getPrev_eq_ok.mpr (by
    rw [u2.pv]; exact hp)
  have hql : l2.mem (headOr post l.fake) ≠ none := by
    rw [← bufOf_eq_none.ne, u2.bf, bufOf_eq_none.ne]
    exact hs.mem_live hqm
  obtain ⟨l3, e3, u3⟩ := setPrev_spec (lastOr pre l.fake) hql
  have hv3 : bufOf l3.mem x = some (some v) := by rw [u3.bf, u2.bf]; exact hv
  obtain ⟨l4, e4, u4⟩ := delete_node_spec hv3
  refine ⟨l4, ?_, ?_, ?_, ?_, ?_, ?_⟩
  · simp only [erase, g1, g2, e2, g3, g4, e3, e4, Except.bind_ok_eq]
  · refine hs.unlink_node (by rw [u4.fake, u3.fake, u2.fake]) (by rw [u4.brk, u3.brk, u2.brk])
      ?_ ?_ ?_ ?_
    · intro z hz; rw [u4.nx, if_neg hz, u3.nx, u2.nx]
    · intro z hz; rw [u4.pv, if_neg hz, u3.pv, u2.pv]
    · intro z hz; rw [u4.bf, if_neg hz, u3.bf, u2.bf]
    · rw [u4.bf, if_pos rfl]
  · rw [u4.count, u3.count, u2.count, hc]
    have := hs.count_lt
    simp only [List.length_append, List.length_cons] at *
    rw [show pre.length + (post.length + 1) = (pre.length + post.length) + 1 by omega,
      sz_dec_eq (by omega)]
  · rw [u4.fake, u3.fake, u2.fake]
  · rw [u4.brk, u3.brk, u2.brk]
  · intro z hz; rw [u4.bf, if_neg hz, u3.bf, u2.bf]

end DList

/-! ## `push_back`, `push_front` -/

namespace DList

theorem Upd.live_iff {l l2 : DList T} {nx pv : Nat → Option Nat} {b c : Nat}
    (u : Upd l l2 nx pv (bufOf l.mem) b c) (z : Nat) : l2.mem z ≠ none ↔ l.mem z ≠ none := by
  rw [← bufOf_eq_none.ne, ← bufOf_eq_none.ne, u.bf]

/-- `push_back` appends a new node. -/
theorem push_back_spec {l : DList T} {xs pend : List Nat} (x : T)
    (hs : l.Shape xs pend) (hc : l.count = xs.length) (hlt : l.brk < addr_space) :
    ∃ l2, l.push_back x = .ok l2 ∧ l2.Shape (xs ++ [l.brk]) pend ∧
      l2.count = (xs ++ [l.brk]).length ∧ l2.fake = l.fake ∧ l2.brk = l.brk + 1 ∧
      bufOf l2.mem l.brk = some (some x) ∧ ∀ z, z ≠ l.brk → bufOf l2.mem z = bufOf l.mem z := by
  obtain ⟨l1, e1, u1⟩ := make_node_spec l x hlt
  have hs0 : l.Shape (xs ++ []) pend := by simpa using hs
  have s1 : l1.Shape (xs ++ []) (l.brk :: pend) := by
    refine hs0.alloc (x := x) hlt u1.fake u1.brk ?_ ?_ ?_ ?_
    · intro z hz; rw [u1.nx]; simp [hz]
    · intro z hz; rw [u1.pv]; simp [hz]
    · intro z hz; rw [u1.bf]; simp [hz]
    · rw [u1.bf]; simp
  have hn : l.brk ∈ l.brk :: pend := List.mem_cons_self _ _
  obtain ⟨f1, _, f3, f4⟩ := s1.pos_facts
  simp only [headOr] at f1 f3
  have hnit := s1.pend_ne f3 hn
  have hnp := s1.pend_ne f4 hn
  have hnl : l1.mem l.brk ≠ none :=
    s1.mem_live (List.mem_cons_of_mem _ (List.mem_append_right _ hn))
  have hpl := s1.mem_live (s1.mem_sub f4)
  have hfl := s1.mem_live (s1.mem_sub f3)
  have hcnt : l1.count ≠ 0 := by
    rw [u1.count, hc]
    have := hs.count_lt
    rw [sz_inc_eq (by omega)]; omega
  have g1 : l1.getPrev l1.fake = .ok (lastOr xs l1.fake) := getPrev_eq_ok.mpr f1
  obtain ⟨l2, e2, u2⟩ := setPrev_spec (lastOr xs l1.fake) hnl
  have g2 : l2.getPrev l2.fake = .ok (lastOr xs l1.fake) := getPrev_eq_ok.mpr (by
    rw [u2.fake, u2.pv, if_neg (Ne.symm hnit)]; exact f1)
  have hsz : l2.size ≠ 0 := by unfold size; rw [u2.count]; exact hcnt
  obtain ⟨l3, e3, u3⟩ := setNext_spec l.brk ((u2.live_iff _).mpr hpl)
  obtain ⟨l4, e4, u4⟩ := setPrev_spec l.brk
    ((u3.live_iff _).mpr ((u2.live_iff _).mpr hfl))
  have ef3 : l3.fake = l1.fake := by rw [u3.fake, u2.fake]
  refine ⟨l4, ?_, ?_, ?_, ?_, ?_, ?_, ?_⟩
  · simp only [push_back, e1, g1, e2, hsz, g2, e3, ef3, e4, Except.bind_ok_eq, if_true,
      ne_eq, not_false_eq_true]
  · have := s1.link_node hn (k := l4) (by rw [u4.fake, u3.fake, u2.fake])
      (by rw [u4.brk, u3.brk, u2.brk]) ?_ ?_ ?_
    · simpa using this
    · intro z
      rw [u4.nx, u3.nx, u2.nx]
      by_cases h1 : z = l.brk
      · subst h1; rw [if_neg hnp, if_pos rfl, u1.nx, if_pos rfl]; simp [headOr, u1.fake]
      · simp [h1]
    · intro z
      rw [u4.pv, u3.pv, u2.pv]
      by_cases h1 : z = l.brk
      · subst h1; rw [if_neg hnit, if_pos rfl, if_pos rfl]
      · simp [h1, headOr]
    · intro z; rw [u4.bf, u3.bf, u2.bf]
  · rw [u4.count, u3.count, u2.count, u1.count, hc]
    have := hs.count_lt
    rw [sz_inc_eq (by omega)]; simp
  · rw [u4.fake, u3.fake, u2.fake, u1.fake]
  · rw [u4.brk, u3.brk, u2.brk, u1.brk]
  · rw [u4.bf, u3.bf, u2.bf, u1.bf]; simp
  · intro z hz; rw [u4.bf, u3.bf, u2.bf, u1.bf]; simp [hz]

/-- `push_front` prepends a new node. -/
theorem push_front_spec {l : DList T} {xs pend : List Nat} (x : T)
    (hs : l.Shape xs pend) (hc : l.count = xs.length) (hlt : l.brk < addr_space) :
    ∃ l2, l.push_front x = .ok l2 ∧ l2.Shape (l.brk :: xs) pend ∧
      l2.count = (l.brk :: xs).length ∧ l2.fake = l.fake ∧ l2.brk = l.brk + 1 ∧
      bufOf l2.mem l.brk = some (some x) ∧ ∀ z, z ≠ l.brk → bufOf l2.mem z = bufOf l.mem z := by
  obtain ⟨l1, e1, u1⟩ := make_node_spec l x hlt
  have hs0 : l.Shape ([] ++ xs) pend := by simpa using hs
  have s1 : l1.Shape ([] ++ xs) (l.brk :: pend) := by
    refine hs0.alloc (x := x) hlt u1.fake u1.brk ?_ ?_ ?_ ?_
    · intro z hz; rw [u1.nx]; simp [hz]
    · intro z hz; rw [u1.pv]; simp [hz]
    · intro z hz; rw [u1.bf]; simp [hz]
    · rw [u1.bf]; simp
  have hn : l.brk ∈ l.brk :: pend := List.mem_cons_self _ _
  obtain ⟨_, f2, f3, f4⟩ := s1.pos_facts
  simp only [lastOr] at f2 f4
  have hnit := s1.pend_ne f3 hn
  have hnp := s1.pend_ne f4 hn
  have hnl : l1.mem l.brk ≠ none :=
    s1.mem_live (List.mem_cons_of_mem _ (List.mem_append_right _ hn))
  have hhl := s1.mem_live (s1.mem_sub f3)
  have hfl := s1.mem_live (s1.mem_sub f4)
  have hcnt : l1.count ≠ 0 := by
    rw [u1.count, hc]
    have := hs.count_lt
    rw [sz_inc_eq (by omega)]; omega
  have g1 : l1.getNext l1.fake = .ok (headOr xs l1.fake) := getNext_eq_ok.mpr f2
  obtain ⟨l2, e2, u2⟩ := setNext_spec (headOr xs l1.fake) hnl
  have g2 : l2.getNext l2.fake = .ok (headOr xs l1.fake) := getNext_eq_ok.mpr (by
    rw [u2.fake, u2.nx, if_neg (Ne.symm hnp)]; exact f2)
  have hsz : l2.size ≠ 0 := by unfold size; rw [u2.count]; exact hcnt
  obtain ⟨l3, e3, u3⟩ := setPrev_spec l.brk ((u2.live_iff _).mpr hhl)
  obtain ⟨l4, e4, u4⟩ := setNext_spec l.brk
    ((u3.live_iff _).mpr ((u2.live_iff _).mpr hfl))
  have ef3 : l3.fake = l1.fake := by rw [u3.fake, u2.fake]
  refine ⟨l4, ?_, ?_, ?_, ?_, ?_, ?_, ?_⟩
  · simp only [push_front, e1, g1, e2, hsz, g2, e3, ef3, e4, Except.bind_ok_eq, if_true,
      ne_eq, not_false_eq_true]
  · have := s1.link_node hn (k := l4) (by rw [u4.fake, u3.fake, u2.fake])
      (by rw [u4.brk, u3.brk, u2.brk]) ?_ ?_ ?_
    · simpa using this
    · intro z
      rw [u4.nx, u3.nx, u2.nx]
      by_cases h1 : z = l.brk
      · subst h1; rw [if_neg hnp, if_pos rfl, if_pos rfl]
      · simp [h1, lastOr]
    · intro z
      rw [u4.pv, u3.pv, u2.pv]
      by_cases h1 : z = l.brk
      · subst h1; rw [if_neg hnit, if_pos rfl, u1.pv, if_pos rfl]; simp [lastOr, u1.fake]
      · simp [h1]
    · intro z; rw [u4.bf, u3.bf, u2.bf]
  · rw [u4.count, u3.count, u2.count, u1.count, hc]
    have := hs.count_lt
    rw [sz_inc_eq (by omega)]; simp
  · rw [u4.fake, u3.fake, u2.fake, u1.fake]
  · rw [u4.brk, u3.brk, u2.brk, u1.brk]
  · rw [u4.bf, u3.bf, u2.bf, u1.bf]; simp
  · intro z hz; rw [u4.bf, u3.bf, u2.bf, u1.bf]; simp [hz]

end DList

/-! ## `pop_back`, `pop_front` -/

namespace DList

/-- `pop_back` unlinks and frees the last node. -/
theorem pop_back_spec {l : DList T} {pre pend : List Nat} {x : Nat}
    (hs : l.Shape (pre ++ [x]) pend) (hc : l.count = (pre ++ [x]).length) :
    ∃ l2, l.pop_back = .ok l2 ∧ l2.Shape pre pend ∧
      l2.count = pre.length ∧ l2.fake = l.fake ∧ l2.brk = l.brk ∧
      ∀ z, z ≠ x → bufOf l2.mem z = bufOf l.mem z := by
  have hx : prv l.mem l.fake = some x := by
    have hs1 : l.Shape ((pre ++ [x]) ++ []) pend := by simpa using hs
    have := hs1.pos_facts.1
    simpa [headOr, lastOr_append_singleton] using this
  have hp : prv l.mem x = some (lastOr pre l.fake) := by
    have := (hs.pos_facts (p := pre) (r := [x])).1
    simpa [headOr] using this
  have hnd := hs.nodup
  rw [← List.cons_append, ← List.cons_append] at hnd
  have hnd1 := (List.nodup_append.mp (List.nodup_append.mp hnd).1)
  have hpx : lastOr pre l.fake ≠ x := fun e =>
    hnd1.2.2 (lastOr_mem pre l.fake) (by rw [e]; exact List.mem_cons_self _ _)
  have hfx : l.fake ≠ x := fun e =>
    hnd1.2.2 (List.mem_cons_self _ _) (by rw [e]; exact List.mem_cons_self _ _)
  have hpm : lastOr pre l.fake ∈ l.fake :: ((pre ++ [x]) ++ pend) := by
    rcases List.mem_cons.mp (lastOr_mem pre l.fake) with h | h
    · simp [h]
    · exact List.mem_cons_of_mem _ (List.mem_append_left _ (List.mem_append_left _ h))
  have hfl := hs.mem_live (List.mem_cons_self _ _)
  obtain ⟨v, hv⟩ := hs.bufs x (List.mem_append_left _ (by simp))
  have g1 : l.getPrev l.fake = .ok x := getPrev_eq_ok.mpr hx
  have g2 : l.getPrev x = .ok (lastOr pre l.fake) := getPrev_eq_ok.mpr hp
  obtain ⟨l2, e2, u2⟩ := setPrev_spec (lastOr pre l.fake) hfl
  have g3 : l2.getPrev l2.fake = .ok (lastOr pre l.fake) := getPrev_eq_ok.mpr (by
    rw [u2.fake, u2.pv, if_pos rfl])
  obtain ⟨l3, e3, u3⟩ := setNext_spec l2.fake ((u2.live_iff _).mpr (hs.mem_live hpm))
  have hv3 : bufOf l3.mem x = some (some v) := by rw [u3.bf, u2.bf]; exact hv
  obtain ⟨l4, e4, u4⟩ := delete_node_spec hv3
  have hcnt : l4.count = pre.length := by
    rw [u4.count, u3.count, u2.count, hc]
    have := hs.count_lt
    simp only [List.length_append, List.length_cons, List.length_nil] at *
    rw [sz_dec_eq (by omega)]
  have hnx4 : ∀ z, z ≠ x → nxt l4.mem z =
      if z = lastOr pre l.fake then some (headOr [] l.fake) else nxt l.mem z := by
    intro z hz; rw [u4.nx, if_neg hz, u3.nx, u2.nx, u2.fake]; simp [headOr]
  have hpv4 : ∀ z, z ≠ x → prv l4.mem z =
      if z = headOr [] l.fake then some (lastOr pre l.fake) else prv l.mem z := by
    intro z hz; rw [u4.pv, if_neg hz, u3.pv, u2.pv]; simp [headOr]
  have hbf4 : ∀ z, z ≠ x → bufOf l4.mem z = bufOf l.mem z := by
    intro z hz; rw [u4.bf, if_neg hz, u3.bf, u2.bf]
  have hf4 : l4.fake = l.fake := by rw [u4.fake, u3.fake, u2.fake]
  have hb4 : l4.brk = l.brk := by rw [u4.brk, u3.brk, u2.brk]
  have hx4 : bufOf l4.mem x = none := by rw [u4.bf, if_pos rfl]
  have ef3 : l3.fake = l2.fake := u3.fake
  by_cases hz : l4.size = 0
  · have hpre : pre = [] := List.length_eq_zero.mp (by rw [← hcnt]; exact hz)
    have hfl4 : l4.mem l4.fake ≠ none := by
      rw [hf4, ← bufOf_eq_none.ne, hbf4 _ hfx, bufOf_eq_none.ne]; exact hfl
    obtain ⟨l5, e5, u5⟩ := setNext_spec l4.fake hfl4
    refine ⟨l5, ?_, ?_, ?_, ?_, ?_, ?_⟩
    · simp only [pop_back, g1, g2, e2, g3, e3, e4, hz, e5, Except.bind_ok_eq, if_true]
    · have := hs.unlink_node (q := []) (k := l5) (by rw [u5.fake, hf4]) (by rw [u5.brk, hb4])
        ?_ ?_ ?_ ?_
      · simpa using this
      · intro z hzx
        rw [u5.nx, hnx4 z hzx, hf4, hpre]
        by_cases h1 : z = l.fake <;> simp [lastOr, headOr, h1]
      · intro z hzx; rw [u5.pv, hpv4 z hzx]
      · intro z hzx; rw [u5.bf, hbf4 z hzx]
      · rw [u5.bf, hx4]
    · rw [u5.count, hcnt]
    · rw [u5.fake, hf4]
    · rw [u5.brk, hb4]
    · intro z hzx; rw [u5.bf, hbf4 z hzx]
  · refine ⟨l4, ?_, ?_, hcnt, hf4, hb4, hbf4⟩
    · simp only [pop_back, g1, g2, e2, g3, e3, e4, hz, Except.bind_ok_eq, if_false,
        Except.pure_eq_ok]
    · have := hs.unlink_node (q := []) (k := l4) hf4 hb4 hnx4 hpv4 hbf4 hx4
      simpa using this

/-- `pop_front` unlinks and frees the first node. -/
theorem pop_front_spec {l : DList T} {post pend : List Nat} {x : Nat}
    (hs : l.Shape (x :: post) pend) (hc : l.count = (x :: post).length) :
    ∃ l2, l.pop_front = .ok l2 ∧ l2.Shape post pend ∧
      l2.count = post.length ∧ l2.fake = l.fake ∧ l2.brk = l.brk ∧
      ∀ z, z ≠ x → bufOf l2.mem z = bufOf l.mem z := by
  have hs0 : l.Shape ([] ++ x :: post) pend := by simpa using hs
  have hx : nxt l.mem l.fake = some x := by
    have := (hs0.pos_facts).2.1
    simpa [headOr, lastOr] using this
  have hq : nxt l.mem x = some (headOr post l.fake) := by
    have := (hs.pos_facts (p := [x]) (r := post)).2.1
    simpa [lastOr] using this
  have hnd := hs.nodup
  rw [← List.cons_append] at hnd
  have hnd1 := (List.nodup_append.mp hnd).1
  have hfx : l.fake ≠ x := fun e => by
    rw [e] at hnd1
    exact (List.nodup_cons.mp hnd1).1 (List.mem_cons_self _ _)
  have hqx : headOr post l.fake ≠ x := by
    intro e
    rcases List.mem_cons.mp (headOr_mem post l.fake) with h | h
    · exact hfx (h ▸ e)
    · have := (List.nodup_cons.mp hnd1).2
      exact (List.nodup_cons.mp this).1 (e ▸ h)
  have hqm : headOr post l.fake ∈ l.fake :: ((x :: post) ++ pend) := by
    rcases List.mem_cons.mp (headOr_mem post l.fake) with h | h
    · simp [h]
    · exact List.mem_cons_of_mem _ (List.mem_append_left _ (List.mem_cons_of_mem _ h))
  have hfl := hs.mem_live (List.mem_cons_self _ _)
  obtain ⟨v, hv⟩ := hs.bufs x (List.mem_append_left _ (by simp))
  have g1 : l.getNext l.fake = .ok x := getNext_eq_ok.mpr hx
  have g2 : l.getNext x = .ok (headOr post l.fake) := getNext_eq_ok.mpr hq
  obtain ⟨l2, e2, u2⟩ := setNext_spec (headOr post l.fake) hfl
  have g3 : l2.getNext l2.fake = .ok (headOr post l.fake) := getNext_eq_ok.mpr (by
    rw [u2.fake, u2.nx, if_pos rfl])
  obtain ⟨l3, e3, u3⟩ := setPrev_spec l2.fake ((u2.live_iff _).mpr (hs.mem_live hqm))
  have hv3 : bufOf l3.mem x = some (some v) := by rw [u3.bf, u2.bf]; exact hv
  obtain ⟨l4, e4, u4⟩ := delete_node_spec hv3
  have hcnt : l4.count = post.length := by
    rw [u4.count, u3.count, u2.count, hc]
    have := hs.count_lt
    simp only [List.length_cons] at *
    rw [sz_dec_eq (by omega)]
  have hnx4 : ∀ z, z ≠ x → nxt l4.mem z =
      if z = lastOr [] l.fake then some (headOr post l.fake) else nxt l.mem z := by
    intro z hz; rw [u4.nx, if_neg hz, u3.nx, u2.nx]; simp [lastOr]
  have hpv4 : ∀ z, z ≠ x → prv l4.mem z =
      if z = headOr post l.fake then some (lastOr [] l.fake) else prv l.mem z := by
    intro z hz; rw [u4.pv, if_neg hz, u3.pv, u2.pv, u2.fake]; simp [lastOr]
  have hbf4 : ∀ z, z ≠ x → bufOf l4.mem z = bufOf l.mem z := by
    intro z hz; rw [u4.bf, if_neg hz, u3.bf, u2.bf]
  have hf4 : l4.fake = l.fake := by rw [u4.fake, u3.fake, u2.fake]
  have hb4 : l4.brk = l.brk := by rw [u4.brk, u3.brk, u2.brk]
  have hx4 : bufOf l4.mem x = none := by rw [u4.bf, if_pos rfl]
  by_cases hz : l4.size = 0
  · have hpost : post = [] := List.length_eq_zero.mp (by rw [← hcnt]; exact hz)
    have hfl4 : l4.mem l4.fake ≠ none := by
      rw [hf4, ← bufOf_eq_none.ne, hbf4 _ hfx, bufOf_eq_none.ne]; exact hfl
    obtain ⟨l5, e5, u5⟩ := setPrev_spec l4.fake hfl4
    refine ⟨l5, ?_, ?_, ?_, ?_, ?_, ?_⟩
    · simp only [pop_front, g1, g2, e2, g3, e3, e4, hz, e5, Except.bind_ok_eq, if_true]
    · have := hs0.unlink_node (k := l5) (by rw [u5.fake, hf4]) (by rw [u5.brk, hb4])
        ?_ ?_ ?_ ?_
      · simpa using this
      · intro z hzx; rw [u5.nx, hnx4 z hzx]
      · intro z hzx
        rw [u5.pv, hpv4 z hzx, hf4, hpost]
        by_cases h1 : z = l.fake <;> simp [lastOr, headOr, h1]
      · intro z hzx; rw [u5.bf, hbf4 z hzx]
      · rw [u5.bf, hx4]
    · rw [u5.count, hcnt]
    · rw [u5.fake, hf4]
    · rw [u5.brk, hb4]
    · intro z hzx; rw [u5.bf, hbf4 z hzx]
  · refine ⟨l4, ?_, ?_, hcnt, hf4, hb4, hbf4⟩
    · simp only [pop_front, g1, g2, e2, g3, e3, e4, hz, Except.bind_ok_eq, if_false,
        Except.pure_eq_ok]
    · have := hs0.unlink_node (k := l4) hf4 hb4 hnx4 hpv4 hbf4 hx4
      simpa using this

end DList

/-! ## Traversal; reachable lists -/

namespace DList

theorem walk_chain {l : DList T} : ∀ (ys : List Nat) (a fuel : Nat),
    Chain (nxt l.mem) a ys l.fake → a ≠ l.fake → l.fake ∉ ys → ys.length + 2 ≤ fuel →
    l.walk fuel a = .ok (a :: ys)
  | [], a, fuel, hc, ha, _, hf => by
    obtain ⟨f, rfl⟩ : ∃ f, fuel = f + 2 := ⟨fuel - 2, by simp at hf; omega⟩
    simp only [Chain] at hc
    simp [walk, ha, getNext_eq_ok.mpr hc, Except.bind_ok_eq, Except.pure_eq_ok]
  | y :: ys, a, fuel, hc, ha, hy, hf => by
    obtain ⟨f, rfl⟩ : ∃ f, fuel = f + 1 := ⟨fuel - 1, by simp at hf; omega⟩
    simp only [Chain] at hc
    have hyf : y ≠ l.fake := fun e => hy (by simp [e])
    have ih := walk_chain ys y f hc.2 hyf (fun h => hy (List.mem_cons_of_mem _ h))
      (by simp at hf; omega)
    simp [walk, ha, getNext_eq_ok.mpr hc.1, ih, Except.bind_ok_eq, Except.pure_eq_ok]

/-- In a well-shaped list the loop from `begin()` to `end()` visits exactly the linked nodes. -/
theorem Shape.nodes_eq {l : DList T} {xs pend : List Nat} (hs : l.Shape xs pend) :
    l.nodes = .ok xs := by
  have hfx : l.fake ∉ xs := fun h =>
    (List.nodup_cons.mp hs.nodup).1 (List.mem_append_left _ h)
  have hroom := hs.room
  cases xs with
  | nil =>
    have := hs.fwd
    simp only [Chain] at this
    obtain ⟨f, hf⟩ : ∃ f, l.brk = f + 1 := ⟨l.brk - 1, by omega⟩
    simp [nodes, begin, getNext_eq_ok.mpr this, Except.bind_ok_eq, hf, walk, Except.pure_eq_ok]
  | cons x ys =>
    have := hs.fwd
    simp only [Chain] at this
    have hx : x ≠ l.fake := fun e => hfx (by simp [e])
    have hw := walk_chain ys x l.brk this.2 hx (fun h => hfx (List.mem_cons_of_mem _ h))
      (by simp at hroom; omega)
    simp [nodes, begin, getNext_eq_ok.mpr this.1, Except.bind_ok_eq, hw]

theorem value_congr {l l2 : DList T} {a : Nat} (h : bufOf l2.mem a = bufOf l.mem a) :
    l2.value a = l.value a := by
  unfold bufOf at h
  unfold value deref
  cases h1 : l.mem a <;> cases h2 : l2.mem a <;> simp [h1, h2] at h ⊢
  simp [Except.bind_ok_eq, h]

theorem values_congr {l l2 : DList T} : ∀ (as : List Nat),
    (∀ a ∈ as, bufOf l2.mem a = bufOf l.mem a) → l2.values as = l.values as
  | [], _ => rfl
  | a :: as, h => by
    simp only [values, value_congr (h a (List.mem_cons_self _ _)),
      values_congr as (fun b hb => h b (List.mem_cons_of_mem _ hb))]

theorem Shape.fresh : (DList.new : DList T).Shape [] [] := by
  constructor
  · simp [Chain, DList.new, nxt, Mem.set]
  · simp [Chain, DList.new, prv, Mem.set]
  · simp
  · intro a ha
    simp only [DList.new, bufOf, Mem.set] at ha ⊢
    by_cases h : a = 1
    · simp [h]
    · simp [h] at ha
  · simp [DList.new, bufOf, Mem.set]
  · simp
  · simp [DList.new]
  · simp [DList.new]
  · simp [DList.new, addr_space]

/-- A position of a well-shaped list splits the node sequence. -/
theorem pos_split {fake it : Nat} {xs : List Nat} (h : it ∈ fake :: xs) (hf : fake ∉ xs) :
    ∃ pre rest, xs = pre ++ rest ∧ it = headOr rest fake := by
  by_cases e : it ∈ xs
  · obtain ⟨pre, post, rfl⟩ := List.append_of_mem e
    exact ⟨pre, it :: post, rfl, rfl⟩
  · rcases List.mem_cons.mp h with h | h
    · exact ⟨xs, [], by simp, by simp [headOr, h]⟩
    · exact absurd h e

/-- Every reachable list is well shaped and its `count` is the number of linked nodes. -/
theorem ListReach.shape {l : DList T} {pend : List Nat} (h : ListReach l pend) :
    ∃ xs, l.Shape xs pend ∧ l.count = xs.length := by
  induction h with
  | ctor => exact ⟨[], Shape.fresh, rfl⟩
  | @push_back l l2 pend x _ e ih =>
    obtain ⟨xs, hs, hc⟩ := ih
    by_cases hlt : l.brk < addr_space
    · obtain ⟨l3, e3, s3, c3, _⟩ := push_back_spec x hs hc hlt
      rw [e] at e3; cases e3
      exact ⟨_, s3, c3⟩
    · simp [push_back, make_node, allocate, hlt, Except.bind_error_eq] at e
  | @push_front l l2 pend x _ e ih =>
    obtain ⟨xs, hs, hc⟩ := ih
    by_cases hlt : l.brk < addr_space
    · obtain ⟨l3, e3, s3, c3, _⟩ := push_front_spec x hs hc hlt
      rw [e] at e3; cases e3
      exact ⟨_, s3, c3⟩
    · simp [push_front, make_node, allocate, hlt, Except.bind_error_eq] at e
  | @pop_back l l2 pend ys _ hn hne e ih =>
    obtain ⟨xs, hs, hc⟩ := ih
    rw [hs.nodes_eq] at hn; cases hn
    rcases List.eq_nil_or_concat ys with h | ⟨pre, x, h⟩
    · exact absurd h hne
    · rw [List.concat_eq_append] at h
      subst h
      obtain ⟨l3, e3, s3, c3, _⟩ := pop_back_spec hs hc
      rw [e] at e3; cases e3
      exact ⟨_, s3, c3⟩
  | @pop_front l l2 pend ys _ hn hne e ih =>
    obtain ⟨xs, hs, hc⟩ := ih
    rw [hs.nodes_eq] at hn; cases hn
    cases ys with
    | nil => exact absurd rfl hne
    | cons x post =>
      obtain ⟨l3, e3, s3, c3, _⟩ := pop_front_spec hs hc
      rw [e] at e3; cases e3
      exact ⟨_, s3, c3⟩
  | @insert l l2 pend ys it x _ hn hit e ih =>
    obtain ⟨xs, hs, hc⟩ := ih
    have hfx : l.fake ∉ xs := fun h =>
      (List.nodup_cons.mp hs.nodup).1 (List.mem_append_left _ h)
    rw [hs.nodes_eq] at hn; cases hn
    have hit2 : it ∈ l.fake :: _ := hit
    obtain ⟨pre, rest, rfl, rfl⟩ := pos_split hit2 hfx
    by_cases hlt : l.brk < addr_space
    · obtain ⟨l3, e3, s3, c3, _⟩ := list_insert_spec x hs hc hlt
      rw [e] at e3; cases e3
      exact ⟨_, s3, c3⟩
    · simp [DList.insert, make_node, allocate, hlt, Except.bind_error_eq] at e
  | @erase l l2 pend ys it _ hn hit e ih =>
    obtain ⟨xs, hs, hc⟩ := ih
    rw [hs.nodes_eq] at hn; cases hn
    obtain ⟨pre, post, rfl⟩ := List.append_of_mem hit
    obtain ⟨l3, e3, s3, c3, _⟩ := list_erase_spec hs hc
    rw [e] at e3; cases e3
    exact ⟨_, s3, c3⟩
  | @create_node l l2 pend x n _ e ih =>
    obtain ⟨xs, hs, hc⟩ := ih
    by_cases hlt : l.brk < addr_space
    · obtain ⟨l3, e3, s3, c3, _⟩ := create_node_spec x hs hc hlt
      rw [e] at e3; cases e3
      exact ⟨_, s3, c3.trans hc⟩
    · simp [DList.create_node, make_node, allocate, hlt, Except.bind_error_eq] at e
  | @emplace_node l l2 pend ys it n r _ hn hit hnp e ih =>
    obtain ⟨xs, hs, hc⟩ := ih
    have hfx : l.fake ∉ xs := fun h =>
      (List.nodup_cons.mp hs.nodup).1 (List.mem_append_left _ h)
    rw [hs.nodes_eq] at hn; cases hn
    have hit2 : it ∈ l.fake :: _ := hit
    obtain ⟨pre, rest, rfl, rfl⟩ := pos_split hit2 hfx
    obtain ⟨l3, e3, s3, c3, _⟩ := emplace_node_spec hs hc hnp
    rw [e] at e3; cases e3
    exact ⟨_, s3, c3⟩
  | @remove_node l l2 pend n _ hnp e ih =>
    obtain ⟨xs, hs, hc⟩ := ih
    obtain ⟨l3, e3, s3, c3, _⟩ := remove_node_spec hs hc hnp
    rw [e] at e3; cases e3
    exact ⟨_, s3, c3.trans hc⟩
  | @emplace l l2 pend ys it r x _ hn hit e ih =>
    obtain ⟨xs, hs, hc⟩ := ih
    have hfx : l.fake ∉ xs := fun h =>
      (List.nodup_cons.mp hs.nodup).1 (List.mem_append_left _ h)
    rw [hs.nodes_eq] at hn; cases hn
    have hit2 : it ∈ l.fake :: _ := hit
    obtain ⟨pre, rest, rfl, rfl⟩ := pos_split hit2 hfx
    by_cases hlt : l.brk < addr_space
    · obtain ⟨l1, e1, s1, c1, f1, b1, v1, o1⟩ := create_node_spec x hs hc hlt
      obtain ⟨l3, e3, s3, c3, _⟩ := emplace_node_spec s1 (c1.trans hc) (List.mem_cons_self _ _)
      rw [f1] at e3
      simp only [DList.emplace, e1, Except.bind_ok_eq, e3] at e
      cases e
      refine ⟨_, ?_, c3⟩
      simpa using s3
    · simp [DList.emplace, DList.create_node, make_node, allocate, hlt,
        Except.bind_error_eq] at e

end DList

/-! ## The bucket cache and `rehash` -/

theorem Chain.next_mem {f : Nat → Option Nat} {b z : Nat} :
    ∀ {xs : List Nat} {a : Nat}, Chain f a xs b → z ∈ a :: xs → ∃ w, f z = some w ∧ w ∈ b :: xs
  | [], a, hc, hz => by
    simp only [List.mem_singleton] at hz
    subst hz
    exact ⟨b, hc, by simp⟩
  | x :: xs, a, hc, hz => by
    simp only [Chain] at hc
    rcases List.mem_cons.mp hz with h | h
    · subst h
      exact ⟨x, hc.1, by simp⟩
    · obtain ⟨w, hw, hm⟩ := Chain.next_mem hc.2 h
      refine ⟨w, hw, ?_⟩
      rcases List.mem_cons.mp hm with h2 | h2
      · simp [h2]
      · exact List.mem_cons_of_mem _ (List.mem_cons_of_mem _ h2)

namespace DList

theorem Shape.getNext_mem {l : DList T} {xs pend : List Nat} (hs : l.Shape xs pend) {a b : Nat}
    (ha : a ∈ l.fake :: xs) (h : l.getNext a = .ok b) : b ∈ l.fake :: xs := by
  obtain ⟨w, hw, hm⟩ := Chain.next_mem hs.fwd ha
  rw [getNext_eq_ok.mp h] at hw
  cases hw
  exact hm

theorem move_assign_new (src : DList T) :
    DList.move_assign (DList.new : DList T) src = .ok (src, { src with fake := 0, count := 0 }) := by
  simp [move_assign, DList.new, clear_loop, size, deallocate, deref, Mem.set,
    Except.bind_ok_eq, Except.pure_eq_ok]

theorem move_assign_null {d : DList T} (src : DList T) (h : d.fake = 0) :
    DList.move_assign d src = .ok (src, { src with fake := 0, count := 0 }) := by
  simp [move_assign, h, Except.bind_ok_eq, Except.pure_eq_ok]

end DList

namespace UnorderedMap

theorem get_hash_eq_ok {hash : K → Nat} {m : UnorderedMap K V} {k : K} {h : Nat} :
    m.get_hash hash k = .ok h ↔ m.buckets.length ≠ 0 ∧ h = hash k % m.buckets.length := by
  unfold get_hash
  by_cases e : m.buckets.length = 0
  · simp [e]
  · simp [e, Except.pure_eq_ok, eq_comm]

theorem bucket_eq_ok {m : UnorderedMap K V} {i p : Nat} :
    m.bucket i = .ok p ↔ m.buckets[i]? = some p := by
  unfold bucket
  cases m.buckets[i]? <;> simp [Except.pure_eq_ok]

theorem update_bucket_spec {hash : K → Nat} {l : DList (K × V)} {xs : List Nat}
    {m m2 : UnorderedMap K V} {it h : Nat} {kv : K × V}
    (e : m.update_bucket it h = .ok m2) (hc : CacheOK hash l xs m.buckets) (hit : it ∈ xs)
    (hv : bufOf l.mem it = some (some kv)) (hh : hash kv.1 % m.buckets.length = h) :
    CacheOK hash l xs m2.buckets ∧ m2.list = m.list ∧ m2.max_factor = m.max_factor ∧
      m2.buckets.length = m.buckets.length := by
  unfold update_bucket at e
  obtain ⟨p, hp, e⟩ := Except.bind_eq_ok_iff.mp e
  by_cases hz : p = 0
  · simp only [hz, if_true, Except.pure_eq_ok, Except.ok.injEq] at e
    subst e
    refine ⟨?_, rfl, rfl, by simp⟩
    intro i q hq hq0
    simp only [List.length_set]
    by_cases hi : i = h
    · subst hi
      have hlt : i < m.buckets.length := by
        have := bucket_eq_ok.mp hp
        exact (List.getElem?_eq_some_iff.mp this).1
      rw [List.getElem?_set_self hlt] at hq
      cases hq
      exact ⟨hit, kv, hv, hh⟩
    · rw [List.getElem?_set_ne (Ne.symm hi)] at hq
      exact hc i q hq hq0
  · simp only [hz, if_false, Except.pure_eq_ok, Except.ok.injEq] at e
    subst e
    exact ⟨hc, rfl, rfl, rfl⟩

theorem rehash_loop_spec {hash : K → Nat} {src : DList (K × V)} {xs pend : List Nat}
    (hs : src.Shape xs pend) : ∀ (fuel it : Nat) (copy copy2 : UnorderedMap K V),
    rehash_loop hash src fuel it copy = .ok copy2 → it ∈ src.fake :: xs →
    CacheOK hash src xs copy.buckets →
    CacheOK hash src xs copy2.buckets ∧ copy2.list = copy.list ∧
      copy2.max_factor = copy.max_factor
  | 0, _, _, _, e, _, _ => by simp [rehash_loop] at e
  | fuel + 1, it, copy, copy2, e, hit, hc => by
    unfold rehash_loop at e
    by_cases hf : it = src.cend
    · simp only [hf, if_true, Except.pure_eq_ok, Except.ok.injEq] at e
      subst e
      exact ⟨hc, rfl, rfl⟩
    · rw [if_neg hf] at e
      obtain ⟨kv, hkv, e⟩ := Except.bind_eq_ok_iff.mp e
      obtain ⟨h, hh, e⟩ := Except.bind_eq_ok_iff.mp e
      obtain ⟨c1, hc1, e⟩ := Except.bind_eq_ok_iff.mp e
      obtain ⟨nx, hnx, e⟩ := Except.bind_eq_ok_iff.mp e
      have hix : it ∈ xs := by
        rcases List.mem_cons.mp hit with h | h
        · exact absurd h hf
        · exact h
      obtain ⟨k1, k2, k3, _⟩ := update_bucket_spec hc1 hc hix (DList.value_eq_ok.mp hkv)
        (get_hash_eq_ok.mp hh).2.symm
      obtain ⟨r1, r2, r3⟩ := rehash_loop_spec hs fuel nx c1 copy2 e (hs.getNext_mem hit hnx) k1
      exact ⟨r1, r2.trans k2, r3.trans k3⟩

theorem vec_resize_zero {n : Nat} {cb : List Nat}
    (e : vec_resize (List.replicate 2 0) n = .ok cb) :
    ∀ (i p : Nat), cb[i]? = some p → p = 0 := by
  unfold vec_resize at e
  intro i p hp
  have hmem : p ∈ cb := List.getElem?_mem hp
  by_cases h1 : vec_max_size < n
  · rw [if_pos h1] at e; cases e
  · rw [if_neg h1] at e
    by_cases h2 : n ≤ (List.replicate 2 0).length
    · rw [if_pos h2] at e
      cases e
      have := List.mem_of_mem_take hmem
      exact List.eq_of_mem_replicate this
    · rw [if_neg h2] at e
      cases e
      rcases List.mem_append.mp hmem with h | h
      · exact List.eq_of_mem_replicate h
      · exact List.eq_of_mem_replicate h

/-- `rehash` keeps the list and leaves a valid cache. -/
theorem rehash_spec {hash : K → Nat} {m m2 : UnorderedMap K V} {xs : List Nat}
    (hi : m.Inv hash xs) (e : m.rehash hash = .ok m2) :
    m2.Inv hash xs ∧ m2.list = m.list := by
  unfold rehash at e
  by_cases hlt : F32.lt m.load_factor m.max_factor = true
  · rw [if_pos hlt] at e
    cases e
    exact ⟨hi, rfl⟩
  · rw [if_neg hlt] at e
    obtain ⟨n, _, e⟩ := Except.bind_eq_ok_iff.mp e
    obtain ⟨cb, hcb, e⟩ := Except.bind_eq_ok_iff.mp e
    obtain ⟨b, hb, e⟩ := Except.bind_eq_ok_iff.mp e
    obtain ⟨copy, hcopy, e⟩ := Except.bind_eq_ok_iff.mp e
    have hb2 : b ∈ m.list.fake :: xs :=
      hi.shape.getNext_mem (List.mem_cons_self _ _) hb
    have hc0 : CacheOK hash m.list xs cb := fun i p hp hp0 =>
      absurd (vec_resize_zero hcb i p hp) hp0
    obtain ⟨r1, r2, r3⟩ := rehash_loop_spec hi.shape _ _ _ _ hcopy hb2 hc0
    have hl : copy.list = DList.new := r2
    rw [hl, DList.move_assign_new] at e
    have k := DList.move_assign_null (d := ⟨m.list.mem, m.list.brk, 0, 0⟩) m.list rfl
    simp only [Except.bind_ok_eq, move_assign, k, Except.pure_eq_ok, Except.ok.injEq] at e
    subst e
    exact ⟨⟨hi.shape, hi.count, r1⟩, rfl⟩

end UnorderedMap

/-! ## `find_by_hash`, `insert`, `emplace`, `erase` on the map -/

theorem CacheOK.mono {hash : K → Nat} {l l2 : DList (K × V)} {xs ys bs : List Nat}
    (hc : CacheOK hash l xs bs)
    (h : ∀ p ∈ xs, p ∈ ys ∧ bufOf l2.mem p = bufOf l.mem p) : CacheOK hash l2 ys bs := by
  intro i p hp hp0
  obtain ⟨h1, kv, h2, h3⟩ := hc i p hp hp0
  exact ⟨(h p h1).1, kv, by rw [(h p h1).2]; exact h2, h3⟩

namespace UnorderedMap

theorem scan_mem {hash : K → Nat} {m : UnorderedMap K V} {xs pend : List Nat}
    (hs : m.list.Shape xs pend) (key : K) (h : Nat) : ∀ (fuel it r : Nat),
    scan hash m key h fuel it = .ok r → it ∈ m.list.fake :: xs → r ∈ m.list.fake :: xs
  | 0, _, _, e, _ => by simp [scan] at e
  | fuel + 1, it, r, e, hit => by
    unfold scan at e
    by_cases hf : it = m.cend
    · rw [if_pos hf] at e; cases e; exact hit
    · rw [if_neg hf] at e
      obtain ⟨kv, _, e⟩ := Except.bind_eq_ok_iff.mp e
      obtain ⟨hh, _, e⟩ := Except.bind_eq_ok_iff.mp e
      by_cases h1 : hh ≠ h
      · rw [if_pos h1] at e; cases e; exact hit
      · rw [if_neg h1] at e
        by_cases h2 : kv.1 = key
        · rw [if_pos h2] at e; cases e; exact hit
        · rw [if_neg h2] at e
          obtain ⟨nx, hnx, e⟩ := Except.bind_eq_ok_iff.mp e
          exact scan_mem hs key h fuel nx r e (hs.getNext_mem hit hnx)

theorem find_by_hash_mem {hash : K → Nat} {m : UnorderedMap K V} {xs pend : List Nat}
    (hs : m.list.Shape xs pend) (hc : CacheOK hash m.list xs m.buckets) {key : K} {h it : Nat}
    (e : m.find_by_hash hash key h = .ok it) : it ∈ m.list.fake :: xs := by
  unfold find_by_hash at e
  obtain ⟨p, hp, e⟩ := Except.bind_eq_ok_iff.mp e
  by_cases h0 : p = 0
  · rw [if_pos h0] at e
    exact hs.getNext_mem (List.mem_cons_self _ _) e
  · rw [if_neg h0] at e
    have := (hc h p (bucket_eq_ok.mp hp) h0).1
    exact scan_mem hs key h _ _ _ e (List.mem_cons_of_mem _ this)

theorem ins_flag_false {hash : K → Nat} {m : UnorderedMap K V} {it h : Nat}
    (e : m.ins_flag hash it h = .ok false) :
    it ≠ m.list.fake ∧ ∃ kv, bufOf m.list.mem it = some (some kv) ∧
      hash kv.1 % m.buckets.length = h := by
  unfold ins_flag at e
  by_cases hf : it = m.list.cend
  · rw [if_pos hf] at e; cases e
  · rw [if_neg hf] at e
    obtain ⟨ev, hev, e⟩ := Except.bind_eq_ok_iff.mp e
    obtain ⟨hh, hhh, e⟩ := Except.bind_eq_ok_iff.mp e
    simp only [Except.pure_eq_ok, Except.ok.injEq, decide_eq_false_iff_not, ne_eq,
      not_not] at e
    exact ⟨hf, ev, DList.value_eq_ok.mp hev, by rw [← (get_hash_eq_ok.mp hhh).2]; exact e⟩

/-- What `insert` does to a map that satisfies the invariant. -/
theorem insert_spec {hash : K → Nat} {m m2 : UnorderedMap K V} {xs : List Nat} {kv : K × V}
    {it : Nat} {ins : Bool} (hi : m.Inv hash xs) (e : m.insert hash kv = .ok ((it, ins), m2)) :
    (ins = false → m2.Inv hash xs ∧ it ∈ xs ∧ m2.list = m.list) ∧
    (ins = true → ∃ pre rest, xs = pre ++ rest ∧ m2.Inv hash (pre ++ it :: rest) ∧ it ∉ xs ∧
      bufOf m2.list.mem it = some (some kv) ∧
      ∀ z, z ≠ it → bufOf m2.list.mem z = bufOf m.list.mem z) := by
  unfold insert at e
  obtain ⟨m1, hm1, e⟩ := Except.bind_eq_ok_iff.mp e
  obtain ⟨i1, l1⟩ := rehash_spec hi hm1
  obtain ⟨h, hh, e⟩ := Except.bind_eq_ok_iff.mp e
  obtain ⟨it0, hit0, e⟩ := Except.bind_eq_ok_iff.mp e
  obtain ⟨ins0, hins, e⟩ := Except.bind_eq_ok_iff.mp e
  obtain ⟨⟨it1, m3⟩, hem, e⟩ := Except.bind_eq_ok_iff.mp e
  obtain ⟨m4, hub, e⟩ := Except.bind_eq_ok_iff.mp e
  simp only [Except.pure_eq_ok, Except.ok.injEq, Prod.mk.injEq] at e
  obtain ⟨⟨rfl, rfl⟩, rfl⟩ := e
  have hmem := find_by_hash_mem i1.shape i1.cache hit0
  have hh2 := (get_hash_eq_ok.mp hh).2
  cases ins0 with
  | false =>
    simp only [Bool.false_eq_true, if_false, Except.pure_eq_ok, Except.ok.injEq,
      Prod.mk.injEq] at hem
    obtain ⟨rfl, rfl⟩ := hem
    refine ⟨fun _ => ?_, fun h => by cases h⟩
    obtain ⟨hf, ev, hev, hhe⟩ := ins_flag_false hins
    have hx : it0 ∈ xs := by
      rcases List.mem_cons.mp hmem with h | h
      · exact absurd h hf
      · exact h
    obtain ⟨k1, k2, _, _⟩ := update_bucket_spec hub i1.cache hx hev hhe
    exact ⟨⟨by rw [k2]; exact i1.shape, by rw [k2]; exact i1.count, by rw [k2]; exact k1⟩,
      hx, k2.trans l1⟩
  | true =>
    refine ⟨fun h => absurd h (by decide), fun _ => ?_⟩
    simp only [if_true] at hem
    obtain ⟨⟨n, l2⟩, hemp, hem⟩ := Except.bind_eq_ok_iff.mp hem
    simp only [Except.pure_eq_ok, Except.ok.injEq, Prod.mk.injEq] at hem
    obtain ⟨rfl, rfl⟩ := hem
    have hfx : m1.list.fake ∉ xs := fun h =>
      (List.nodup_cons.mp i1.shape.nodup).1 (List.mem_append_left _ h)
    obtain ⟨pre, rest, rfl, rfl⟩ := DList.pos_split hmem hfx
    by_cases hlt : m1.list.brk < addr_space
    · obtain ⟨l3, e3, s3, c3, f3, b3, v3, o3⟩ := DList.list_emplace_spec kv i1.shape i1.count hlt
      rw [e3] at hemp
      cases hemp
      have hnew : m1.list.brk ∉ pre ++ rest := fun h => by
        have := (i1.shape.lt_brk _ (List.mem_cons_of_mem _ (List.mem_append_left _ h))).2
        omega
      have hc3 : CacheOK hash l2 (pre ++ m1.list.brk :: rest) m1.buckets := by
        refine i1.cache.mono (fun p hp => ⟨?_, o3 p (fun e => hnew (e ▸ hp))⟩)
        rcases List.mem_append.mp hp with h | h
        · exact List.mem_append_left _ h
        · exact List.mem_append_right _ (List.mem_cons_of_mem _ h)
      obtain ⟨k1, k2, _, _⟩ := update_bucket_spec (l := l2) hub hc3 (by simp) v3 hh2.symm
      refine ⟨pre, rest, rfl, ⟨by rw [k2]; exact s3, by rw [k2]; exact c3,
        by rw [k2]; exact k1⟩, hnew, by rw [k2]; exact v3, fun z hz => ?_⟩
      rw [k2, ← l1]; exact o3 z hz
    · simp [DList.emplace, DList.create_node, DList.make_node, DList.allocate, hlt,
        Except.bind_error_eq] at hemp

/-- What `emplace` does to a map that satisfies the invariant. -/
theorem emplace_spec {hash : K → Nat} {m m2 : UnorderedMap K V} {xs : List Nat} {k : K} {v : V}
    {it : Nat} {ins : Bool} (hi : m.Inv hash xs)
    (e : m.emplace hash k v = .ok ((it, ins), m2)) :
    (ins = false → m2.Inv hash xs ∧ it ∈ xs ∧ m2.list.fake = m.list.fake ∧
      ∀ z, bufOf m2.list.mem z = bufOf m.list.mem z) ∧
    (ins = true → ∃ pre rest, xs = pre ++ rest ∧ m2.Inv hash (pre ++ it :: rest) ∧ it ∉ xs ∧
      bufOf m2.list.mem it = some (some (k, v)) ∧
      ∀ z, z ≠ it → bufOf m2.list.mem z = bufOf m.list.mem z) := by
  unfold emplace at e
  obtain ⟨m1, hm1, e⟩ := Except.bind_eq_ok_iff.mp e
  obtain ⟨i1, l1⟩ := rehash_spec hi hm1
  obtain ⟨⟨node, lc⟩, hcn, e⟩ := Except.bind_eq_ok_iff.mp e
  by_cases hlt : m1.list.brk < addr_space
  swap
  · simp [DList.create_node, DList.make_node, DList.allocate, hlt, Except.bind_error_eq] at hcn
  obtain ⟨lc2, ec, sc, cc, fc, bc, vc, oc⟩ := DList.create_node_spec (k, v) i1.shape i1.count hlt
  rw [ec] at hcn
  cases hcn
  simp only at e
  obtain ⟨nv, hnv, e⟩ := Except.bind_eq_ok_iff.mp e
  have hnv2 : nv = (k, v) := by
    have := DList.value_eq_ok.mp hnv
    rw [vc] at this
    cases this; rfl
  subst hnv2
  obtain ⟨h, hh, e⟩ := Except.bind_eq_ok_iff.mp e
  obtain ⟨it0, hit0, e⟩ := Except.bind_eq_ok_iff.mp e
  obtain ⟨ins0, hins, e⟩ := Except.bind_eq_ok_iff.mp e
  obtain ⟨⟨it1, m3⟩, hem, e⟩ := Except.bind_eq_ok_iff.mp e
  obtain ⟨m4, hub, e⟩ := Except.bind_eq_ok_iff.mp e
  simp only [Except.pure_eq_ok, Except.ok.injEq, Prod.mk.injEq] at e
  obtain ⟨⟨rfl, rfl⟩, rfl⟩ := e
  have hold : ∀ p ∈ xs, p ≠ m1.list.brk := fun p hp e => by
    have := (i1.shape.lt_brk _ (List.mem_cons_of_mem _ (List.mem_append_left _ hp))).2
    omega
  have hcc : CacheOK hash lc xs m1.buckets :=
    i1.cache.mono (fun p hp => ⟨hp, oc p (hold p hp)⟩)
  have hmem : it0 ∈ lc.fake :: xs :=
    find_by_hash_mem (m := { m1 with list := lc }) sc hcc hit0
  have hh2 := (get_hash_eq_ok.mp hh).2
  have hfresh : bufOf m1.list.mem m1.list.brk = none := by
    by_contra hne
    have := (i1.shape.lt_brk _ (i1.shape.live _ hne)).2
    omega
  cases ins0 with
  | false =>
    simp only [Bool.false_eq_true, if_false] at hem
    obtain ⟨l4, hrm, hem⟩ := Except.bind_eq_ok_iff.mp hem
    simp only [Except.pure_eq_ok, Except.ok.injEq, Prod.mk.injEq] at hem
    obtain ⟨rfl, rfl⟩ := hem
    refine ⟨fun _ => ?_, fun h => by cases h⟩
    obtain ⟨hf, ev, hev, hhe⟩ := ins_flag_false hins
    have hx : it0 ∈ xs := by
      rcases List.mem_cons.mp hmem with h | h
      · exact absurd h hf
      · exact h
    obtain ⟨l5, e5, s5, c5, f5, b5, o5⟩ :=
      DList.remove_node_spec sc (cc.trans i1.count) (List.mem_cons_self _ _)
    rw [e5] at hrm
    cases hrm
    have hc5 : CacheOK hash l4 xs m1.buckets :=
      hcc.mono (fun p hp => ⟨hp, o5 p (hold p hp)⟩)
    have hev5 : bufOf l4.mem it0 = some (some ev) := by
      rw [o5 _ (hold _ hx)]; exact hev
    obtain ⟨k1, k2, _, _⟩ := update_bucket_spec (l := l4) hub hc5 hx hev5 hhe
    refine ⟨⟨by rw [k2]; simpa using s5, by rw [k2]; exact c5.trans (cc.trans i1.count),
      by rw [k2]; exact k1⟩, hx, by rw [k2, ← l1]; exact f5.trans fc, fun z => ?_⟩
    rw [k2, ← l1]
    show bufOf l4.mem z = _
    by_cases hz : z = m1.list.brk
    · subst hz
      rw [hfresh]
      by_contra hne
      have := s5.live _ hne
      have hlt2 := (i1.shape.lt_brk _ (by
        rw [f5, fc] at this
        simpa using this)).2
      omega
    · rw [o5 z hz, oc z hz]
  | true =>
    refine ⟨fun h => absurd h (by decide), fun _ => ?_⟩
    simp only [if_true] at hem
    obtain ⟨⟨n, l2⟩, hemp, hem⟩ := Except.bind_eq_ok_iff.mp hem
    simp only [Except.pure_eq_ok, Except.ok.injEq, Prod.mk.injEq] at hem
    obtain ⟨rfl, rfl⟩ := hem
    have hfx : lc.fake ∉ xs := fun h =>
      (List.nodup_cons.mp sc.nodup).1 (List.mem_append_left _ h)
    obtain ⟨pre, rest, rfl, rfl⟩ := DList.pos_split hmem hfx
    obtain ⟨l3, e3, s3, c3, f3, b3, o3⟩ :=
      DList.emplace_node_spec sc (cc.trans i1.count) (List.mem_cons_self _ _)
    rw [e3] at hemp
    cases hemp
    have hnew : m1.list.brk ∉ pre ++ rest := fun h => hold _ h rfl
    have hc3 : CacheOK hash l2 (pre ++ m1.list.brk :: rest) m1.buckets := by
      refine hcc.mono (fun p hp => ⟨?_, o3 p⟩)
      rcases List.mem_append.mp hp with h | h
      · exact List.mem_append_left _ h
      · exact List.mem_append_right _ (List.mem_cons_of_mem _ h)
    have v3 : bufOf l2.mem m1.list.brk = some (some (k, v)) := by rw [o3]; exact vc
    obtain ⟨k1, k2, _, _⟩ := update_bucket_spec (l := l2) hub hc3 (by simp) v3 hh2.symm
    refine ⟨pre, rest, rfl, ⟨by rw [k2]; simpa using s3, by rw [k2]; exact c3,
      by rw [k2]; exact k1⟩, hnew, by rw [k2]; exact v3, fun z hz => ?_⟩
    rw [k2, ← l1]
    show bufOf l2.mem z = _
    rw [o3]; exact oc z hz

/-- What `erase` does to a map that satisfies the invariant. -/
theorem erase_spec {hash : K → Nat} {m m2 : UnorderedMap K V} {xs : List Nat} {it : Nat}
    (hi : m.Inv hash xs) (e : m.erase hash it = .ok m2) :
    ∃ pre post, xs = pre ++ it :: post ∧ m2.Inv hash (pre ++ post) ∧
      m2.buckets.length = m.buckets.length ∧
      ∀ z, z ≠ it → bufOf m2.list.mem z = bufOf m.list.mem z := by
  unfold erase at e
  obtain ⟨kv, hkv, e⟩ := Except.bind_eq_ok_iff.mp e
  obtain ⟨h, hh, e⟩ := Except.bind_eq_ok_iff.mp e
  obtain ⟨l2, hl2, e⟩ := Except.bind_eq_ok_iff.mp e
  simp only [Except.pure_eq_ok, Except.ok.injEq] at e
  subst e
  have hv := DList.value_eq_ok.mp hkv
  have hx : it ∈ xs := by
    have := hi.shape.live it (by rw [hv]; exact Option.noConfusion)
    rcases List.mem_cons.mp this with h | h
    · rw [h, hi.shape.fake_buf] at hv
      cases hv
    · simpa using h
  obtain ⟨pre, post, rfl⟩ := List.append_of_mem hx
  obtain ⟨l3, e3, s3, c3, f3, b3, o3⟩ := DList.list_erase_spec hi.shape hi.count
  rw [show ({ m with buckets := m.buckets.set h 0 } : UnorderedMap K V).list = m.list from rfl,
    e3] at hl2
  cases hl2
  have hnd : (pre ++ it :: post).Nodup := by
    have := (List.nodup_cons.mp hi.shape.nodup).2
    simpa using this
  have hnot : it ∉ pre ++ post := by
    intro hm
    have h1 := List.nodup_append.mp hnd
    rcases List.mem_append.mp hm with h | h
    · exact h1.2.2 h (List.mem_cons_self _ _)
    · exact (List.nodup_cons.mp h1.2.1).1 h
  refine ⟨pre, post, rfl, ⟨s3, c3, ?_⟩, by simp, o3⟩
  intro i q hq hq0
  simp only [List.length_set] at hq ⊢
  have hih : i ≠ h := by
    intro e
    subst e
    have hlt : i < m.buckets.length := by
      have := (List.getElem?_eq_some_iff.mp hq).1
      simpa using this
    rw [List.getElem?_set_self hlt] at hq
    cases hq
    exact hq0 rfl
  rw [List.getElem?_set_ne (Ne.symm hih)] at hq
  obtain ⟨h1, kv2, h2, h3⟩ := hi.cache i q hq hq0
  have hqit : q ≠ it := by
    intro e
    subst e
    rw [hv] at h2
    cases h2
    exact hih (h3.symm.trans (get_hash_eq_ok.mp hh).2.symm)
  refine ⟨?_, kv2, by rw [o3 q hqit]; exact h2, h3⟩
  rcases List.mem_append.mp h1 with h | h
  · exact List.mem_append_left _ h
  · rcases List.mem_cons.mp h with h | h
    · exact absurd h hqit
    · exact List.mem_append_right _ h

end UnorderedMap

/-! ## Reachable maps -/

namespace UnorderedMap

theorem Inv.default_map (hash : K → Nat) : (UnorderedMap.new : UnorderedMap K V).Inv hash [] := by
  refine ⟨DList.Shape.fresh, rfl, ?_⟩
  intro i p hp hp0
  have := List.getElem?_mem hp
  exact absurd (List.eq_of_mem_replicate this) hp0

theorem step_inv {hash : K → Nat} {m m2 : UnorderedMap K V} {xs : List Nat} {op : MapOp K V}
    (hi : m.Inv hash xs) (e : m.step hash op = .ok m2) : ∃ ys, m2.Inv hash ys := by
  cases op with
  | insert kv =>
    simp only [step] at e
    obtain ⟨⟨⟨it, ins⟩, m3⟩, hr, e⟩ := Except.bind_eq_ok_iff.mp e
    cases e
    obtain ⟨h1, h2⟩ := insert_spec hi hr
    cases ins with
    | false => exact ⟨xs, (h1 rfl).1⟩
    | true =>
      obtain ⟨pre, rest, _, h, _⟩ := h2 rfl
      exact ⟨_, h⟩
  | emplace k v =>
    simp only [step] at e
    obtain ⟨⟨⟨it, ins⟩, m3⟩, hr, e⟩ := Except.bind_eq_ok_iff.mp e
    cases e
    obtain ⟨h1, h2⟩ := emplace_spec hi hr
    cases ins with
    | false => exact ⟨xs, (h1 rfl).1⟩
    | true =>
      obtain ⟨pre, rest, _, h, _⟩ := h2 rfl
      exact ⟨_, h⟩
  | erase it =>
    simp only [step] at e
    obtain ⟨pre, post, _, h, _⟩ := erase_spec hi e
    exact ⟨_, h⟩

theorem steps_inv {hash : K → Nat} : ∀ (ops : List (MapOp K V)) {m m2 : UnorderedMap K V}
    {xs : List Nat}, m.Inv hash xs → steps hash m ops = .ok m2 → ∃ ys, m2.Inv hash ys
  | [], m, m2, xs, hi, e => by
    simp only [steps, Except.pure_eq_ok, Except.ok.injEq] at e
    subst e
    exact ⟨xs, hi⟩
  | op :: ops, m, m2, xs, hi, e => by
    simp only [steps] at e
    obtain ⟨m1, h1, e⟩ := Except.bind_eq_ok_iff.mp e
    obtain ⟨ys, hy⟩ := step_inv hi h1
    exact steps_inv ops hy e

/-- Every map reached from the default-constructed map satisfies the invariant. -/
theorem run_inv {hash : K → Nat} {ops : List (MapOp K V)} {m : UnorderedMap K V}
    (e : run hash ops = .ok m) : ∃ xs, m.Inv hash xs :=
  steps_inv ops (Inv.default_map hash) e

theorem run_eq_after {hash : K → Nat} {ops : List (MapOp K V)}
    (h : (run hash ops).toBool = true) : run hash ops = .ok (after hash ops) := by
  unfold after
  cases hr : run hash ops with
  | ok m => rfl
  | error e => rw [hr] at h; cases h

end UnorderedMap

theorem Except.eq_ok_resultD {α : Type} {x : Except Err α} (d : α)
    (h : x.toBool = true) : x = .ok (x.resultD d) := by
  cases x with
  | ok a => rfl
  | error e => cases h

namespace DList

theorem values_ok {l : DList T} : ∀ (as : List Nat),
    (∀ a ∈ as, ∃ v, bufOf l.mem a = some (some v)) → ∃ vs, l.values as = .ok vs
  | [], _ => ⟨[], rfl⟩
  | a :: as, h => by
    obtain ⟨v, hv⟩ := h a (List.mem_cons_self _ _)
    obtain ⟨vs, hvs⟩ := values_ok as (fun b hb => h b (List.mem_cons_of_mem _ hb))
    exact ⟨v :: vs, by simp only [values, value_eq_ok.mpr hv, hvs, Except.bind_ok_eq,
      Except.pure_eq_ok]⟩

theorem values_append {l : DList T} : ∀ {as bs : List Nat} {vs ws : List T},
    l.values as = .ok vs → l.values bs = .ok ws → l.values (as ++ bs) = .ok (vs ++ ws)
  | [], bs, vs, ws, h1, h2 => by
    simp only [values, Except.pure_eq_ok, Except.ok.injEq] at h1
    subst h1
    simpa using h2
  | a :: as, bs, vs, ws, h1, h2 => by
    simp only [values] at h1
    obtain ⟨v, hv, h1⟩ := Except.bind_eq_ok_iff.mp h1
    obtain ⟨vs2, hvs2, h1⟩ := Except.bind_eq_ok_iff.mp h1
    simp only [Except.pure_eq_ok, Except.ok.injEq] at h1
    subst h1
    have ih := values_append hvs2 h2
    show l.values (a :: (as ++ bs)) = _
    simp only [values, hv, ih, Except.bind_ok_eq, Except.pure_eq_ok, List.cons_append]

/-- The element sequence of a well-shaped list can be read. -/
theorem Shape.toList_ok {l : DList T} {xs pend : List Nat} (hs : l.Shape xs pend) :
    ∃ vs, l.toList = .ok vs ∧ l.values xs = .ok vs := by
  obtain ⟨vs, hvs⟩ := values_ok (l := l) xs (fun a ha => hs.bufs a (List.mem_append_left _ ha))
  exact ⟨vs, by simp only [toList, hs.nodes_eq, Except.bind_ok_eq, hvs], hvs⟩

end DList

/-! ## binary32 rounding -/

namespace F32

end F32

namespace F32

end F32

/-! ## The load bound -/

namespace UnorderedMap

theorem update_bucket_frame {m m2 : UnorderedMap K V} {it h : Nat}
    (e : m.update_bucket it h = .ok m2) :
    m2.list = m.list ∧ m2.max_factor = m.max_factor ∧ m2.buckets.length = m.buckets.length := by
  unfold update_bucket at e
  obtain ⟨p, _, e⟩ := Except.bind_eq_ok_iff.mp e
  by_cases hz : p = 0
  · simp only [hz, if_true, Except.pure_eq_ok, Except.ok.injEq] at e
    subst e
    exact ⟨rfl, rfl, by simp⟩
  · simp only [hz, if_false, Except.pure_eq_ok, Except.ok.injEq] at e
    subst e
    exact ⟨rfl, rfl, rfl⟩

theorem rehash_loop_frame {hash : K → Nat} {src : DList (K × V)} :
    ∀ (fuel it : Nat) (copy copy2 : UnorderedMap K V),
    rehash_loop hash src fuel it copy = .ok copy2 →
    copy2.list = copy.list ∧ copy2.max_factor = copy.max_factor ∧
      copy2.buckets.length = copy.buckets.length
  | 0, _, _, _, e => by simp [rehash_loop] at e
  | fuel + 1, it, copy, copy2, e => by
    unfold rehash_loop at e
    by_cases hf : it = src.cend
    · simp only [hf, if_true, Except.pure_eq_ok, Except.ok.injEq] at e
      subst e
      exact ⟨rfl, rfl, rfl⟩
    · rw [if_neg hf] at e
      obtain ⟨kv, _, e⟩ := Except.bind_eq_ok_iff.mp e
      obtain ⟨h, _, e⟩ := Except.bind_eq_ok_iff.mp e
      obtain ⟨c1, hc1, e⟩ := Except.bind_eq_ok_iff.mp e
      obtain ⟨nx, _, e⟩ := Except.bind_eq_ok_iff.mp e
      obtain ⟨a1, a2, a3⟩ := update_bucket_frame hc1
      obtain ⟨b1, b2, b3⟩ := rehash_loop_frame fuel nx c1 copy2 e
      exact ⟨b1.trans a1, b2.trans a2, b3.trans a3⟩

end UnorderedMap

/-! ## Element sequences of the list operations -/

namespace DList

theorem Shape.toList_eq {l : DList T} {xs pend : List Nat} {vs : List T} (hs : l.Shape xs pend)
    (hv : l.values xs = .ok vs) : l.toList = .ok vs := by
  simp only [toList, hs.nodes_eq, Except.bind_ok_eq, hv]

theorem Shape.values_of_toList {l : DList T} {xs pend : List Nat} {vs : List T}
    (hs : l.Shape xs pend) (hv : l.toList = .ok vs) : l.values xs = .ok vs := by
  simpa only [toList, hs.nodes_eq, Except.bind_ok_eq] using hv

theorem values_length {l : DList T} : ∀ {as : List Nat} {vs : List T},
    l.values as = .ok vs → vs.length = as.length
  | [], vs, h => by
    simp only [values, Except.pure_eq_ok, Except.ok.injEq] at h
    subst h
    rfl
  | a :: as, vs, h => by
    simp only [values] at h
    obtain ⟨v, _, h⟩ := Except.bind_eq_ok_iff.mp h
    obtain ⟨ws, hws, h⟩ := Except.bind_eq_ok_iff.mp h
    simp only [Except.pure_eq_ok, Except.ok.injEq] at h
    subst h
    simp [values_length hws]

theorem values_cons {l : DList T} {a : Nat} {as : List Nat} {v : T} {vs : List T}
    (hv : l.value a = .ok v) (hvs : l.values as = .ok vs) :
    l.values (a :: as) = .ok (v :: vs) := by
  simp only [values, hv, hvs, Except.bind_ok_eq, Except.pure_eq_ok]

theorem values_singleton {l : DList T} {a : Nat} {v : T} (hv : l.value a = .ok v) :
    l.values [a] = .ok [v] :=
  values_cons hv rfl

/-- The element sequence of a well-shaped list, split at a linked node. -/
theorem Shape.values_split {l : DList T} {pre post pend : List Nat} {x : Nat}
    (hs : l.Shape (pre ++ x :: post) pend) :
    ∃ vs v ws, l.values pre = .ok vs ∧ l.value x = .ok v ∧ l.values post = .ok ws ∧
      l.values (pre ++ x :: post) = .ok (vs ++ v :: ws) := by
  obtain ⟨vs, hvs⟩ := values_ok (l := l) pre
    (fun a ha => hs.bufs a (List.mem_append_left _ (List.mem_append_left _ ha)))
  obtain ⟨ws, hws⟩ := values_ok (l := l) post (fun a ha => hs.bufs a
    (List.mem_append_left _ (List.mem_append_right _ (List.mem_cons_of_mem _ ha))))
  obtain ⟨v, hv⟩ := hs.bufs x
    (List.mem_append_left _ (List.mem_append_right _ (List.mem_cons_self _ _)))
  have hv2 := value_eq_ok.mpr hv
  exact ⟨vs, v, ws, hvs, hv2, hws, values_append hvs (values_cons hv2 hws)⟩

/-- The loop of the copy constructor appends the remaining elements of `src` to `dst`. -/
theorem copy_loop_spec {src : DList T} {xs pend : List Nat} (hs : src.Shape xs pend) :
    ∀ (rest done : List Nat) (fuel : Nat) (dst : DList T) (ds : List Nat) (ws us : List T),
    xs = done ++ rest → rest.length < fuel → dst.Shape ds [] → dst.count = ds.length →
    dst.brk + rest.length ≤ addr_space → dst.values ds = .ok ws → src.values rest = .ok us →
    ∃ dst2 ds2, copy_loop src fuel (headOr rest src.fake) dst = .ok dst2 ∧ dst2.Shape ds2 [] ∧
      dst2.count = ds2.length ∧ dst2.values ds2 = .ok (ws ++ us) ∧
      ds2.length = ds.length + rest.length
  | [], done, fuel, dst, ds, ws, us, _, hf, hd, hc, _, hw, hu => by
    obtain ⟨f, rfl⟩ : ∃ f, fuel = f + 1 := ⟨fuel - 1, by omega⟩
    simp only [values, Except.pure_eq_ok, Except.ok.injEq] at hu
    subst hu
    exact ⟨dst, ds, by simp [copy_loop, headOr, cend, Except.pure_eq_ok], hd, hc,
      by simpa using hw, by simp⟩
  | y :: t, done, fuel, dst, ds, ws, us, hx, hf, hd, hc, hb, hw, hu => by
    obtain ⟨f, rfl⟩ : ∃ f, fuel = f + 1 := ⟨fuel - 1, by omega⟩
    subst hx
    simp only [values] at hu
    obtain ⟨v, hv, hu⟩ := Except.bind_eq_ok_iff.mp hu
    obtain ⟨us2, hus2, hu⟩ := Except.bind_eq_ok_iff.mp hu
    simp only [Except.pure_eq_ok, Except.ok.injEq] at hu
    subst hu
    have hyf : y ≠ src.fake := fun e =>
      (List.nodup_cons.mp hs.nodup).1
        (List.mem_append_left _ (List.mem_append_right _ (e ▸ List.mem_cons_self _ _)))
    have hs2 : src.Shape ((done ++ [y]) ++ t) pend := by simpa using hs
    have hnx : nxt src.mem y = some (headOr t src.fake) := by
      have := hs2.pos_facts.2.1
      rwa [lastOr_append_singleton] at this
    simp only [List.length_cons] at hb hf
    obtain ⟨d1, e1, s1, c1, _, b1, v1, o1⟩ := push_back_spec v hd hc (by omega)
    have hold : ∀ a ∈ ds, a ≠ dst.brk := fun a ha e => by
      have := (hd.lt_brk a (List.mem_cons_of_mem _ (List.mem_append_left _ ha))).2
      omega
    have hw1 : d1.values (ds ++ [dst.brk]) = .ok (ws ++ [v]) := by
      refine values_append ?_ (values_singleton (value_eq_ok.mpr v1))
      rw [values_congr _ (fun a ha => o1 a (hold a ha))]
      exact hw
    obtain ⟨dst2, ds2, e2, s2, c2, w2, n2⟩ := copy_loop_spec hs t (done ++ [y]) f d1
      (ds ++ [dst.brk]) (ws ++ [v]) us2 (by simp) (by omega) s1 c1 (by omega) hw1 hus2
    refine ⟨dst2, ds2, ?_, s2, c2, by simpa using w2, by
      simp only [List.length_append, List.length_cons, List.length_nil] at n2 ⊢
      omega⟩
    show copy_loop src (f + 1) y dst = _
    simp only [copy_loop, cend, if_neg hyf, hv, e1, getNext_eq_ok.mpr hnx,
      Except.bind_ok_eq, e2]

/-- The copy constructor returns a well-shaped list with the elements of the source. -/
theorem copy_ctor_spec {l : DList T} {xs pend : List Nat} {vs : List T} (hs : l.Shape xs pend)
    (hv : l.values xs = .ok vs) :
    ∃ c ds, l.copy_ctor = .ok c ∧ c.Shape ds [] ∧ c.count = ds.length ∧
      c.values ds = .ok vs ∧ ds.length = xs.length := by
  have hroom := hs.room
  have hle := hs.brk_le
  have hs0 : l.Shape ([] ++ xs) pend := by simpa using hs
  have hb : nxt l.mem l.fake = some (headOr xs l.fake) := by
    have := hs0.pos_facts.2.1
    simpa [lastOr] using this
  obtain ⟨c, ds, e, s, cc, w, n⟩ := copy_loop_spec hs xs [] l.brk (DList.new : DList T) [] [] vs
    rfl (by omega) Shape.fresh rfl (by
      show 2 + xs.length ≤ addr_space
      omega) rfl hv
  refine ⟨c, ds, ?_, s, cc, by simpa using w, by simpa using n⟩
  simp only [copy_ctor, begin, getNext_eq_ok.mpr hb, Except.bind_ok_eq, e]

/-- A list with the same nodes and a larger allocation mark has the same shape. -/
theorem Shape.frame {l l2 : DList T} {xs pend : List Nat} (hs : l.Shape xs pend)
    (hf : l2.fake = l.fake) (hb1 : l.brk ≤ l2.brk) (hb2 : l2.brk ≤ addr_space)
    (hm : ∀ z, l2.mem z = l.mem z) : l2.Shape xs pend := by
  have hmem : l2.mem = l.mem := funext hm
  refine ⟨by rw [hmem, hf]; exact hs.fwd, by rw [hmem, hf]; exact hs.bwd,
    by rw [hf]; exact hs.nodup, by rw [hmem, hf]; exact hs.live,
    by rw [hmem, hf]; exact hs.fake_buf, by rw [hmem]; exact hs.bufs, ?_, ?_, hb2⟩
  · intro a ha
    rw [hf] at ha
    have := hs.lt_brk a ha
    omega
  · have := hs.room
    omega

theorem Shape.brk_free {l : DList T} {xs pend : List Nat} (hs : l.Shape xs pend) {a : Nat}
    (h : l.brk ≤ a) : l.mem a = none := by
  by_contra hne
  have := (hs.lt_brk a (hs.live a (bufOf_of_live hne))).2
  omega

theorem make_node_throw_eq (l : DList T) (x : Nat) : l.make_node_throw x =
    if l.brk < addr_space then .ok (.exception_ptr x, { l with
      mem := (l.mem.set l.brk (some ⟨none, 0, 0⟩)).set l.brk none, brk := l.brk + 1 })
    else .error .bad_alloc := by
  unfold make_node_throw allocate
  by_cases h : l.brk < addr_space
  · simp [h, Except.bind_ok_eq, deallocate, deref, Mem.set, Except.pure_eq_ok]
  · simp [h, Except.bind_error_eq]

/-- The throwing path of `make_node` frees the node it allocated: no node is added, removed or
changed, and `size()` is kept; what it throws is an `std::exception_ptr` object. -/
theorem make_node_throw_spec {l : DList T} {r : Thrown × DList T} {xs pend : List Nat} {x : Nat}
    (hs : l.Shape xs pend) (e : l.make_node_throw x = .ok r) :
    r.1 = .exception_ptr x ∧ r.2.Shape xs pend ∧ r.2.count = l.count ∧ r.2.fake = l.fake ∧
      ∀ z, r.2.mem z = l.mem z := by
  rw [make_node_throw_eq] at e
  by_cases h : l.brk < addr_space
  · rw [if_pos h] at e
    cases e
    have hm : ∀ z, ((l.mem.set l.brk (some ⟨none, 0, 0⟩)).set l.brk none) z = l.mem z := by
      intro z
      unfold Mem.set
      by_cases hz : z = l.brk
      · simp [hz, hs.brk_free (le_refl _)]
      · simp [hz]
    exact ⟨rfl, hs.frame rfl (Nat.le_succ _) h hm, rfl, rfl, hm⟩
  · rw [if_neg h] at e
    cases e

end DList

namespace UnorderedMap

/-- `rehash` keeps the list, whether it grows the cache or not. -/
theorem rehash_list {hash : K → Nat} {m m1 : UnorderedMap K V} (e : m.rehash hash = .ok m1) :
    m1.list = m.list := by
  unfold rehash at e
  by_cases hlt : F32.lt m.load_factor m.max_factor = true
  · rw [if_pos hlt] at e
    cases e
    rfl
  · rw [if_neg hlt] at e
    obtain ⟨n, _, e⟩ := Except.bind_eq_ok_iff.mp e
    obtain ⟨cb, _, e⟩ := Except.bind_eq_ok_iff.mp e
    obtain ⟨b, _, e⟩ := Except.bind_eq_ok_iff.mp e
    obtain ⟨copy, hcopy, e⟩ := Except.bind_eq_ok_iff.mp e
    obtain ⟨r1, _, _⟩ := rehash_loop_frame _ _ _ _ hcopy
    have hl : copy.list = DList.new := r1
    rw [hl, DList.move_assign_new] at e
    have k := DList.move_assign_null (d := ⟨m.list.mem, m.list.brk, 0, 0⟩) m.list rfl
    simp only [Except.bind_ok_eq, move_assign, k, Except.pure_eq_ok, Except.ok.injEq] at e
    subst e
    rfl

theorem rehash_of_lt {hash : K → Nat} {m : UnorderedMap K V}
    (h : F32.lt m.load_factor m.max_factor = true) : m.rehash hash = .ok m := by
  unfold rehash
  rw [if_pos h]
  rfl

end UnorderedMap

namespace DList

/-- `erase` of a linked node, with the element sequences before and after. -/
theorem list_erase_elems {l : DList T} {pre post pend : List Nat} {x : Nat}
    (hs : l.Shape (pre ++ x :: post) pend) (hc : l.count = (pre ++ x :: post).length) :
    ∃ l2 vs v ws, l.values pre = .ok vs ∧ l.value x = .ok v ∧ l.values post = .ok ws ∧
      l.toList = .ok (vs ++ v :: ws) ∧ l.erase x = .ok l2 ∧ l2.Shape (pre ++ post) pend ∧
      l2.toList = .ok (vs ++ ws) ∧ l2.count + 1 = l.count ∧ l2.fake = l.fake ∧
      ∀ z, z ≠ x → bufOf l2.mem z = bufOf l.mem z := by
  obtain ⟨l2, e2, s2, c2, f2, _, o2⟩ := list_erase_spec hs hc
  obtain ⟨vs, v, ws, hvs, hv, hws, hall⟩ := hs.values_split
  refine ⟨l2, vs, v, ws, hvs, hv, hws, hs.toList_eq hall, e2, s2, ?_, ?_, f2, o2⟩
  · have hne : ∀ a ∈ pre ++ post, a ≠ x := by
      intro a ha e
      subst e
      have hnd := (List.nodup_cons.mp hs.nodup).2
      have hnd2 := (List.nodup_append.mp hnd).1
      have h3 := List.nodup_append.mp hnd2
      rcases List.mem_append.mp ha with h | h
      · exact h3.2.2 h (List.mem_cons_self _ _)
      · exact (List.nodup_cons.mp h3.2.1).1 h
    apply s2.toList_eq
    rw [values_congr _ (fun a ha => o2 a (hne a ha))]
    exact values_append hvs hws
  · rw [c2, hc]
    simp only [List.length_append, List.length_cons]
    omega

end DList

namespace UnorderedMap

/-- `erase` of a linked node of a map with at least one bucket. -/
theorem erase_elems (hash : K → Nat) {m : UnorderedMap K V} {pre post pend : List Nat} {it : Nat}
    (hs : m.list.Shape (pre ++ it :: post) pend)
    (hc : m.list.count = (pre ++ it :: post).length) (hb : m.buckets.length ≠ 0) :
    ∃ m2 kv vs ws, m.list.value it = .ok kv ∧ m.list.values pre = .ok vs ∧
      m.list.values post = .ok ws ∧ m.list.toList = .ok (vs ++ kv :: ws) ∧
      m.erase hash it = .ok m2 ∧ m2.buckets = m.buckets.set (hash kv.1 % m.buckets.length) 0 ∧
      m2.max_factor = m.max_factor ∧ m2.list.Shape (pre ++ post) pend ∧
      m2.list.toList = .ok (vs ++ ws) ∧ m2.list.count + 1 = m.list.count ∧
      m2.list.fake = m.list.fake := by
  obtain ⟨l2, vs, kv, ws, hvs, hv, hws, hall, e2, s2, t2, c2, f2, _⟩ :=
    DList.list_erase_elems hs hc
  refine ⟨{ m with buckets := m.buckets.set (hash kv.1 % m.buckets.length) 0, list := l2 },
    kv, vs, ws, hv, hvs, hws, hall, ?_, rfl, rfl, s2, t2, c2, f2⟩
  simp only [erase, hv, get_hash, if_neg hb, Except.bind_ok_eq, Except.pure_eq_ok, e2]

end UnorderedMap

theorem slotOf_eq_some {hash : K → Nat} {l : DList (K × V)} {n a : Nat} {kv : K × V}
    (h : bufOf l.mem a = some (some kv)) : slotOf hash l n a = some (hash kv.1 % n) := by
  simp only [slotOf, h]

/-- One `update_bucket` step of the rebuild keeps the cache first-writer-wins. -/
theorem FirstWriter.step {hash : K → Nat} {l : DList (K × V)} {done bs : List Nat} {y h p : Nat}
    (hfw : FirstWriter hash l done bs) (hy : slotOf hash l bs.length y = some h) (hy0 : y ≠ 0)
    (hp : bs[h]? = some p) :
    FirstWriter hash l (done ++ [y]) (if p = 0 then bs.set h y else bs) := by
  have hlt : h < bs.length := by
    by_contra hge
    rw [List.getElem?_eq_none (Nat.le_of_not_lt hge)] at hp
    cases hp
  have hlen : (if p = 0 then bs.set h y else bs).length = bs.length := by
    split <;> simp
  have ext : ∀ i q, bs[i]? = some q → (q = 0 → i ≠ h) →
      (q = 0 → ∀ a ∈ done ++ [y], slotOf hash l bs.length a ≠ some i) ∧
      (q ≠ 0 → ∃ d1 d2, done ++ [y] = d1 ++ q :: d2 ∧ slotOf hash l bs.length q = some i ∧
        ∀ a ∈ d1, slotOf hash l bs.length a ≠ some i) := by
    intro i q hq hne
    obtain ⟨f1, f2⟩ := hfw i q hq
    refine ⟨fun h0 a ha => ?_, fun h0 => ?_⟩
    · rcases List.mem_append.mp ha with h1 | h1
      · exact f1 h0 a h1
      · rw [List.mem_singleton.mp h1, hy]
        exact fun e => hne h0 (Option.some.inj e).symm
    · obtain ⟨d1, d2, e1, e2, e3⟩ := f2 h0
      exact ⟨d1, d2 ++ [y], by rw [e1]; simp, e2, e3⟩
  intro i q hq
  rw [hlen]
  by_cases hp0 : p = 0
  · rw [if_pos hp0] at hq
    by_cases hi : i = h
    · subst hi
      rw [List.getElem?_set_self hlt] at hq
      cases hq
      refine ⟨fun h0 => absurd h0 hy0, fun _ => ⟨done, [], rfl, hy, (hfw i p hp).1 hp0⟩⟩
    · rw [List.getElem?_set_ne (Ne.symm hi)] at hq
      exact ext i q hq (fun _ => hi)
  · rw [if_neg hp0] at hq
    refine ext i q hq (fun h0 hi => ?_)
    subst hi
    rw [hp] at hq
    cases hq
    exact hp0 h0

namespace UnorderedMap

/-- The scan of `find_by_hash` passes nodes of slot `h` whose key is not `key` and returns the
position behind them. -/
theorem scan_split {hash : K → Nat} {m : UnorderedMap K V} {xs pend : List Nat}
    (hs : m.list.Shape xs pend) (key : K) (h : Nat) :
    ∀ (sfx done : List Nat) (fuel r : Nat), xs = done ++ sfx →
    scan hash m key h fuel (headOr sfx m.list.fake) = .ok r →
    ∃ mid rest, sfx = mid ++ rest ∧ r = headOr rest m.list.fake ∧
      (∀ a ∈ mid, slotOf hash m.list m.buckets.length a = some h) ∧
      (∀ a ∈ mid, ∀ kv, bufOf m.list.mem a = some (some kv) → kv.1 ≠ key)
  | _, _, 0, _, _, e => by simp [scan] at e
  | [], done, fuel + 1, r, _, e => by
    simp only [scan, headOr, cend, DList.cend, if_true, Except.pure_eq_ok,
      Except.ok.injEq] at e
    exact ⟨[], [], rfl, e.symm, fun a ha => absurd ha (List.not_mem_nil _),
      fun a ha => absurd ha (List.not_mem_nil _)⟩
  | y :: t, done, fuel + 1, r, hx, e => by
    subst hx
    have hyf : y ≠ m.list.fake := fun e =>
      (List.nodup_cons.mp hs.nodup).1
        (List.mem_append_left _ (List.mem_append_right _ (e ▸ List.mem_cons_self _ _)))
    have hs2 : m.list.Shape ((done ++ [y]) ++ t) pend := by simpa using hs
    have hnx : nxt m.list.mem y = some (headOr t m.list.fake) := by
      have := hs2.pos_facts.2.1
      rwa [lastOr_append_singleton] at this
    change scan hash m key h (fuel + 1) y = .ok r at e
    have stop : r = y → ∃ mid rest, y :: t = mid ++ rest ∧ r = headOr rest m.list.fake ∧
        (∀ a ∈ mid, slotOf hash m.list m.buckets.length a = some h) ∧
        (∀ a ∈ mid, ∀ kv, bufOf m.list.mem a = some (some kv) → kv.1 ≠ key) := fun hr =>
      ⟨[], y :: t, rfl, hr, fun a ha => absurd ha (List.not_mem_nil _),
        fun a ha => absurd ha (List.not_mem_nil _)⟩
    simp only [scan, cend, DList.cend, if_neg hyf] at e
    obtain ⟨kv, hkv, e⟩ := Except.bind_eq_ok_iff.mp e
    obtain ⟨hh, hhh, e⟩ := Except.bind_eq_ok_iff.mp e
    by_cases h1 : hh ≠ h
    · rw [if_pos h1] at e
      cases e
      exact stop rfl
    · rw [if_neg h1] at e
      by_cases h2 : kv.1 = key
      · rw [if_pos h2] at e
        cases e
        exact stop rfl
      · rw [if_neg h2] at e
        obtain ⟨nx, hn, e⟩ := Except.bind_eq_ok_iff.mp e
        have hnx2 : nx = headOr t m.list.fake := by
          have := DList.getNext_eq_ok.mp hn
          rw [hnx] at this
          exact (Option.some.inj this).symm
        rw [hnx2] at e
        obtain ⟨mid, rest, e1, e2, e3, e4⟩ :=
          scan_split hs key h t (done ++ [y]) fuel r (by simp) e
        have hv := DList.value_eq_ok.mp hkv
        have hsl : slotOf hash m.list m.buckets.length y = some h := by
          rw [slotOf_eq_some hv, ← (get_hash_eq_ok.mp hhh).2]
          exact congrArg some (not_not.mp h1)
        refine ⟨y :: mid, rest, by rw [e1]; rfl, e2, fun a ha => ?_, fun a ha kv2 hkv2 => ?_⟩
        · rcases List.mem_cons.mp ha with h3 | h3
          · rw [h3]; exact hsl
          · exact e3 a h3
        · rcases List.mem_cons.mp ha with h3 | h3
          · rw [h3, hv] at hkv2
            cases hkv2
            exact h2
          · exact e4 a h3 kv2 hkv2

/-- Where `find_by_hash` arrives: `begin()` when the slot is empty, otherwise the position behind
the nodes of slot `h` with another key that follow the cached node. -/
theorem find_by_hash_split {hash : K → Nat} {m : UnorderedMap K V} {xs pend : List Nat}
    (hs : m.list.Shape xs pend) (hc : CacheOK hash m.list xs m.buckets) {key : K} {h it : Nat}
    (e : m.find_by_hash hash key h = .ok it) :
    ∃ p done mid rest, m.bucket h = .ok p ∧ xs = done ++ mid ++ rest ∧
      it = headOr rest m.list.fake ∧ (p = 0 → done = [] ∧ mid = []) ∧
      (p ≠ 0 → ∃ t, mid ++ rest = p :: t) ∧
      (∀ a ∈ mid, slotOf hash m.list m.buckets.length a = some h) ∧
      (∀ a ∈ mid, ∀ kv, bufOf m.list.mem a = some (some kv) → kv.1 ≠ key) := by
  unfold find_by_hash at e
  obtain ⟨p, hp, e⟩ := Except.bind_eq_ok_iff.mp e
  by_cases h0 : p = 0
  · rw [if_pos h0] at e
    have hs0 : m.list.Shape ([] ++ xs) pend := by simpa using hs
    have hb : it = headOr xs m.list.fake := by
      have h1 := hs0.pos_facts.2.1
      have h2 := DList.getNext_eq_ok.mp e
      simp only [lastOr] at h1
      rw [h1] at h2
      exact (Option.some.inj h2).symm
    exact ⟨p, [], [], xs, hp, rfl, hb, fun _ => ⟨rfl, rfl⟩, fun h => absurd h0 h,
      fun a ha => absurd ha (List.not_mem_nil _), fun a ha => absurd ha (List.not_mem_nil _)⟩
  · rw [if_neg h0] at e
    have hpx := (hc h p (bucket_eq_ok.mp hp) h0).1
    obtain ⟨done, t, rfl⟩ := List.append_of_mem hpx
    obtain ⟨mid, rest, e1, e2, e3, e4⟩ := scan_split hs key h (p :: t) done _ it rfl e
    exact ⟨p, done, mid, rest, hp, by rw [List.append_assoc, ← e1], e2,
      fun h => absurd h h0, fun _ => ⟨t, e1.symm⟩, e3, e4⟩

theorem ins_flag_true {hash : K → Nat} {m : UnorderedMap K V} {it h : Nat}
    (e : m.ins_flag hash it h = .ok true) :
    it = m.list.fake ∨ slotOf hash m.list m.buckets.length it ≠ some h := by
  unfold ins_flag at e
  by_cases hf : it = m.list.cend
  · exact Or.inl hf
  · rw [if_neg hf] at e
    obtain ⟨ev, hev, e⟩ := Except.bind_eq_ok_iff.mp e
    obtain ⟨hh, hhh, e⟩ := Except.bind_eq_ok_iff.mp e
    simp only [Except.pure_eq_ok, Except.ok.injEq, decide_eq_true_eq] at e
    refine Or.inr ?_
    rw [slotOf_eq_some (DList.value_eq_ok.mp hev), ← (get_hash_eq_ok.mp hhh).2]
    exact fun c => e (Option.some.inj c)

theorem update_bucket_eq {m m2 : UnorderedMap K V} {it h : Nat}
    (e : m.update_bucket it h = .ok m2) :
    ∃ p, m.bucket h = .ok p ∧ (p = 0 → m2.buckets = m.buckets.set h it) ∧
      (p ≠ 0 → m2.buckets = m.buckets) := by
  unfold update_bucket at e
  obtain ⟨p, hp, e⟩ := Except.bind_eq_ok_iff.mp e
  refine ⟨p, hp, ?_⟩
  by_cases hp0 : p = 0
  · simp only [hp0, if_true, Except.pure_eq_ok, Except.ok.injEq] at e
    subst e
    exact ⟨fun _ => rfl, fun h => absurd hp0 h⟩
  · simp only [hp0, if_false, Except.pure_eq_ok, Except.ok.injEq] at e
    subst e
    exact ⟨fun h => absurd h hp0, fun _ => rfl⟩

end UnorderedMap

namespace DList

/-- A list reached by the list operations is well shaped around the nodes its traversal
visits. -/
theorem ListReach.shape_of_nodes {l : DList T} {xs pend : List Nat} (h : ListReach l pend)
    (hn : l.nodes = .ok xs) : l.Shape xs pend ∧ l.count = xs.length := by
  obtain ⟨ys, hs, hc⟩ := ListReach.shape h
  have := hs.nodes_eq
  rw [hn] at this
  cases this
  exact ⟨hs, hc⟩

theorem with_two_nodes_shape :
    DList.with_two_nodes.Shape [3, 2] [] ∧ DList.with_two_nodes.count = [3, 2].length := by
  have h1 : ListReach (Except.resultD (DList.push_back (DList.new : DList Nat) 7) DList.new) [] :=
    ListReach.push_back 7 ListReach.ctor (Except.eq_ok_resultD _ (by decide))
  have h2 : ListReach DList.with_two_nodes [] :=
    ListReach.push_front 8 h1 (Except.eq_ok_resultD DList.new (by decide))
  exact ListReach.shape_of_nodes h2 (by decide)

end DList

namespace UnorderedMap

/-- A map reached from the default-constructed map has a well-shaped list around the nodes its
traversal visits. -/
theorem run_shape {hash : K → Nat} {ops : List (MapOp K V)} {m : UnorderedMap K V}
    (xs : List Nat) (hr : run hash ops = .ok m) (hn : m.list.nodes = .ok xs) :
    m.list.Shape xs [] ∧ m.list.count = xs.length := by
  obtain ⟨ys, hi⟩ := run_inv hr
  have := hi.shape.nodes_eq
  rw [hn] at this
  cases this
  exact ⟨hi.shape, hi.count⟩

end UnorderedMap

/-! ## Speculative nodes, the ring, iterators -/

namespace DList

/-- Two well-shaped lists with the same linked nodes holding the same values have the same
element sequence. -/
theorem Shape.toList_congr {l l2 : DList T} {xs pend pend2 : List Nat} (hs : l.Shape xs pend)
    (hs2 : l2.Shape xs pend2) (h : ∀ a ∈ xs, bufOf l2.mem a = bufOf l.mem a) :
    l2.toList = l.toList := by
  simp only [toList, hs.nodes_eq, hs2.nodes_eq, Except.bind_ok_eq, values_congr xs h]

end DList

theorem Except.toBool_bind_error {α β : Type} {x : Except Err α} {f : α → Except Err β}
    (h : ∀ a, (f a).toBool = false) : (x >>= f).toBool = false := by
  cases x with
  | error e => rfl
  | ok a => exact h a

namespace DList

/-- The loops of `operator+=` and `operator-=` do not return for a negative count. -/
theorem iter_loop_neg (l : DList T) (b : Bool) : ∀ (fuel : Nat) (n : Int) (it : Nat), n < 0 →
    (l.iter_loop b fuel n it).toBool = false
  | 0, _, _, _ => rfl
  | fuel + 1, n, it, hn => by
    unfold iter_loop
    rw [if_neg (by omega)]
    by_cases hm : n = ptrdiff_min
    · rw [if_pos hm]
      rfl
    · rw [if_neg hm]
      exact Except.toBool_bind_error (fun a => iter_loop_neg l b fuel (n - 1) a (by omega))

/-- `operator+=` and `operator-=` do not return for a negative argument. -/
theorem iter_assign_neg (l : DList T) (fuel : Nat) : ∀ (d : Nat) (b : Bool) (it : Nat) (n : Int),
    n < 0 → (l.iter_assign fuel d b it n).toBool = false
  | 0, _, _, _, _ => rfl
  | d + 1, b, it, n, hn => by
    unfold iter_assign
    exact Except.toBool_bind_error (fun a => iter_loop_neg l b fuel n a hn)

theorem walk_back_chain {l : DList T} {z : Nat} : ∀ (ys : List Nat) (a s fuel : Nat),
    Chain (prv l.mem) a (ys ++ [s]) z → a ≠ s → s ∉ ys → ys.length + 2 ≤ fuel →
    l.walk_back fuel a s = .ok (ys ++ [s])
  | [], a, s, fuel, hc, ha, _, hf => by
    obtain ⟨f, rfl⟩ : ∃ f, fuel = f + 2 := ⟨fuel - 2, by simp at hf; omega⟩
    simp only [List.nil_append, Chain] at hc
    simp [walk_back, ha, getPrev_eq_ok.mpr hc.1, Except.bind_ok_eq, Except.pure_eq_ok]
  | y :: ys, a, s, fuel, hc, ha, hs, hf => by
    obtain ⟨f, rfl⟩ : ∃ f, fuel = f + 1 := ⟨fuel - 1, by simp at hf; omega⟩
    simp only [List.cons_append, Chain] at hc
    have hys : y ≠ s := fun e => hs (by simp [e])
    have ih := walk_back_chain ys y s f hc.2 hys (fun h => hs (List.mem_cons_of_mem _ h))
      (by simp at hf; omega)
    simp [walk_back, ha, getPrev_eq_ok.mpr hc.1, ih, Except.bind_ok_eq, Except.pure_eq_ok]

/-- In a well-shaped list the loop from `rbegin()` to `rend()` visits the linked nodes in
reverse order. -/
theorem Shape.nodes_back_eq {l : DList T} {xs pend : List Nat} (hs : l.Shape xs pend) :
    l.nodes_back = .ok xs.reverse := by
  have hfx : l.fake ∉ xs := fun h =>
    (List.nodup_cons.mp hs.nodup).1 (List.mem_append_left _ h)
  have hroom := hs.room
  have hs0 : l.Shape ([] ++ xs) pend := by simpa using hs
  have hb : nxt l.mem l.fake = some (headOr xs l.fake) := by
    have := hs0.pos_facts.2.1
    simpa [lastOr] using this
  cases xs with
  | nil =>
    obtain ⟨f, hf⟩ : ∃ f, l.brk = f + 1 := ⟨l.brk - 1, by omega⟩
    simp [nodes_back, begin, cend, getNext_eq_ok.mpr hb, headOr, Except.bind_ok_eq, hf,
      walk_back, Except.pure_eq_ok]
  | cons x t =>
    have hbw := hs.bwd
    rw [List.reverse_cons] at hbw
    have hx : l.fake ≠ x := fun e => hfx (by simp [e])
    have hnd := (List.nodup_cons.mp (List.nodup_append.mp (List.nodup_cons.mp hs.nodup).2).1).1
    have hw := walk_back_chain t.reverse l.fake x l.brk hbw hx
      (fun h => hnd (List.mem_reverse.mp h)) (by simp at hroom ⊢; omega)
    simp only [nodes_back, begin, cend, getNext_eq_ok.mpr hb, headOr, Except.bind_ok_eq, hw,
      List.reverse_cons]

/-- In a well-shaped list `next` and `prev` are inverse to each other on the ring. -/
theorem Shape.ring_inverse {l : DList T} {xs pend : List Nat} (hs : l.Shape xs pend) {x : Nat}
    (hx : x ∈ l.fake :: xs) : ∃ n p, l.getNext x = .ok n ∧ l.getPrev n = .ok x ∧
      l.getPrev x = .ok p ∧ l.getNext p = .ok x := by
  rcases List.mem_cons.mp hx with h | h
  · subst h
    have hs0 : l.Shape ([] ++ xs) pend := by simpa using hs
    have hs1 : l.Shape (xs ++ []) pend := by simpa using hs
    obtain ⟨a1, a2, _, _⟩ := hs0.pos_facts
    obtain ⟨b1, b2, _, _⟩ := hs1.pos_facts
    simp only [lastOr, headOr] at a1 a2 b1 b2
    exact ⟨_, _, getNext_eq_ok.mpr a2, getPrev_eq_ok.mpr a1, getPrev_eq_ok.mpr b1,
      getNext_eq_ok.mpr b2⟩
  · obtain ⟨pre, post, rfl⟩ := List.append_of_mem h
    have hs1 : l.Shape ((pre ++ [x]) ++ post) pend := by simpa using hs
    obtain ⟨a1, a2, _, _⟩ := hs.pos_facts
    obtain ⟨b1, b2, _, _⟩ := hs1.pos_facts
    rw [lastOr_append_singleton] at b1 b2
    simp only [headOr] at a1 a2
    exact ⟨_, _, getNext_eq_ok.mpr b2, getPrev_eq_ok.mpr b1, getPrev_eq_ok.mpr a1,
      getNext_eq_ok.mpr a2⟩

end DList

namespace UnorderedMap

/-- `erase` of a linked node keeps the invariant of the map. -/
theorem erase_full (hash : K → Nat) {m : UnorderedMap K V} {pre post : List Nat} {it : Nat}
    (hi : m.Inv hash (pre ++ it :: post)) (hb : m.buckets.length ≠ 0) :
    ∃ m2, m.erase hash it = .ok m2 ∧ m2.Inv hash (pre ++ post) ∧
      m2.list.fake = m.list.fake ∧ m2.buckets.length = m.buckets.length ∧
      m2.max_factor = m.max_factor ∧ m2.list.toList = (do
        let vs ← m.list.values pre
        let ws ← m.list.values post
        pure (vs ++ ws)) ∧
      ∀ z, z ≠ it → bufOf m2.list.mem z = bufOf m.list.mem z := by
  obtain ⟨m2, kv, vs, ws, _, hvs, hws, _, e, _, hmf, s2, t2, c2, f2⟩ :=
    erase_elems hash hi.shape hi.count hb
  obtain ⟨p2, q2, hx, i2, hlen, o2⟩ := erase_spec hi e
  have hnd := (List.nodup_cons.mp hi.shape.nodup).2
  rw [List.append_nil] at hnd
  have hsub : ∀ p ∈ p2 ++ q2, p ∈ pre ++ post := by
    intro p hp
    have hne : p ≠ it := by
      intro e2
      subst e2
      rw [hx] at hnd
      have h3 := List.nodup_append.mp hnd
      rcases List.mem_append.mp hp with h | h
      · exact h3.2.2 h (List.mem_cons_self _ _)
      · exact (List.nodup_cons.mp h3.2.1).1 h
    have hp2 : p ∈ pre ++ it :: post := by
      rw [hx]
      rcases List.mem_append.mp hp with h | h
      · exact List.mem_append_left _ h
      · exact List.mem_append_right _ (List.mem_cons_of_mem _ h)
    rcases List.mem_append.mp hp2 with h | h
    · exact List.mem_append_left _ h
    · rcases List.mem_cons.mp h with h | h
      · exact absurd h hne
      · exact List.mem_append_right _ h
  have hlen2 : (pre ++ post).length + 1 = (pre ++ it :: post).length := by
    simp only [List.length_append, List.length_cons]
    omega
  refine ⟨m2, e, ⟨s2, ?_, i2.cache.mono (fun p hp => ⟨hsub p hp, rfl⟩)⟩, f2, hlen, hmf, ?_, o2⟩
  · have := hi.count
    omega
  · rw [t2, hvs, hws]
    rfl

/-- The loop of `erase(a, b)` over the nodes `range` that lie between `a` and `b`. -/
theorem erase_loop_spec (hash : K → Nat) {post : List Nat} :
    ∀ (range pre : List Nat) (m : UnorderedMap K V) (fuel : Nat),
    m.Inv hash (pre ++ range ++ post) → m.buckets.length ≠ 0 → range.length < fuel →
    ∃ m2, erase_loop hash fuel m (headOr (range ++ post) m.list.fake)
        (headOr post m.list.fake) = .ok m2 ∧
      m2.Inv hash (pre ++ post) ∧ m2.list.fake = m.list.fake ∧
      m2.buckets.length = m.buckets.length ∧ m2.max_factor = m.max_factor ∧
      ∀ z, z ∉ range → bufOf m2.list.mem z = bufOf m.list.mem z
  | [], pre, m, fuel, hi, _, hf => by
    obtain ⟨f, rfl⟩ : ∃ f, fuel = f + 1 := ⟨fuel - 1, by omega⟩
    exact ⟨m, by simp [erase_loop, Except.pure_eq_ok], by simpa using hi, rfl, rfl, rfl,
      fun _ _ => rfl⟩
  | y :: r, pre, m, fuel, hi, hb, hf => by
    obtain ⟨f, rfl⟩ : ∃ f, fuel = f + 1 := ⟨fuel - 1, by omega⟩
    have hi1 : m.Inv hash (pre ++ y :: (r ++ post)) := by simpa using hi
    have hnd := hi1.shape.nodup
    rw [List.append_nil] at hnd
    have hyb : y ≠ headOr post m.list.fake := by
      intro e
      have h1 := List.nodup_cons.mp hnd
      have h2 := List.nodup_append.mp h1.2
      have h3 := List.nodup_cons.mp h2.2.1
      rcases List.mem_cons.mp (headOr_mem post m.list.fake) with h | h
      · exact h1.1 (List.mem_append_right _ (by rw [← h, ← e]; exact List.mem_cons_self _ _))
      · exact h3.1 (List.mem_append_right _ (e ▸ h))
    have hs2 : m.list.Shape ((pre ++ [y]) ++ (r ++ post)) [] := by simpa using hi.shape
    have hnx : nxt m.list.mem y = some (headOr (r ++ post) m.list.fake) := by
      have := hs2.pos_facts.2.1
      rwa [lastOr_append_singleton] at this
    obtain ⟨m1, e1, i1, f1, b1, k1, _, o1⟩ := erase_full hash hi1 hb
    have i1b : m1.Inv hash (pre ++ r ++ post) := by simpa using i1
    obtain ⟨m2, e2, i2, f2, b2, k2, o2⟩ :=
      erase_loop_spec hash r pre m1 f i1b (by rw [b1]; exact hb) (by simp at hf; omega)
    rw [f1] at e2
    refine ⟨m2, ?_, i2, f2.trans f1, b2.trans b1, k2.trans k1, fun z hz => ?_⟩
    · show erase_loop hash (f + 1) m y (headOr post m.list.fake) = _
      simp only [erase_loop, if_neg hyb, DList.getNext_eq_ok.mpr hnx, e1, Except.bind_ok_eq, e2]
    · rw [o2 z (fun h => hz (List.mem_cons_of_mem _ h)),
        o1 z (fun e => hz (e ▸ List.mem_cons_self _ _))]

/-- The loop of `erase(a, b)` keeps the invariant whenever it returns. -/
theorem erase_loop_inv {hash : K → Nat} : ∀ (fuel : Nat) (m m2 : UnorderedMap K V)
    (it b : Nat) (xs : List Nat), m.Inv hash xs → erase_loop hash fuel m it b = .ok m2 →
    ∃ ys, m2.Inv hash ys
  | 0, _, _, _, _, _, _, e => by simp [erase_loop] at e
  | fuel + 1, m, m2, it, b, xs, hi, e => by
    unfold erase_loop at e
    by_cases h : it = b
    · rw [if_pos h] at e
      cases e
      exact ⟨xs, hi⟩
    · rw [if_neg h] at e
      obtain ⟨nx, _, e⟩ := Except.bind_eq_ok_iff.mp e
      obtain ⟨m1, h1, e⟩ := Except.bind_eq_ok_iff.mp e
      obtain ⟨p, q, _, i1, _⟩ := erase_spec hi h1
      exact erase_loop_inv fuel m1 m2 nx b _ i1 e

/-- `operator[]` keeps the invariant whenever it returns. -/
theorem subscript_inv {hash : K → Nat} {m : UnorderedMap K V} {xs : List Nat} {k : K} {d : V}
    {r : (Nat × V) × UnorderedMap K V} (hi : m.Inv hash xs)
    (e : m.subscript hash k d = .ok r) : ∃ ys, r.2.Inv hash ys := by
  unfold subscript at e
  obtain ⟨it, _, e⟩ := Except.bind_eq_ok_iff.mp e
  obtain ⟨r1, hr1, e⟩ := Except.bind_eq_ok_iff.mp e
  obtain ⟨kv, _, e⟩ := Except.bind_eq_ok_iff.mp e
  simp only [Except.pure_eq_ok, Except.ok.injEq] at e
  subst e
  by_cases h : it = m.cend
  · rw [if_pos h] at hr1
    obtain ⟨⟨⟨it2, ins⟩, m3⟩, he, hr1⟩ := Except.bind_eq_ok_iff.mp hr1
    simp only [Except.pure_eq_ok, Except.ok.injEq] at hr1
    subst hr1
    obtain ⟨h1, h2⟩ := emplace_spec hi he
    cases ins with
    | false => exact ⟨xs, (h1 rfl).1⟩
    | true =>
      obtain ⟨pre, rest, _, h, _⟩ := h2 rfl
      exact ⟨_, h⟩
  · rw [if_neg h] at hr1
    simp only [Except.pure_eq_ok, Except.ok.injEq] at hr1
    subst hr1
    exact ⟨xs, hi⟩

theorem call_inv {hash : K → Nat} {m m2 : UnorderedMap K V} {xs : List Nat} {c : MapCall K V}
    (hi : m.Inv hash xs) (e : m.call hash c = .ok m2) : ∃ ys, m2.Inv hash ys := by
  cases c with
  | insert kv => exact step_inv hi (show m.step hash (MapOp.insert kv) = .ok m2 from e)
  | emplace k v => exact step_inv hi (show m.step hash (MapOp.emplace k v) = .ok m2 from e)
  | erase it => exact step_inv hi (show m.step hash (MapOp.erase it) = .ok m2 from e)
  | subscript k d =>
    simp only [call] at e
    obtain ⟨r, hr, e⟩ := Except.bind_eq_ok_iff.mp e
    cases e
    exact subscript_inv hi hr
  | erase_range a b =>
    simp only [call, erase_range] at e
    exact erase_loop_inv _ _ _ _ _ _ hi e

theorem calls_inv {hash : K → Nat} : ∀ (cs : List (MapCall K V)) {m m2 : UnorderedMap K V}
    {xs : List Nat}, m.Inv hash xs → calls hash m cs = .ok m2 → ∃ ys, m2.Inv hash ys
  | [], m, m2, xs, hi, e => by
    simp only [calls, Except.pure_eq_ok, Except.ok.injEq] at e
    subst e
    exact ⟨xs, hi⟩
  | c :: cs, m, m2, xs, hi, e => by
    simp only [calls] at e
    obtain ⟨m1, h1, e⟩ := Except.bind_eq_ok_iff.mp e
    obtain ⟨ys, hy⟩ := call_inv hi h1
    exact calls_inv cs hy e

/-- Every map reached from the default-constructed map by `insert`, `emplace`, `operator[]`,
`erase(it)` and `erase(a, b)` satisfies the invariant. -/
theorem run_calls_inv {hash : K → Nat} {cs : List (MapCall K V)} {m : UnorderedMap K V}
    (e : run_calls hash cs = .ok m) : ∃ xs, m.Inv hash xs :=
  calls_inv cs (Inv.default_map hash) e

theorem get_hash_congr {hash : K → Nat} {m m2 : UnorderedMap K V} (hb : m2.buckets = m.buckets)
    (k : K) : m2.get_hash hash k = m.get_hash hash k := by
  simp only [get_hash, hb]

/-- The scan of `find_by_hash` gives the same result on two maps with the same cache whose
lists have the same linked nodes with the same values. -/
theorem scan_agree (hash : K → Nat) {m m2 : UnorderedMap K V} {xs pend pend2 : List Nat}
    (hs : m.list.Shape xs pend) (hs2 : m2.list.Shape xs pend2) (hb : m2.buckets = m.buckets)
    (hf : m2.list.fake = m.list.fake) (hv : ∀ a ∈ xs, bufOf m2.list.mem a = bufOf m.list.mem a)
    (key : K) (h : Nat) : ∀ (sfx done : List Nat) (f f2 : Nat), xs = done ++ sfx →
    sfx.length < f → sfx.length < f2 →
    scan hash m2 key h f2 (headOr sfx m.list.fake) = scan hash m key h f (headOr sfx m.list.fake)
  | [], done, f, f2, _, h1, h2 => by
    obtain ⟨g, rfl⟩ : ∃ g, f = g + 1 := ⟨f - 1, by omega⟩
    obtain ⟨g2, rfl⟩ : ∃ g, f2 = g + 1 := ⟨f2 - 1, by omega⟩
    simp [scan, headOr, cend, DList.cend, hf]
  | y :: t, done, f, f2, hx, h1, h2 => by
    obtain ⟨g, rfl⟩ : ∃ g, f = g + 1 := ⟨f - 1, by omega⟩
    obtain ⟨g2, rfl⟩ : ∃ g, f2 = g + 1 := ⟨f2 - 1, by omega⟩
    subst hx
    have hyf : y ≠ m.list.fake := fun e =>
      (List.nodup_cons.mp hs.nodup).1
        (List.mem_append_left _ (List.mem_append_right _ (e ▸ List.mem_cons_self _ _)))
    have hyf2 : y ≠ m2.list.fake := by rw [hf]; exact hyf
    have hsa : m.list.Shape ((done ++ [y]) ++ t) pend := by simpa using hs
    have hsb : m2.list.Shape ((done ++ [y]) ++ t) pend2 := by simpa using hs2
    have hnx : nxt m.list.mem y = some (headOr t m.list.fake) := by
      have := hsa.pos_facts.2.1
      rwa [lastOr_append_singleton] at this
    have hnx2 : nxt m2.list.mem y = some (headOr t m.list.fake) := by
      have := hsb.pos_facts.2.1
      rwa [lastOr_append_singleton, hf] at this
    have hval : m2.list.value y = m.list.value y :=
      DList.value_congr (hv y (List.mem_append_right _ (List.mem_cons_self _ _)))
    have ih := scan_agree hash hs hs2 hb hf hv key h t (done ++ [y]) g g2 (by simp)
      (by simp at h1; omega) (by simp at h2; omega)
    show scan hash m2 key h (g2 + 1) y = scan hash m key h (g + 1) y
    simp only [scan, cend, DList.cend, if_neg hyf, if_neg hyf2, hval,
      get_hash_congr hb, DList.getNext_eq_ok.mpr hnx, DList.getNext_eq_ok.mpr hnx2,
      Except.bind_ok_eq, ih]

theorem bucket_congr {m m2 : UnorderedMap K V} (hb : m2.buckets = m.buckets) (i : Nat) :
    m2.bucket i = m.bucket i := by
  simp only [bucket, hb]

/-- `find_by_hash` gives the same result on two maps with the same valid cache whose lists have
the same linked nodes with the same values. -/
theorem find_by_hash_agree (hash : K → Nat) (m m2 : UnorderedMap K V) {xs pend pend2 : List Nat}
    (hs : m.list.Shape xs pend) (hs2 : m2.list.Shape xs pend2) (hb : m2.buckets = m.buckets)
    (hf : m2.list.fake = m.list.fake) (hv : ∀ a ∈ xs, bufOf m2.list.mem a = bufOf m.list.mem a)
    (hk : CacheOK hash m.list xs m.buckets) (key : K) (h : Nat) :
    m2.find_by_hash hash key h = m.find_by_hash hash key h := by
  unfold find_by_hash
  rw [bucket_congr hb]
  cases hp : m.bucket h with
  | error e => rfl
  | ok p =>
    simp only [Except.bind_ok_eq]
    by_cases h0 : p = 0
    · simp only [if_pos h0]
      have hsa : m.list.Shape ([] ++ xs) pend := by simpa using hs
      have hsb : m2.list.Shape ([] ++ xs) pend2 := by simpa using hs2
      have a1 := hsa.pos_facts.2.1
      have a2 := hsb.pos_facts.2.1
      simp only [lastOr] at a1 a2
      rw [hf] at a2
      show m2.list.getNext m2.list.fake = m.list.getNext m.list.fake
      rw [hf, DList.getNext_eq_ok.mpr a1, DList.getNext_eq_ok.mpr a2]
    · simp only [if_neg h0]
      have hpx := (hk h p (bucket_eq_ok.mp hp) h0).1
      obtain ⟨done, t, rfl⟩ := List.append_of_mem hpx
      have r1 := hs.room
      have r2 := hs2.room
      simp only [List.length_append, List.length_cons] at r1 r2
      exact scan_agree hash hs hs2 hb hf hv key h (p :: t) done _ _ rfl
        (by simp only [List.length_cons]; omega) (by simp only [List.length_cons]; omega)

theorem ins_flag_agree (hash : K → Nat) (m m2 : UnorderedMap K V) {xs : List Nat}
    (hb : m2.buckets = m.buckets) (hf : m2.list.fake = m.list.fake)
    (hv : ∀ a ∈ xs, bufOf m2.list.mem a = bufOf m.list.mem a) {it : Nat}
    (hit : it ∈ m.list.fake :: xs) (h : Nat) :
    m2.ins_flag hash it h = m.ins_flag hash it h := by
  unfold ins_flag
  by_cases hc : it = m.list.cend
  · rw [if_pos hc, if_pos (show it = m2.list.cend by rw [hc]; exact hf.symm)]
  · have hc2 : ¬ it = m2.list.cend := fun e => hc (e.trans hf)
    rw [if_neg hc, if_neg hc2]
    have hx : it ∈ xs := by
      rcases List.mem_cons.mp hit with e | e
      · exact absurd e hc
      · exact e
    simp only [DList.value_congr (hv it hx), get_hash_congr hb]

theorem update_bucket_with_list (m : UnorderedMap K V) (l : DList (K × V)) (it h : Nat) :
    ({ m with list := l } : UnorderedMap K V).update_bucket it h =
      (m.update_bucket it h).map (fun r => { r with list := l }) := by
  unfold update_bucket bucket
  cases m.buckets[h]? with
  | none => rfl
  | some p =>
    by_cases hp : p = 0
    · simp [hp, Except.bind_ok_eq, Except.pure_eq_ok, Except.map]
    · simp [hp, Except.bind_ok_eq, Except.pure_eq_ok, Except.map]

/-- `insert((k, v))` and `emplace(k, v)` on a map that satisfies the invariant, with memory for
one node: both fail in the same way, or both return, with the same position and flag, the same
cache and maximum load factor, and lists with the same linked nodes holding the same values. -/
theorem emplace_insert_agree (hash : K → Nat) {m : UnorderedMap K V} {xs : List Nat}
    (hi : m.Inv hash xs) (hlt : m.list.brk < addr_space) (k : K) (v : V) :
    (∃ e, m.insert hash (k, v) = .error e ∧ m.emplace hash k v = .error e) ∨
    (∃ it ins mi me ys, m.insert hash (k, v) = .ok ((it, ins), mi) ∧
      m.emplace hash k v = .ok ((it, ins), me) ∧ me.buckets = mi.buckets ∧
      me.max_factor = mi.max_factor ∧ mi.list.Shape ys [] ∧ me.list.Shape ys [] ∧
      me.list.count = mi.list.count ∧ me.list.fake = mi.list.fake ∧
      ∀ a ∈ ys, bufOf me.list.mem a = bufOf mi.list.mem a) := by
  cases hm1 : m.rehash hash with
  | error e =>
    exact Or.inl ⟨e, by simp only [UnorderedMap.insert, hm1, Except.bind_error_eq],
      by simp only [emplace, hm1, Except.bind_error_eq]⟩
  | ok m1 =>
    obtain ⟨i1, l1⟩ := rehash_spec hi hm1
    have hlt1 : m1.list.brk < addr_space := by rw [l1]; exact hlt
    obtain ⟨lc, ec, sc, cc, fc, bc, vc, oc⟩ :=
      DList.create_node_spec (k, v) i1.shape i1.count hlt1
    have hvn : lc.value m1.list.brk = .ok (k, v) := DList.value_eq_ok.mpr vc
    have hold : ∀ a ∈ xs, a ≠ m1.list.brk := fun a ha e => by
      have := (i1.shape.lt_brk a (List.mem_cons_of_mem _ (List.mem_append_left _ ha))).2
      omega
    have hvc : ∀ a ∈ xs, bufOf lc.mem a = bufOf m1.list.mem a := fun a ha => oc a (hold a ha)
    have hgc : ∀ q, ({ m1 with list := lc } : UnorderedMap K V).get_hash hash q =
        m1.get_hash hash q := fun q => rfl
    have hfa : ∀ h, ({ m1 with list := lc } : UnorderedMap K V).find_by_hash hash k h =
        m1.find_by_hash hash k h := fun h =>
      find_by_hash_agree hash m1 { m1 with list := lc } i1.shape sc rfl fc hvc i1.cache k h
    cases hh : m1.get_hash hash k with
    | error e =>
      exact Or.inl ⟨e, by simp only [UnorderedMap.insert, hm1, Except.bind_ok_eq, hh,
          Except.bind_error_eq],
        by simp only [emplace, hm1, Except.bind_ok_eq, ec, hvn, hgc, hh, Except.bind_error_eq]⟩
    | ok h =>
      cases hfd : m1.find_by_hash hash k h with
      | error e =>
        exact Or.inl ⟨e, by simp only [UnorderedMap.insert, hm1, Except.bind_ok_eq, hh, hfd,
            Except.bind_error_eq],
          by simp only [emplace, hm1, Except.bind_ok_eq, ec, hvn, hgc, hh, hfa, hfd,
            Except.bind_error_eq]⟩
      | ok it0 =>
        have hmem : it0 ∈ m1.list.fake :: xs := find_by_hash_mem i1.shape i1.cache hfd
        have hia : ({ m1 with list := lc } : UnorderedMap K V).ins_flag hash it0 h =
            m1.ins_flag hash it0 h :=
          ins_flag_agree hash m1 { m1 with list := lc } rfl fc hvc hmem h
        cases hins : m1.ins_flag hash it0 h with
        | error e =>
          exact Or.inl ⟨e, by simp only [UnorderedMap.insert, hm1, Except.bind_ok_eq, hh, hfd,
              hins, Except.bind_error_eq],
            by simp only [emplace, hm1, Except.bind_ok_eq, ec, hvn, hgc, hh, hfa, hfd, hia, hins,
              Except.bind_error_eq]⟩
        | ok ins0 =>
          have hfx : m1.list.fake ∉ xs := fun h =>
            (List.nodup_cons.mp i1.shape.nodup).1 (List.mem_append_left _ h)
          cases ins0 with
          | true =>
            obtain ⟨pre, rest, rfl, rfl⟩ := DList.pos_split hmem hfx
            obtain ⟨l3, e3, s3, c3, f3, b3, o3⟩ :=
              DList.emplace_node_spec sc (cc.trans i1.count) (List.mem_cons_self _ _)
            rw [fc] at e3
            have s3b : l3.Shape (pre ++ m1.list.brk :: rest) [] := by simpa using s3
            have hie : m1.list.emplace (headOr rest m1.list.fake) (k, v) =
                .ok (m1.list.brk, l3) := by
              simp only [DList.emplace, ec, Except.bind_ok_eq, e3]
            cases hub : ({ m1 with list := l3 } : UnorderedMap K V).update_bucket
                m1.list.brk h with
            | error e =>
              exact Or.inl ⟨e, by simp only [UnorderedMap.insert, hm1, Except.bind_ok_eq, hh,
                  hfd, hins, if_true, hie, Except.pure_eq_ok, hub, Except.bind_error_eq],
                by simp only [emplace, hm1, Except.bind_ok_eq, ec, hvn, hgc, hh, hfa, hfd, hia,
                  hins, if_true, e3, Except.pure_eq_ok, hub, Except.bind_error_eq]⟩
            | ok m4 =>
              obtain ⟨k1, _, _⟩ := update_bucket_frame hub
              have s4 : m4.list.Shape (pre ++ m1.list.brk :: rest) [] := by
                rw [k1]; exact s3b
              exact Or.inr ⟨m1.list.brk, true, m4, m4, _, by
                  simp only [UnorderedMap.insert, hm1, Except.bind_ok_eq, hh, hfd, hins, if_true,
                    hie, Except.pure_eq_ok, hub],
                by simp only [emplace, hm1, Except.bind_ok_eq, ec, hvn, hgc, hh, hfa, hfd, hia,
                    hins, if_true, e3, Except.pure_eq_ok, hub],
                rfl, rfl, s4, s4, rfl, rfl, fun _ _ => rfl⟩
          | false =>
            obtain ⟨l4, e4, s4, c4, f4, _, o4⟩ :=
              DList.remove_node_spec sc (cc.trans i1.count) (List.mem_cons_self _ _)
            have s4b : l4.Shape xs [] := by simpa using s4
            have hwl := update_bucket_with_list m1 l4 it0 h
            cases hub : m1.update_bucket it0 h with
            | error e =>
              rw [hub] at hwl
              exact Or.inl ⟨e, by simp only [UnorderedMap.insert, hm1, Except.bind_ok_eq, hh,
                  hfd, hins, Bool.false_eq_true, if_false, Except.pure_eq_ok, hub,
                  Except.bind_error_eq],
                by simp only [emplace, hm1, Except.bind_ok_eq, ec, hvn, hgc, hh, hfa, hfd, hia,
                  hins, Bool.false_eq_true, if_false, e4, Except.pure_eq_ok, hwl, Except.map,
                  Except.bind_error_eq]⟩
            | ok mi =>
              rw [hub] at hwl
              obtain ⟨k1, k2, _⟩ := update_bucket_frame hub
              exact Or.inr ⟨it0, false, mi, { mi with list := l4 }, xs, by
                  simp only [UnorderedMap.insert, hm1, Except.bind_ok_eq, hh, hfd, hins,
                    Bool.false_eq_true, if_false, Except.pure_eq_ok, hub],
                by simp only [emplace, hm1, Except.bind_ok_eq, ec, hvn, hgc, hh, hfa, hfd, hia,
                    hins, Bool.false_eq_true, if_false, e4, Except.pure_eq_ok, hwl, Except.map],
                rfl, rfl, by rw [k1]; exact i1.shape, s4b, by rw [k1]; exact c4.trans cc,
                by rw [k1]; exact f4.trans fc,
                fun a ha => by rw [k1]; exact (o4 a (hold a ha)).trans (hvc a ha)⟩

end UnorderedMap

/-! ## Runs of equal slots -/

/-- The first element with a property is where it is. -/
theorem first_split_unique {P : Nat → Prop} : ∀ {A A2 D D2 : List Nat} {x y : Nat},
    A ++ x :: A2 = D ++ y :: D2 → (∀ a ∈ A, ¬ P a) → P x → (∀ a ∈ D, ¬ P a) → P y →
    A = D ∧ x = y ∧ A2 = D2
  | [], _, [], _, _, _, h, _, _, _, _ => by
    simp only [List.nil_append, List.cons.injEq] at h
    exact ⟨rfl, h.1, h.2⟩
  | [], _, d :: D, _, x, _, h, _, hx, hD, _ => by
    simp only [List.nil_append, List.cons_append, List.cons.injEq] at h
    exact absurd (h.1 ▸ hx) (hD d (List.mem_cons_self _ _))
  | a :: A, _, [], _, _, y, h, hA, _, _, hy => by
    simp only [List.nil_append, List.cons_append, List.cons.injEq] at h
    exact absurd (h.1 ▸ hy) (hA a (List.mem_cons_self _ _))
  | a :: A, _, d :: D, _, _, _, h, hA, hx, hD, hy => by
    simp only [List.cons_append, List.cons.injEq] at h
    obtain ⟨e1, e2, e3⟩ := first_split_unique h.2
      (fun b hb => hA b (List.mem_cons_of_mem _ hb)) hx
      (fun b hb => hD b (List.mem_cons_of_mem _ hb)) hy
    exact ⟨by rw [h.1, e1], e2, e3⟩

/-- The longest prefix with a property is where it is. -/
theorem run_split_unique {P : Nat → Prop} : ∀ {u v u2 v2 : List Nat},
    u ++ v = u2 ++ v2 → (∀ a ∈ u, P a) → (∀ a ∈ u2, P a) → (∀ a ∈ v.head?, ¬ P a) →
    (∀ a ∈ v2.head?, ¬ P a) → u = u2 ∧ v = v2
  | [], _, [], _, h, _, _, _, _ => ⟨rfl, by simpa using h⟩
  | [], v, c :: u2, v2, h, _, h2, hv, _ => by
    simp only [List.nil_append, List.cons_append] at h
    subst h
    exact absurd (h2 c (List.mem_cons_self _ _)) (hv c (by simp))
  | a :: u, v, [], v2, h, h1, _, _, hv2 => by
    simp only [List.nil_append, List.cons_append] at h
    subst h
    exact absurd (h1 a (List.mem_cons_self _ _)) (hv2 a (by simp))
  | a :: u, v, c :: u2, v2, h, h1, h2, hv, hv2 => by
    simp only [List.cons_append, List.cons.injEq] at h
    obtain ⟨e1, e2⟩ := run_split_unique h.2 (fun b hb => h1 b (List.mem_cons_of_mem _ hb))
      (fun b hb => h2 b (List.mem_cons_of_mem _ hb)) hv hv2
    exact ⟨by rw [h.1, e1], e2⟩

/-- Inserting an element into a sequence keeps a split at another element, with the element
possibly added to the part before. -/
theorem insert_keeps_split {X Y d1 d2 : List Nat} {q : Nat} (z : Nat)
    (h : X ++ Y = d1 ++ q :: d2) :
    ∃ e1 e2, X ++ z :: Y = e1 ++ q :: e2 ∧ ∀ a ∈ e1, a ∈ d1 ∨ a = z := by
  rcases List.append_eq_append_iff.mp h with ⟨a2, h1, h2⟩ | ⟨c2, h1, h2⟩
  · refine ⟨X ++ z :: a2, d2, by rw [h2]; simp, fun a ha => ?_⟩
    rcases List.mem_append.mp ha with h3 | h3
    · exact Or.inl (h1 ▸ List.mem_append_left _ h3)
    · rcases List.mem_cons.mp h3 with h4 | h4
      · exact Or.inr h4
      · exact Or.inl (h1 ▸ List.mem_append_right _ h4)
  · cases c2 with
    | nil =>
      simp only [List.nil_append, List.append_nil] at h1 h2
      refine ⟨d1 ++ [z], d2, by rw [h1, ← h2]; simp, fun a ha => ?_⟩
      rcases List.mem_append.mp ha with h3 | h3
      · exact Or.inl h3
      · exact Or.inr (List.mem_singleton.mp h3)
    | cons c c3 =>
      simp only [List.cons_append, List.cons.injEq] at h2
      refine ⟨d1, c3 ++ z :: Y, ?_, fun a ha => Or.inl ha⟩
      rw [h1, h2.1]
      simp

theorem nodup_split_unique {A A2 D D2 : List Nat} {x : Nat} (hnd : (A ++ x :: A2).Nodup)
    (h : A ++ x :: A2 = D ++ x :: D2) : A = D ∧ A2 = D2 := by
  have h1 : ∀ a ∈ A, ¬ a = x := fun a ha e =>
    (List.nodup_append.mp hnd).2.2 ha (e ▸ List.mem_cons_self _ _)
  have hnd2 : (D ++ x :: D2).Nodup := h ▸ hnd
  have h2 : ∀ a ∈ D, ¬ a = x := fun a ha e =>
    (List.nodup_append.mp hnd2).2.2 ha (e ▸ List.mem_cons_self _ _)
  obtain ⟨e1, _, e3⟩ := first_split_unique (P := fun a => a = x) h h1 rfl h2 rfl
  exact ⟨e1, e3⟩

/-- Linking a node `z` of slot `h` behind the nodes `mid` of slot `h` at which the scan of
`find_by_hash` stopped keeps the cache first-writer-wins and the nodes of each slot
contiguous. -/
theorem place_runs (s : Nat → Option Nat) {bs done mid rest : List Nat} {z h p : Nat}
    (hfw : FirstWriterBy s (done ++ mid ++ rest) bs)
    (hcg : ContiguousBy s (done ++ mid ++ rest)) (hnd : (done ++ mid ++ rest).Nodup)
    (hz0 : z ≠ 0) (hsz : s z = some h) (hp : bs[h]? = some p)
    (hp0 : p = 0 → done = [] ∧ mid = []) (hp1 : p ≠ 0 → ∃ t, mid ++ rest = p :: t)
    (hmid : ∀ a ∈ mid, s a = some h)
    (hrest : rest = [] ∨ ∃ b t, rest = b :: t ∧ s b ≠ some h) :
    (∀ a ∈ done ++ rest, s a ≠ some h) ∧
    FirstWriterBy s (done ++ mid ++ z :: rest) (if p = 0 then bs.set h z else bs) ∧
    ContiguousBy s (done ++ mid ++ z :: rest) := by
  have hlt : h < bs.length := by
    by_contra hge
    rw [List.getElem?_eq_none (Nat.le_of_not_lt hge)] at hp
    cases hp
  have hrh : ∀ a ∈ rest.head?, ¬ s a = some h := by
    intro a ha
    rcases hrest with e | ⟨b, t, e, hb⟩
    · rw [e] at ha
      simp at ha
    · rw [e] at ha
      simp only [List.head?_cons, Option.mem_def, Option.some.injEq] at ha
      exact ha ▸ hb
  -- when the slot is in use, `mid` starts with the cached node
  have hmidp : p ≠ 0 → ∃ mid2, mid = p :: mid2 := by
    intro hp2
    obtain ⟨t, ht⟩ := hp1 hp2
    cases mid with
    | nil =>
      simp only [List.nil_append] at ht
      exact absurd ((hfw h p hp).2 hp2).choose_spec.choose_spec.2.1
        (hrh p (by rw [ht]; simp))
    | cons c mid2 =>
      simp only [List.cons_append, List.cons.injEq] at ht
      exact ⟨mid2, by rw [ht.1]⟩
  have hA : ∀ a ∈ done ++ rest, s a ≠ some h := by
    by_cases hp2 : p = 0
    · obtain ⟨e1, e2⟩ := hp0 hp2
      subst e1
      subst e2
      intro a ha
      exact (hfw h p hp).1 hp2 a (by simpa using ha)
    · obtain ⟨mid2, rfl⟩ := hmidp hp2
      obtain ⟨d1, d2, e1, e2, e3⟩ := (hfw h p hp).2 hp2
      have hx : done ++ p :: (mid2 ++ rest) = d1 ++ p :: d2 := by rw [← e1]; simp
      have hnd2 : (done ++ p :: (mid2 ++ rest)).Nodup := by
        have : done ++ p :: (mid2 ++ rest) = done ++ p :: mid2 ++ rest := by simp
        rw [this]
        exact hnd
      obtain ⟨k1, _⟩ := nodup_split_unique hnd2 hx
      have hdone : ∀ a ∈ done, ¬ s a = some h := fun a ha => e3 a (k1 ▸ ha)
      obtain ⟨A, R, B, eq, hR, hAB⟩ := hcg h
      have hpR : p ∈ R := by
        have hpx : p ∈ A ++ R ++ B := by rw [← eq]; simp
        rcases List.mem_append.mp hpx with h1 | h1
        · rcases List.mem_append.mp h1 with h2 | h2
          · exact absurd e2 (hAB p (List.mem_append_left _ h2))
          · exact h2
        · exact absurd e2 (hAB p (List.mem_append_right _ h1))
      cases R with
      | nil => exact absurd hpR (List.not_mem_nil _)
      | cons r0 R2 =>
        have hy : A ++ r0 :: (R2 ++ B) = done ++ p :: (mid2 ++ rest) := by
          have : A ++ r0 :: (R2 ++ B) = A ++ r0 :: R2 ++ B := by simp
          rw [this, ← eq]
          simp
        obtain ⟨_, _, k3⟩ := first_split_unique (P := fun a => s a = some h) hy
          (fun a ha => hAB a (List.mem_append_left _ ha)) (hR r0 (List.mem_cons_self _ _))
          hdone e2
        obtain ⟨_, k5⟩ := run_split_unique (P := fun a => s a = some h) k3
          (fun a ha => hR a (List.mem_cons_of_mem _ ha))
          (fun a ha => hmid a (List.mem_cons_of_mem _ ha))
          (fun a ha => hAB a (List.mem_append_right _ (List.mem_of_mem_head? ha))) hrh
        intro a ha
        rcases List.mem_append.mp ha with h1 | h1
        · exact hdone a h1
        · exact hAB a (List.mem_append_right _ (k5 ▸ h1))
  have hys : ∀ a ∈ done ++ mid ++ z :: rest, a = z ∨ a ∈ done ++ mid ++ rest := by
    intro a ha
    rcases List.mem_append.mp ha with h1 | h1
    · exact Or.inr (List.mem_append_left _ h1)
    · rcases List.mem_cons.mp h1 with h2 | h2
      · exact Or.inl h2
      · exact Or.inr (List.mem_append_right _ h2)
  refine ⟨hA, ?_, ?_⟩
  · intro i q hq
    by_cases hi : i = h
    · subst hi
      by_cases hp2 : p = 0
      · rw [if_pos hp2, List.getElem?_set_self hlt] at hq
        cases hq
        obtain ⟨e1, e2⟩ := hp0 hp2
        subst e1
        subst e2
        exact ⟨fun h0 => absurd h0 hz0, fun _ => ⟨[], rest, rfl, hsz,
          fun a ha => absurd ha (List.not_mem_nil _)⟩⟩
      · rw [if_neg hp2, hp] at hq
        cases hq
        obtain ⟨mid2, rfl⟩ := hmidp hp2
        refine ⟨fun h0 => absurd h0 hp2, fun _ => ⟨done, mid2 ++ z :: rest, by simp,
          hmid p (List.mem_cons_self _ _), fun a ha => hA a (List.mem_append_left _ ha)⟩⟩
    · have hq2 : bs[i]? = some q := by
        by_cases hp2 : p = 0
        · rw [if_pos hp2, List.getElem?_set_ne (Ne.symm hi)] at hq
          exact hq
        · rw [if_neg hp2] at hq
          exact hq
      have hzi : s z ≠ some i := by
        rw [hsz]
        exact fun e => hi (Option.some.inj e).symm
      obtain ⟨f1, f2⟩ := hfw i q hq2
      refine ⟨fun h0 a ha => ?_, fun h0 => ?_⟩
      · rcases hys a ha with e | e
        · rw [e]; exact hzi
        · exact f1 h0 a e
      · obtain ⟨d1, d2, e1, e2, e3⟩ := f2 h0
        obtain ⟨g1, g2, k1, k2⟩ := insert_keeps_split z e1
        refine ⟨g1, g2, k1, e2, fun a ha => ?_⟩
        rcases k2 a ha with e | e
        · exact e3 a e
        · rw [e]; exact hzi
  · intro i
    by_cases hi : i = h
    · subst hi
      refine ⟨done, mid ++ [z], rest, by simp, fun x hx => ?_, hA⟩
      rcases List.mem_append.mp hx with h1 | h1
      · exact hmid x h1
      · rw [List.mem_singleton.mp h1]; exact hsz
    · have hzi : s z ≠ some i := by
        rw [hsz]
        exact fun e => hi (Option.some.inj e).symm
      obtain ⟨A, R, B, eq, hR, hAB⟩ := hcg i
      have eq2 : (done ++ mid) ++ rest = A ++ (R ++ B) := by rw [eq]; simp
      rcases List.append_eq_append_iff.mp eq2 with ⟨a2, h1, h2⟩ | ⟨c2, h1, h2⟩
      · -- the new node lands before the run
        refine ⟨done ++ mid ++ z :: a2, R, B, by rw [h2]; simp, hR, fun x hx => ?_⟩
        rcases List.mem_append.mp hx with h3 | h3
        · rcases List.mem_append.mp h3 with h4 | h4
          · exact hAB x (List.mem_append_left _ (h1 ▸ List.mem_append_left _ h4))
          · rcases List.mem_cons.mp h4 with h5 | h5
            · rw [h5]; exact hzi
            · exact hAB x (List.mem_append_left _ (h1 ▸ List.mem_append_right _ h5))
        · exact hAB x (List.mem_append_right _ h3)
      · rcases List.append_eq_append_iff.mp h2 with ⟨r2, h3, h4⟩ | ⟨r2, h3, h4⟩
        · -- the new node lands behind the run
          refine ⟨A, R, r2 ++ z :: rest, by rw [h1, h3]; simp, hR, fun x hx => ?_⟩
          rcases List.mem_append.mp hx with h5 | h5
          · exact hAB x (List.mem_append_left _ h5)
          · rcases List.mem_append.mp h5 with h6 | h6
            · exact hAB x (List.mem_append_right _ (h4 ▸ List.mem_append_left _ h6))
            · rcases List.mem_cons.mp h6 with h7 | h7
              · rw [h7]; exact hzi
              · exact hAB x (List.mem_append_right _ (h4 ▸ List.mem_append_right _ h7))
        · -- `done ++ mid = A ++ c2`, `R = c2 ++ r2`, `rest = r2 ++ B`
          cases c2 with
          | nil =>
            simp only [List.append_nil, List.nil_append] at h1 h3
            refine ⟨A ++ [z], R, B, by rw [h1, h4, h3]; simp, hR, fun x hx => ?_⟩
            rcases List.mem_append.mp hx with h5 | h5
            · rcases List.mem_append.mp h5 with h6 | h6
              · exact hAB x (List.mem_append_left _ h6)
              · rw [List.mem_singleton.mp h6]; exact hzi
            · exact hAB x (List.mem_append_right _ h5)
          | cons c c3 =>
            cases r2 with
            | nil =>
              simp only [List.append_nil, List.nil_append] at h3 h4
              refine ⟨A, R, z :: B, by rw [h1, h3, h4], hR, fun x hx => ?_⟩
              rcases List.mem_append.mp hx with h5 | h5
              · exact hAB x (List.mem_append_left _ h5)
              · rcases List.mem_cons.mp h5 with h6 | h6
                · rw [h6]; exact hzi
                · exact hAB x (List.mem_append_right _ h6)
            | cons r r3 =>
              exfalso
              -- the last node of `done ++ mid` has slot `i`, being in the run
              have hlast : ∀ x ∈ (done ++ mid).getLast?, s x = some i := by
                intro x hx
                rw [h1] at hx
                rw [List.getLast?_append_of_ne_nil _ (List.cons_ne_nil c c3)] at hx
                exact hR x (h3 ▸ List.mem_append_left _ (List.mem_of_mem_getLast? hx))
              by_cases hm : mid = []
              · have hp2 : p = 0 := by
                  by_contra hp2
                  obtain ⟨mid2, e⟩ := hmidp hp2
                  rw [hm] at e
                  cases e
                obtain ⟨e1, _⟩ := hp0 hp2
                rw [e1, hm] at h1
                cases A <;> simp at h1
              · obtain ⟨x, hx⟩ : ∃ x, x ∈ mid.getLast? := by
                  cases hml : mid.getLast? with
                  | none => exact absurd (List.getLast?_eq_none_iff.mp hml) hm
                  | some x => exact ⟨x, rfl⟩
                have h5 : x ∈ (done ++ mid).getLast? := by
                  rw [List.getLast?_append_of_ne_nil _ hm]
                  exact hx
                have h6 := hlast x h5
                rw [hmid x (List.mem_of_mem_getLast? hx)] at h6
                exact hi (Option.some.inj h6).symm

/-! ## Inserts without growth -/

theorem slotOf_congr {hash : K → Nat} {l l2 : DList (K × V)} {n a : Nat}
    (h : bufOf l2.mem a = bufOf l.mem a) : slotOf hash l2 n a = slotOf hash l n a := by
  simp only [slotOf, h]

theorem slotOf_eq_some_iff {hash : K → Nat} {l : DList (K × V)} {n a i : Nat} :
    slotOf hash l n a = some i ↔
      ∃ kv, bufOf l.mem a = some (some kv) ∧ hash kv.1 % n = i := by
  unfold slotOf
  cases hb : bufOf l.mem a with
  | none => simp
  | some o =>
    cases o with
    | none => simp
    | some kv => simp

theorem FirstWriterBy.congr_slots {s s2 : Nat → Option Nat} {xs bs : List Nat}
    (h : ∀ a ∈ xs, s2 a = s a) (hfw : FirstWriterBy s xs bs) : FirstWriterBy s2 xs bs := by
  intro i p hp
  obtain ⟨f1, f2⟩ := hfw i p hp
  refine ⟨fun h0 a ha => by rw [h a ha]; exact f1 h0 a ha, fun h0 => ?_⟩
  obtain ⟨d1, d2, e1, e2, e3⟩ := f2 h0
  refine ⟨d1, d2, e1, ?_, fun a ha => ?_⟩
  · rw [h p (by rw [e1]; simp)]
    exact e2
  · rw [h a (by rw [e1]; exact List.mem_append_left _ ha)]
    exact e3 a ha

theorem ContiguousBy.congr_runs {s s2 : Nat → Option Nat} {xs : List Nat}
    (h : ∀ a ∈ xs, s2 a = s a) (hcg : ContiguousBy s xs) : ContiguousBy s2 xs := by
  intro i
  obtain ⟨A, R, B, e, hR, hAB⟩ := hcg i
  refine ⟨A, R, B, e, fun x hx => ?_, fun x hx => ?_⟩
  · rw [h x (by rw [e]; exact List.mem_append_left _ (List.mem_append_right _ hx))]
    exact hR x hx
  · rw [h x (by
      rw [e]
      rcases List.mem_append.mp hx with h1 | h1
      · exact List.mem_append_left _ (List.mem_append_left _ h1)
      · exact List.mem_append_right _ h1)]
    exact hAB x hx

theorem FirstWriter.cacheOK {hash : K → Nat} {l : DList (K × V)} {xs bs : List Nat}
    (hfw : FirstWriter hash l xs bs) : CacheOK hash l xs bs := by
  intro i p hp hp0
  obtain ⟨d1, d2, e1, e2, _⟩ := (hfw i p hp).2 hp0
  exact ⟨by rw [e1]; simp, slotOf_eq_some_iff.mp e2⟩

namespace UnorderedMap

/-- An `insert` that runs no growth keeps the cache first-writer-wins and the nodes of each
slot contiguous, and links a node only for a key that no node holds. -/
theorem insert_keeps_runs (hash : K → Nat) {m m2 : UnorderedMap K V} {xs : List Nat}
    {kv : K × V} {it : Nat} {ins : Bool} (hs : m.list.Shape xs [])
    (hc : m.list.count = xs.length) (hfw : FirstWriter hash m.list xs m.buckets)
    (hcg : Contiguous hash m.list m.buckets.length xs)
    (hlt : F32.lt m.load_factor m.max_factor = true)
    (e : m.insert hash kv = .ok ((it, ins), m2)) :
    ∃ ys, m2.list.Shape ys [] ∧ m2.list.count = ys.length ∧
      FirstWriter hash m2.list ys m2.buckets ∧
      Contiguous hash m2.list m2.buckets.length ys ∧
      (∀ a ∈ xs, bufOf m2.list.mem a = bufOf m.list.mem a) ∧
      (ins = false → ys = xs ∧ it ∈ xs) ∧
      (ins = true → (∃ pre rest, xs = pre ++ rest ∧ ys = pre ++ it :: rest) ∧
        it ∉ xs ∧ bufOf m2.list.mem it = some (some kv) ∧
        ∀ a ∈ xs, ∀ kv2, bufOf m.list.mem a = some (some kv2) → kv2.1 ≠ kv.1) := by
  have hk := hfw.cacheOK
  unfold UnorderedMap.insert at e
  rw [rehash_of_lt hlt] at e
  simp only [Except.bind_ok_eq] at e
  obtain ⟨h, hh, e⟩ := Except.bind_eq_ok_iff.mp e
  obtain ⟨it0, hit0, e⟩ := Except.bind_eq_ok_iff.mp e
  obtain ⟨ins0, hins, e⟩ := Except.bind_eq_ok_iff.mp e
  obtain ⟨⟨it1, m3⟩, hem, e⟩ := Except.bind_eq_ok_iff.mp e
  obtain ⟨m4, hub, e⟩ := Except.bind_eq_ok_iff.mp e
  simp only [Except.pure_eq_ok, Except.ok.injEq, Prod.mk.injEq] at e
  obtain ⟨⟨rfl, rfl⟩, rfl⟩ := e
  obtain ⟨hb0, hh2⟩ := get_hash_eq_ok.mp hh
  subst hh2
  obtain ⟨p, done, mid, rest, hp, hx, hit, hp0, hp1, hmid, hkeys⟩ :=
    find_by_hash_split hs hk hit0
  subst hx
  subst hit
  have hfx : m.list.fake ∉ done ++ mid ++ rest := fun h =>
    (List.nodup_cons.mp hs.nodup).1 (List.mem_append_left _ h)
  cases ins0 with
  | false =>
    simp only [Bool.false_eq_true, if_false, Except.pure_eq_ok, Except.ok.injEq,
      Prod.mk.injEq] at hem
    obtain ⟨rfl, rfl⟩ := hem
    obtain ⟨hf, ev, hev, hhe⟩ := ins_flag_false hins
    have hitx : headOr rest m.list.fake ∈ done ++ mid ++ rest := by
      rcases List.mem_cons.mp (headOr_mem rest m.list.fake) with h1 | h1
      · exact absurd h1 hf
      · exact List.mem_append_right _ h1
    obtain ⟨q, hq, _, u2⟩ := update_bucket_eq hub
    have hqp : q = p := by
      rw [hp] at hq
      cases hq
      rfl
    subst hqp
    have hq0 : q ≠ 0 := by
      intro h0
      exact (hfw _ q (bucket_eq_ok.mp hp)).1 h0 _ hitx (slotOf_eq_some_iff.mpr ⟨ev, hev, hhe⟩)
    obtain ⟨k1, _, _⟩ := update_bucket_frame hub
    refine ⟨done ++ mid ++ rest, by rw [k1]; exact hs, by rw [k1]; exact hc, ?_, ?_,
      fun a _ => by rw [k1], fun _ => ⟨rfl, hitx⟩, fun h => absurd h (by decide)⟩
    · rw [k1, u2 hq0]
      exact hfw
    · rw [k1, u2 hq0]
      exact hcg
  | true =>
    simp only [if_true] at hem
    obtain ⟨⟨n, l2⟩, hemp, hem⟩ := Except.bind_eq_ok_iff.mp hem
    simp only [Except.pure_eq_ok, Except.ok.injEq, Prod.mk.injEq] at hem
    obtain ⟨rfl, rfl⟩ := hem
    have hrest : rest = [] ∨ ∃ b t, rest = b :: t ∧
        slotOf hash m.list m.buckets.length b ≠ some (hash kv.1 % m.buckets.length) := by
      cases rest with
      | nil => exact Or.inl rfl
      | cons b t =>
        refine Or.inr ⟨b, t, rfl, ?_⟩
        rcases ins_flag_true hins with hf | hf
        · exact absurd (hf ▸ List.mem_append_right _ (List.mem_cons_self _ _)) hfx
        · exact hf
    by_cases hbrk : m.list.brk < addr_space
    · obtain ⟨l3, e3, s3, c3, _, _, v3, o3⟩ := DList.list_emplace_spec kv hs hc hbrk
      rw [e3] at hemp
      cases hemp
      obtain ⟨q, hq, u1, u2⟩ := update_bucket_eq hub
      have hqp : q = p := by
        have h1 : m.bucket (hash kv.1 % m.buckets.length) = .ok q := hq
        rw [hp] at h1
        cases h1
        rfl
      subst hqp
      obtain ⟨k1, _, k3⟩ := update_bucket_frame hub
      have k3b : m4.buckets.length = m.buckets.length := k3
      have hold : ∀ a ∈ done ++ mid ++ rest, a ≠ m.list.brk := fun a ha e => by
        have := (hs.lt_brk a (List.mem_cons_of_mem _ (List.mem_append_left _ ha))).2
        omega
      have hz0 : m.list.brk ≠ 0 := by
        have := hs.room
        omega
      have hsl : ∀ a ∈ done ++ mid ++ rest, slotOf hash l2 m.buckets.length a =
          slotOf hash m.list m.buckets.length a := fun a ha => slotOf_congr (o3 a (hold a ha))
      have hnew : slotOf hash l2 m.buckets.length m.list.brk =
          some (hash kv.1 % m.buckets.length) := slotOf_eq_some v3
      have hnd : (done ++ mid ++ rest).Nodup := by
        have := (List.nodup_cons.mp hs.nodup).2
        rwa [List.append_nil] at this
      obtain ⟨r1, r2, r3⟩ := place_runs (slotOf hash l2 m.buckets.length)
        (FirstWriterBy.congr_slots hsl hfw) (ContiguousBy.congr_runs hsl hcg) hnd hz0 hnew
        (bucket_eq_ok.mp hp) hp0 hp1 (fun a ha => by
          rw [hsl a (List.mem_append_left _ (List.mem_append_right _ ha))]
          exact hmid a ha)
        (by
          rcases hrest with h1 | ⟨b, t, h1, h2⟩
          · exact Or.inl h1
          · refine Or.inr ⟨b, t, h1, ?_⟩
            rw [hsl b (List.mem_append_right _ (h1 ▸ List.mem_cons_self _ _))]
            exact h2)
      have hbk : m4.buckets = if q = 0 then
          m.buckets.set (hash kv.1 % m.buckets.length) m.list.brk else m.buckets := by
        by_cases hq0 : q = 0
        · rw [if_pos hq0]; exact u1 hq0
        · rw [if_neg hq0]; exact u2 hq0
      refine ⟨done ++ mid ++ m.list.brk :: rest, by rw [k1]; exact s3, by rw [k1]; exact c3,
        ?_, ?_, fun a ha => by rw [k1]; exact o3 a (hold a ha), fun h => absurd h (by decide),
        fun _ => ⟨⟨done ++ mid, rest, rfl, rfl⟩, fun c => hold _ c rfl, by rw [k1]; exact v3, ?_⟩⟩
      · rw [k1]
        show FirstWriterBy (slotOf hash l2 m4.buckets.length) _ m4.buckets
        rw [k3b, hbk]
        exact r2
      · rw [k1, k3b]
        exact r3
      · intro a ha kv2 hkv2 hke
        rcases List.mem_append.mp ha with h1 | h1
        · rcases List.mem_append.mp h1 with h2 | h2
          · refine r1 a (List.mem_append_left _ h2) ?_
            rw [hsl a ha, slotOf_eq_some hkv2, hke]
          · exact hkeys a h2 kv2 hkv2 hke
        · refine r1 a (List.mem_append_right _ h1) ?_
          rw [hsl a ha, slotOf_eq_some hkv2, hke]
    · simp [DList.emplace, DList.create_node, DList.make_node, DList.allocate, hbrk,
        Except.bind_error_eq] at hemp

end UnorderedMap

theorem DistinctKeys.congr_keys {l l2 : DList (K × V)} {xs : List Nat}
    (h : ∀ a ∈ xs, bufOf l2.mem a = bufOf l.mem a) (hd : DistinctKeys l xs) :
    DistinctKeys l2 xs := by
  intro a ha b hb ka kb h1 h2 hk
  rw [h a ha] at h1
  rw [h b hb] at h2
  exact hd a ha b hb ka kb h1 h2 hk

theorem DistinctKeys.insert_node {l l2 : DList (K × V)} {pre rest : List Nat} {it : Nat}
    {kv : K × V} (h : ∀ a ∈ pre ++ rest, bufOf l2.mem a = bufOf l.mem a)
    (hit : bufOf l2.mem it = some (some kv))
    (hnew : ∀ a ∈ pre ++ rest, ∀ kv2, bufOf l.mem a = some (some kv2) → kv2.1 ≠ kv.1)
    (hd : DistinctKeys l (pre ++ rest)) : DistinctKeys l2 (pre ++ it :: rest) := by
  have hmem : ∀ a ∈ pre ++ it :: rest, a = it ∨ a ∈ pre ++ rest := fun a ha => by
    rcases List.mem_append.mp ha with h1 | h1
    · exact Or.inr (List.mem_append_left _ h1)
    · rcases List.mem_cons.mp h1 with h2 | h2
      · exact Or.inl h2
      · exact Or.inr (List.mem_append_right _ h2)
  intro a ha b hb ka kb h1 h2 hk
  rcases hmem a ha with ea | ha2 <;> rcases hmem b hb with eb | hb2
  · rw [ea, eb]
  · exfalso
    rw [ea, hit] at h1
    cases h1
    rw [h b hb2] at h2
    exact hnew b hb2 kb h2 hk.symm
  · exfalso
    rw [eb, hit] at h2
    cases h2
    rw [h a ha2] at h1
    exact hnew a ha2 ka h1 hk
  · rw [h a ha2] at h1
    rw [h b hb2] at h2
    exact hd a ha2 b hb2 ka kb h1 h2 hk

namespace UnorderedMap

/-- The loop of `find_by_hash` returns from every position of a well-shaped list. -/
theorem scan_returns (hash : K → Nat) {m : UnorderedMap K V} {xs pend : List Nat}
    (hs : m.list.Shape xs pend) (hb : m.buckets.length ≠ 0) (key : K) (h : Nat) :
    ∀ (sfx done : List Nat) (fuel : Nat), xs = done ++ sfx → sfx.length < fuel →
    ∃ r, scan hash m key h fuel (headOr sfx m.list.fake) = .ok r
  | _, _, 0, _, hl => absurd hl (Nat.not_lt_zero _)
  | [], done, fuel + 1, _, _ => ⟨m.list.fake, by
      simp only [scan, headOr, cend, DList.cend, if_true, Except.pure_eq_ok]⟩
  | y :: t, done, fuel + 1, hx, hl => by
    subst hx
    have hyf : y ≠ m.list.fake := fun e =>
      (List.nodup_cons.mp hs.nodup).1
        (List.mem_append_left _ (List.mem_append_right _ (e ▸ List.mem_cons_self _ _)))
    have hs2 : m.list.Shape ((done ++ [y]) ++ t) pend := by simpa using hs
    have hnx : nxt m.list.mem y = some (headOr t m.list.fake) := by
      have := hs2.pos_facts.2.1
      rwa [lastOr_append_singleton] at this
    obtain ⟨kv, hkv⟩ := hs.bufs y
      (List.mem_append_left _ (List.mem_append_right _ (List.mem_cons_self _ _)))
    obtain ⟨r, hr⟩ := scan_returns hash hs hb key h t (done ++ [y]) fuel (by simp)
      (by simp only [List.length_cons] at hl; omega)
    change ∃ r, scan hash m key h (fuel + 1) y = .ok r
    simp only [scan, cend, DList.cend, if_neg hyf, DList.value_eq_ok.mpr hkv,
      Except.bind_ok_eq, get_hash_eq_ok.mpr ⟨hb, rfl⟩, DList.getNext_eq_ok.mpr hnx, hr]
    by_cases h1 : hash kv.1 % m.buckets.length ≠ h
    · exact ⟨y, by rw [if_pos h1]; rfl⟩
    · rw [if_neg h1]
      by_cases h2 : kv.1 = key
      · exact ⟨y, by rw [if_pos h2]; rfl⟩
      · exact ⟨r, by rw [if_neg h2]⟩

/-- With memory for one node, an `insert` that runs no growth returns. -/
theorem insert_returns (hash : K → Nat) {m : UnorderedMap K V} {xs : List Nat}
    (hs : m.list.Shape xs []) (hc : m.list.count = xs.length)
    (hk : CacheOK hash m.list xs m.buckets)
    (hlt : F32.lt m.load_factor m.max_factor = true) (hb : m.buckets.length ≠ 0)
    (hbrk : m.list.brk < addr_space) (kv : K × V) : ∃ r, m.insert hash kv = .ok r := by
  have hlen : hash kv.1 % m.buckets.length < m.buckets.length :=
    Nat.mod_lt _ (Nat.pos_of_ne_zero hb)
  obtain ⟨p, hp⟩ : ∃ p, m.buckets[hash kv.1 % m.buckets.length]? = some p :=
    ⟨_, List.getElem?_eq_getElem hlen⟩
  have hbk := bucket_eq_ok.mpr hp
  obtain ⟨it, hit⟩ : ∃ it, m.find_by_hash hash kv.1 (hash kv.1 % m.buckets.length) = .ok it := by
    unfold find_by_hash
    rw [hbk]
    simp only [Except.bind_ok_eq]
    by_cases h0 : p = 0
    · rw [if_pos h0]
      have hs0 : m.list.Shape ([] ++ xs) [] := by simpa using hs
      have h1 := hs0.pos_facts.2.1
      simp only [lastOr] at h1
      exact ⟨_, DList.getNext_eq_ok.mpr h1⟩
    · rw [if_neg h0]
      have hpx := (hk _ p hp h0).1
      obtain ⟨done, t, rfl⟩ := List.append_of_mem hpx
      have hroom := hs.room
      have := scan_returns hash hs hb kv.1 (hash kv.1 % m.buckets.length) (p :: t) done
        m.list.brk rfl (by simp only [List.length_append, List.length_cons] at hroom ⊢; omega)
      exact this
  obtain ⟨p2, done, mid, rest, _, hx, hit2, _, _, _, _⟩ := find_by_hash_split hs hk hit
  obtain ⟨ins, hins⟩ : ∃ ins, m.ins_flag hash it (hash kv.1 % m.buckets.length) = .ok ins := by
    unfold ins_flag
    by_cases hf : it = m.list.cend
    · exact ⟨true, by rw [if_pos hf]; rfl⟩
    · rw [if_neg hf]
      have hix : it ∈ xs := by
        rcases List.mem_cons.mp (hit2 ▸ headOr_mem rest m.list.fake) with h1 | h1
        · exact absurd h1 hf
        · rw [hx]; exact List.mem_append_right _ h1
      obtain ⟨ev, hev⟩ := hs.bufs it (List.mem_append_left _ hix)
      refine ⟨decide (hash ev.1 % m.buckets.length ≠ hash kv.1 % m.buckets.length), ?_⟩
      simp only [DList.value_eq_ok.mpr hev, Except.bind_ok_eq,
        get_hash_eq_ok.mpr ⟨hb, rfl⟩, Except.pure_eq_ok]
  have hub : ∀ (l : DList (K × V)) (z : Nat), ∃ m4,
      ({ m with list := l } : UnorderedMap K V).update_bucket z
        (hash kv.1 % m.buckets.length) = .ok m4 := fun l z => by
    unfold update_bucket
    have : ({ m with list := l } : UnorderedMap K V).bucket (hash kv.1 % m.buckets.length) =
        .ok p := bucket_eq_ok.mpr hp
    rw [this]
    simp only [Except.bind_ok_eq]
    by_cases h0 : p = 0
    · exact ⟨_, by rw [if_pos h0]; rfl⟩
    · exact ⟨_, by rw [if_neg h0]; rfl⟩
  unfold UnorderedMap.insert
  rw [rehash_of_lt hlt]
  simp only [Except.bind_ok_eq, get_hash_eq_ok.mpr ⟨hb, rfl⟩, hit, hins]
  cases ins with
  | false =>
    obtain ⟨m4, h4⟩ := hub m.list it
    simp only [Bool.false_eq_true, if_false, Except.pure_eq_ok, Except.bind_ok_eq]
    exact ⟨_, by rw [h4]; rfl⟩
  | true =>
    subst hx
    subst hit2
    obtain ⟨l3, e3, _⟩ := DList.list_emplace_spec kv hs hc hbrk
    obtain ⟨m4, h4⟩ := hub l3 m.list.brk
    simp only [if_true, e3, Except.bind_ok_eq, Except.pure_eq_ok]
    exact ⟨_, by rw [h4]; rfl⟩

/-- What an `insert` that runs no growth leaves, in terms of its result. -/
theorem insert_runs_result (hash : K → Nat) {m : UnorderedMap K V} {xs : List Nat}
    {kv : K × V} {r : (Nat × Bool) × UnorderedMap K V} (hs : m.list.Shape xs [])
    (hc : m.list.count = xs.length) (hfw : FirstWriter hash m.list xs m.buckets)
    (hcg : Contiguous hash m.list m.buckets.length xs)
    (hlt : F32.lt m.load_factor m.max_factor = true) (e : m.insert hash kv = .ok r) :
    ∃ ys, r.2.list.Shape ys [] ∧ r.2.list.count = ys.length ∧
      FirstWriter hash r.2.list ys r.2.buckets ∧
      Contiguous hash r.2.list r.2.buckets.length ys ∧
      (r.1.2 = true → ∀ a ∈ xs, ∀ kv2, bufOf m.list.mem a = some (some kv2) → kv2.1 ≠ kv.1) ∧
      (r.1.2 = false → ys = xs) ∧
      (DistinctKeys m.list xs → DistinctKeys r.2.list ys) := by
  obtain ⟨⟨it, ins⟩, m2⟩ := r
  obtain ⟨ys, s, c, fw, cg, hbuf, hfalse, htrue⟩ := insert_keeps_runs hash hs hc hfw hcg hlt e
  refine ⟨ys, s, c, fw, cg, fun h => (htrue h).2.2.2, fun h => (hfalse h).1, fun hd => ?_⟩
  cases ins with
  | false =>
    rw [(hfalse rfl).1]
    exact DistinctKeys.congr_keys hbuf hd
  | true =>
    obtain ⟨⟨pre, rest, hx, hy⟩, _, hv, hnew⟩ := htrue rfl
    subst hx
    rw [hy]
    exact DistinctKeys.insert_node hbuf hv hnew hd

/-- An `emplace` that returns had memory for its node. -/
theorem emplace_ok_brk (hash : K → Nat) {m : UnorderedMap K V} {k : K} {v : V}
    {r : (Nat × Bool) × UnorderedMap K V} (hlt : F32.lt m.load_factor m.max_factor = true)
    (e : m.emplace hash k v = .ok r) : m.list.brk < addr_space := by
  by_contra hbrk
  simp [emplace, rehash_of_lt hlt, DList.create_node, DList.make_node, DList.allocate, hbrk,
    Except.bind_error_eq, Except.bind_ok_eq] at e

/-- What an `emplace` that runs no growth leaves, in terms of its result. -/
theorem emplace_runs_result (hash : K → Nat) {m : UnorderedMap K V} {xs : List Nat}
    {k : K} {v : V} {r : (Nat × Bool) × UnorderedMap K V} (hs : m.list.Shape xs [])
    (hc : m.list.count = xs.length) (hfw : FirstWriter hash m.list xs m.buckets)
    (hcg : Contiguous hash m.list m.buckets.length xs)
    (hlt : F32.lt m.load_factor m.max_factor = true) (e : m.emplace hash k v = .ok r) :
    ∃ ys, r.2.list.Shape ys [] ∧ r.2.list.count = ys.length ∧
      FirstWriter hash r.2.list ys r.2.buckets ∧
      Contiguous hash r.2.list r.2.buckets.length ys ∧
      (r.1.2 = true → ∀ a ∈ xs, ∀ kv2, bufOf m.list.mem a = some (some kv2) → kv2.1 ≠ k) ∧
      (r.1.2 = false → ys = xs) ∧
      (DistinctKeys m.list xs → DistinctKeys r.2.list ys) := by
  have hbrk := emplace_ok_brk hash hlt e
  rcases emplace_insert_agree hash ⟨hs, hc, hfw.cacheOK⟩ hbrk k v with
    ⟨e0, _, h2⟩ | ⟨it, ins, mi, me, ys2, h1, h2, hbq, _, si, se, hcn, _, hv⟩
  · rw [h2] at e
    cases e
  · rw [h2] at e
    cases e
    obtain ⟨ys, s, c, fw, cg, hnew, hsame, hd⟩ := insert_runs_result hash hs hc hfw hcg hlt h1
    have hy : ys2 = ys := by
      have h3 := si.nodes_eq
      rw [s.nodes_eq] at h3
      cases h3
      rfl
    subst hy
    have hsl : ∀ a ∈ ys2, slotOf hash me.list mi.buckets.length a =
        slotOf hash mi.list mi.buckets.length a := fun a ha => slotOf_congr (hv a ha)
    refine ⟨ys2, se, by rw [hcn]; exact c, ?_, ?_, hnew, hsame,
      fun h => DistinctKeys.congr_keys hv (hd h)⟩
    · show FirstWriter hash me.list ys2 me.buckets
      rw [hbq]
      exact FirstWriterBy.congr_slots hsl fw
    · show Contiguous hash me.list me.buckets.length ys2
      rw [hbq]
      exact ContiguousBy.congr_runs hsl cg

/-- With memory for one node, an `emplace` that runs no growth returns. -/
theorem emplace_returns (hash : K → Nat) {m : UnorderedMap K V} {xs : List Nat}
    (hs : m.list.Shape xs []) (hc : m.list.count = xs.length)
    (hk : CacheOK hash m.list xs m.buckets)
    (hlt : F32.lt m.load_factor m.max_factor = true) (hb : m.buckets.length ≠ 0)
    (hbrk : m.list.brk < addr_space) (k : K) (v : V) : ∃ r, m.emplace hash k v = .ok r := by
  obtain ⟨r, hr⟩ := insert_returns hash hs hc hk hlt hb hbrk (k, v)
  rcases emplace_insert_agree hash ⟨hs, hc, hk⟩ hbrk k v with
    ⟨e0, h1, _⟩ | ⟨it, ins, mi, me, ys2, _, h2, _⟩
  · rw [h1] at hr
    cases hr
  · exact ⟨_, h2⟩

end UnorderedMap

/-! ## Move assignment and `find` return -/

namespace DList

end DList

namespace UnorderedMap

end UnorderedMap

/-! # The claims -/

section Claims
open UnorderedMap

theorem Except.eq_ok_of_fst {α β : Type} {x : Except Err (α × β)} {a : α} (d : α × β)
    (h : x.toBool = true) (h1 : (x.resultD d).1 = a) : x = .ok (a, (x.resultD d).2) := by
  cases x with
  | ok r => cases r; simp only [Except.resultD] at h1; rw [← h1]; rfl
  | error e => cases h

/-- C1, evaluated on a run that contradicts it (identity hash, 2 buckets): insert keys 0 and 2,
erase the node that `find(2)` returns, then `find(2)` returns a position other than `end()`
whose node holds key 0. -/
theorem find_returns_node_of_other_key :
    (do let m ← run (K := Nat) (V := Nat) id [.insert (0, 10), .insert (2, 20)]
        let it ← m.find id 2
        let m ← m.erase id it
        let it2 ← m.find id 2
        let kv ← m.list.value it2
        pure (decide (it2 ≠ m.cend), kv.1) : Except Err (Bool × Nat)) = .ok (true, 0) := by
  decide

/-- C2, evaluated on a run of inserts only that contradicts it (identity hash): the inserts of
the keys 0, 6, 1, 18, 2 into the default-constructed map all report `inserted = true`; the map
has 18 buckets afterwards, and `find(18)` returns `end()`. -/
theorem find_misses_inserted_key_after_growth :
    (do let a ← (UnorderedMap.new : UnorderedMap Nat Nat).insert id (0, 10)
        let b ← a.2.insert id (6, 20)
        let c ← b.2.insert id (1, 30)
        let d ← c.2.insert id (18, 40)
        let e ← d.2.insert id (2, 50)
        let it ← e.2.find id 18
        pure ([a.1.2, b.1.2, c.1.2, d.1.2, e.1.2], e.2.buckets.length, decide (it = e.2.cend)) :
      Except Err (List Bool × Nat × Bool)) = .ok ([true, true, true, true, true], 18, true) := by
  decide

/-- C3, evaluated on a run that contradicts it (identity hash, 2 buckets): insert keys 0 and 2
and erase the node of key 2; the list then holds key 0 only; `insert((2, 30))` followed by
`find(2)` gives `end()`. -/
theorem find_misses_key_just_inserted :
    (do let m ← run (K := Nat) (V := Nat) id [.insert (0, 10), .insert (2, 20)]
        let it ← m.find id 2
        let m ← m.erase id it
        let ks ← m.keys
        let r ← m.insert id (2, 30)
        let it2 ← r.2.find id 2
        pure (ks, decide (it2 = r.2.cend)) : Except Err (List Nat × Bool)) = .ok ([0], true) := by
  decide

/-- C4, evaluated on a run of inserts only that contradicts it (identity hash): in the map with
keys 0, 6, 1 (6 buckets) the key 18 is not stored; `insert((18, 40))` reports `inserted = true`
and `size() == 4`; the next `insert((18, 50))` grows the map to 18 buckets, reports
`inserted = true` again, `size()` becomes 5 and the value found for 18 is 50. -/
theorem second_insert_of_same_key_inserts_again :
    (do let m ← run (K := Nat) (V := Nat) id [.insert (0, 10), .insert (6, 20), .insert (1, 30)]
        let ks ← m.keys
        let r ← m.insert id (18, 40)
        let s ← r.2.insert id (18, 50)
        let it ← s.2.find id 18
        let kv ← s.2.list.value it
        pure (ks, (r.1.2, r.2.size), (s.1.2, s.2.size), kv) :
      Except Err (List Nat × (Bool × Nat) × (Bool × Nat) × (Nat × Nat))) =
      .ok ([1, 0, 6], (true, 4), (true, 5), (18, 50)) := by
  decide

/-- C5, evaluated on a run that contradicts it (identity hash, 2 buckets): with keys 0 and 2
stored, after erasing the node that `find(2)` returns, `find(2)` does not return `end()`. -/
theorem find_after_erase_is_not_end :
    (do let m ← run (K := Nat) (V := Nat) id [.insert (0, 10), .insert (2, 20)]
        let it ← m.find id 2
        let kv ← m.list.value it
        let m ← m.erase id it
        let it2 ← m.find id 2
        pure (kv, decide (it2 = m.cend)) : Except Err ((Nat × Nat) × Bool)) =
      .ok ((2, 20), false) := by
  decide

/-- C6, evaluated on a run that contradicts it (identity hash): with keys 0, 6, 1 stored
(6 buckets) `find(0)` returns the node with value 10; after erasing the node of key 6,
`find(0)` returns `end()`. -/
theorem erase_makes_other_key_unfindable :
    (do let m ← run (K := Nat) (V := Nat) id [.insert (0, 10), .insert (6, 20), .insert (1, 30)]
        let it0 ← m.find id 0
        let kv0 ← m.list.value it0
        let it6 ← m.find id 6
        let m2 ← m.erase id it6
        let ks ← m2.keys
        let it ← m2.find id 0
        pure (kv0, ks, decide (it = m2.cend)) : Except Err ((Nat × Nat) × List Nat × Bool)) =
      .ok ((0, 10), [1, 0], true) := by
  decide

/-- C7, evaluated on a run of inserts only that contradicts it (identity hash): after inserting
the keys 0, 6, 1, 18, 18 the list holds the keys 1, 0, 18, 6, 18 and `size()` is 5, one more than
the number of distinct keys. -/
theorem insert_stores_duplicate_key :
    (do let m ← run (K := Nat) (V := Nat) id
          [.insert (0, 10), .insert (6, 20), .insert (1, 30), .insert (18, 40), .insert (18, 50)]
        let ks ← m.keys
        pure (ks, m.size, ks.dedup.length) : Except Err (List Nat × Nat × Nat)) =
      .ok ([1, 0, 18, 6, 18], 5, 4) := by
  decide

/-- C8: invariant I4. In every `List` state reached from a freshly constructed list by
`push_back`, `push_front`, `pop_back` / `pop_front` on a non-empty list, `insert`, `erase`,
`emplace`, `emplace_node`, `create_node` and `remove_node`, and in the list of every map reached
from the default-constructed map by `insert`, `emplace` and `erase` (growth included, also when
`rehash` runs on its own), the loop from `begin()` to `end()` terminates and `size()` is the
number of nodes it visits. -/
theorem size_eq_number_of_linked_nodes :
    (∀ (T : Type) (l : DList T) (pend : List Nat), ListReach l pend →
      ∃ xs, l.nodes = .ok xs ∧ l.size = xs.length) ∧
    (∀ (K V : Type) [DecidableEq K] (hash : K → Nat) (ops : List (MapOp K V))
      (m : UnorderedMap K V), run hash ops = .ok m →
      (∃ xs, m.list.nodes = .ok xs ∧ m.size = xs.length) ∧
      ∀ m2, m.rehash hash = .ok m2 → ∃ xs, m2.list.nodes = .ok xs ∧ m2.size = xs.length) := by
  refine ⟨fun T l pend h => ?_, fun K V _ hash ops m hr => ?_⟩
  · obtain ⟨xs, hs, hc⟩ := DList.ListReach.shape h
    exact ⟨xs, hs.nodes_eq, hc⟩
  · obtain ⟨xs, hi⟩ := run_inv hr
    refine ⟨⟨xs, hi.shape.nodes_eq, hi.count⟩, fun m2 h2 => ?_⟩
    obtain ⟨i2, _⟩ := rehash_spec hi h2
    exact ⟨xs, i2.shape.nodes_eq, i2.count⟩

/-- C8 on the list after `push_back(7)`, `push_front(8)`, `pop_back()`, and on the map after
inserting keys 1, 2, 3 and erasing the node at address 3 (the node of key 2). -/
theorem size_eq_number_of_linked_nodes_witness :
    (∃ xs, DList.nodes (Except.resultD (DList.pop_back (Except.resultD (DList.push_front
        (Except.resultD (DList.push_back (DList.new : DList Nat) 7) DList.new) 8) DList.new))
        DList.new) = .ok xs ∧ xs.length = 1) ∧
    (∃ xs, (after (K := Nat) (V := Nat) id
        [.insert (1, 10), .insert (2, 20), .insert (3, 30), .erase 3]).list.nodes = .ok xs ∧
      (after (K := Nat) (V := Nat) id
        [.insert (1, 10), .insert (2, 20), .insert (3, 30), .erase 3]).size = xs.length) := by
  refine ⟨?_, (size_eq_number_of_linked_nodes.2 Nat Nat id
    [.insert (1, 10), .insert (2, 20), .insert (3, 30), .erase 3] _
    (run_eq_after (by decide))).1⟩
  have h1 : ListReach (Except.resultD (DList.push_back (DList.new : DList Nat) 7) DList.new) [] :=
    ListReach.push_back 7 ListReach.ctor (Except.eq_ok_resultD _ (by decide))
  have h2 := ListReach.push_front 8 h1 (Except.eq_ok_resultD DList.new (by decide))
  have hn : DList.nodes (Except.resultD (DList.push_front
      (Except.resultD (DList.push_back (DList.new : DList Nat) 7) DList.new) 8) DList.new) =
      .ok [3, 2] := by decide
  have h3 := ListReach.pop_back h2 hn (by decide) (Except.eq_ok_resultD DList.new (by decide))
  obtain ⟨xs, hx, hl⟩ := size_eq_number_of_linked_nodes.1 Nat _ _ h3
  exact ⟨xs, hx, by rw [← hl]; decide⟩

/-- C9: whenever `insert` or `emplace` on a map reached from the default-constructed map returns
`inserted = false`, the node sequence and the sequence of (key, value) pairs of the list are what
they were before the call, `size()` is unchanged, and the returned iterator refers to a node that
was in the list before the call. -/
theorem not_inserted_leaves_list_unchanged {K V : Type} [DecidableEq K] (hash : K → Nat)
    (ops : List (MapOp K V)) (m : UnorderedMap K V) (hr : run hash ops = .ok m) :
    (∀ kv it m2, m.insert hash kv = .ok ((it, false), m2) →
      ∃ xs vs, m.list.nodes = .ok xs ∧ m.list.toList = .ok vs ∧ m2.list.nodes = .ok xs ∧
        m2.list.toList = .ok vs ∧ m2.size = m.size ∧ it ∈ xs) ∧
    (∀ k v it m2, m.emplace hash k v = .ok ((it, false), m2) →
      ∃ xs vs, m.list.nodes = .ok xs ∧ m.list.toList = .ok vs ∧ m2.list.nodes = .ok xs ∧
        m2.list.toList = .ok vs ∧ m2.size = m.size ∧ it ∈ xs) := by
  obtain ⟨xs, hi⟩ := run_inv hr
  obtain ⟨vs, hvs, hvals⟩ := hi.shape.toList_ok
  constructor
  · intro kv it m2 e
    obtain ⟨i2, hit, hl⟩ := (insert_spec hi e).1 rfl
    exact ⟨xs, vs, hi.shape.nodes_eq, hvs, by rw [hl]; exact hi.shape.nodes_eq,
      by rw [hl]; exact hvs, by unfold UnorderedMap.size; rw [hl], hit⟩
  · intro k v it m2 e
    obtain ⟨i2, hit, _, hb⟩ := (emplace_spec hi e).1 rfl
    refine ⟨xs, vs, hi.shape.nodes_eq, hvs, i2.shape.nodes_eq, ?_, ?_, hit⟩
    · simp only [DList.toList, i2.shape.nodes_eq, Except.bind_ok_eq]
      rw [DList.values_congr xs (fun a _ => hb a)]
      exact hvals
    · unfold UnorderedMap.size DList.size
      rw [i2.count, hi.count]

/-- C9 on the map holding key 1 with value 10: `insert((1, 20))` returns the node of key 1
(address 2) and `inserted = false`. -/
theorem not_inserted_leaves_list_unchanged_witness :
    run (K := Nat) (V := Nat) id [.insert (1, 10)] = .ok (after id [.insert (1, 10)]) ∧
    (after (K := Nat) (V := Nat) id [.insert (1, 10)]).insert id (1, 20) =
      .ok ((2, false), (((after id [.insert (1, 10)]).insert id (1, 20)).resultD
        ((0, false), UnorderedMap.new)).2) ∧
    ∃ xs vs, (after (K := Nat) (V := Nat) id [.insert (1, 10)]).list.nodes = .ok xs ∧
      (after (K := Nat) (V := Nat) id [.insert (1, 10)]).list.toList = .ok vs ∧
      (((after (K := Nat) (V := Nat) id [.insert (1, 10)]).insert id (1, 20)).resultD
        ((0, false), UnorderedMap.new)).2.list.nodes = .ok xs ∧
      (((after (K := Nat) (V := Nat) id [.insert (1, 10)]).insert id (1, 20)).resultD
        ((0, false), UnorderedMap.new)).2.list.toList = .ok vs ∧
      (((after (K := Nat) (V := Nat) id [.insert (1, 10)]).insert id (1, 20)).resultD
        ((0, false), UnorderedMap.new)).2.size =
        (after (K := Nat) (V := Nat) id [.insert (1, 10)]).size ∧ 2 ∈ xs :=
  ⟨run_eq_after (by decide),
    Except.eq_ok_of_fst ((0, false), UnorderedMap.new) (by decide) (by decide),
    (not_inserted_leaves_list_unchanged id [.insert (1, 10)] (after id [.insert (1, 10)])
      (run_eq_after (by decide))).1 (1, 20) 2 _
      (Except.eq_ok_of_fst ((0, false), UnorderedMap.new) (by decide) (by decide))⟩

/-- C10, evaluated on a run that contradicts it (identity hash, 2 buckets): insert keys 0 and 2
and erase the node of key 2; the list then holds key 0 only, and `insert((2, 30))` returns
`inserted = false` with the node of key 0, and `size()` stays 1. -/
theorem insert_rejects_key_that_is_not_stored :
    (do let m ← run (K := Nat) (V := Nat) id [.insert (0, 10), .insert (2, 20)]
        let it ← m.find id 2
        let m ← m.erase id it
        let ks ← m.keys
        let r ← m.insert id (2, 30)
        let kv ← r.2.list.value r.1.1
        let ks2 ← r.2.keys
        pure (ks, r.1.2, kv, ks2, r.2.size) :
      Except Err (List Nat × Bool × (Nat × Nat) × List Nat × Nat)) =
      .ok ([0], false, (0, 10), [0], 1) := by
  decide

/-- C11, evaluated on two runs that contradict it (identity hash). With keys 0 and 2 inserted
and the node of key 2 erased, the list holds key 0 only and `at(2)` returns 10, the value of
key 0, instead of failing. With keys 0, 6, 1 inserted and the node of key 6 erased, the list
holds keys 1 and 0 and `at(0)` fails with `out_of_range`. -/
theorem at_returns_other_value_and_misses_stored_key :
    (do let m ← run (K := Nat) (V := Nat) id [.insert (0, 10), .insert (2, 20)]
        let it ← m.find id 2
        let m ← m.erase id it
        let ks ← m.keys
        let v ← m.at_ id 2
        pure (ks, v) : Except Err (List Nat × Nat)) = .ok ([0], 10) ∧
    (do let m ← run (K := Nat) (V := Nat) id [.insert (0, 10), .insert (6, 20), .insert (1, 30)]
        let it ← m.find id 6
        let m ← m.erase id it
        let ks ← m.keys
        pure (ks, m.at_ id 0) : Except Err (List Nat × Except Err Nat)) =
      .ok ([1, 0], .error .out_of_range) := by
  decide

/-- C12, evaluated on a run that contradicts it (identity hash, 2 buckets): with keys 0 and 2
inserted and the node of key 2 erased, the list holds key 0 only; `operator[](2)` returns the
value 10 of the node of key 0, and afterwards the list still holds key 0 only with `size() == 1`. -/
theorem subscript_returns_value_of_other_key :
    (do let m ← run (K := Nat) (V := Nat) id [.insert (0, 10), .insert (2, 20)]
        let it ← m.find id 2
        let m ← m.erase id it
        let ks ← m.keys
        let r ← m.subscript id 2 0
        let kv ← r.2.list.value r.1.1
        let ks2 ← r.2.keys
        pure (ks, r.1.2, kv, ks2, r.2.size) :
      Except Err (List Nat × Nat × (Nat × Nat) × List Nat × Nat)) =
      .ok ([0], 10, (0, 10), [0], 1) := by
  decide

/-- C13, evaluated on a run that contradicts it (identity hash): `max_load_factor(100.0f)`, the
keys 0 to 11 inserted (2 buckets, 12 elements), `max_load_factor(4.0f)`, then `reserve(3)`: the
bucket count goes from 2 to 1, while `size()` and the element sequence stay as they were. -/
theorem reserve_decreases_bucket_count :
    (do let m ← steps (K := Nat) (V := Nat) id
          ((UnorderedMap.new : UnorderedMap Nat Nat).set_max_load_factor (F32.ofNat 100))
          ((List.range 12).map (fun i => MapOp.insert (i, i)))
        let m := m.set_max_load_factor (F32.ofNat 4)
        let r ← m.reserve id 3
        let a ← m.list.toList
        let b ← r.list.toList
        pure (m.buckets.length, r.buckets.length, m.size, r.size, decide (a = b)) :
      Except Err (Nat × Nat × Nat × Nat × Bool)) = .ok (2, 1, 12, 12, true) := by
  decide

/-- C14, evaluated on a run that contradicts it (identity hash): with keys 3 and 5 inserted
(2 buckets) `find(5)` returns the node with value 50; after `reserve(4)` the cache is
`[null, node of key 3, null, null]`, so slot 1 references a node whose hash modulo 4 is 3, and
`find(5)` returns `end()`. -/
theorem reserve_leaves_stale_cache :
    (do let m ← run (K := Nat) (V := Nat) id [.insert (3, 30), .insert (5, 50)]
        let it ← m.find id 5
        let v ← m.list.value it
        let r ← m.reserve id 4
        let p ← r.bucket 1
        let kv ← r.list.value p
        let it2 ← r.find id 5
        pure (v, r.buckets, kv, decide (it2 = r.cend)) :
      Except Err ((Nat × Nat) × List Nat × (Nat × Nat) × Bool)) =
      .ok ((5, 50), [0, 2, 0, 0], (3, 30), true) := by
  decide

/-- C16, evaluated on runs that contradict it (identity hash). After `max_load_factor(4.0f)` and
the inserts of the keys 0 to 7 the map has 2 buckets; the insert of key 8 runs the growth step,
which leaves 1 bucket. After `max_load_factor(5.0f)` and the inserts of the keys 0 to 9 the
growth step of the next insert asks for 0 buckets and does not return (it divides by the bucket
count 0). -/
theorem growth_decreases_bucket_count :
    (do let m ← steps (K := Nat) (V := Nat) id
          ((UnorderedMap.new : UnorderedMap Nat Nat).set_max_load_factor (F32.ofNat 4))
          ((List.range 8).map (fun i => MapOp.insert (i, i)))
        let r ← m.insert id (8, 8)
        pure (m.buckets.length, r.2.buckets.length, r.2.size) :
      Except Err (Nat × Nat × Nat)) = .ok (2, 1, 9) ∧
    (do let m ← steps (K := Nat) (V := Nat) id
          ((UnorderedMap.new : UnorderedMap Nat Nat).set_max_load_factor (F32.ofNat 5))
          ((List.range 10).map (fun i => MapOp.insert (i, i)))
        pure (m.buckets.length, (m.insert id (10, 10)).map (fun r => r.1)) :
      Except Err (Nat × Except Err (Nat × Bool))) = .ok (2, .error .ub) := by
  decide

/-- C17, evaluated on a map that contradicts it (identity hash): the map after the inserts of
the keys 0, 6, 1, 18, 18 has `size() == 5` (key 18 is stored twice); its copy has `size() == 4`
and holds the pairs (6, 20), (0, 10), (18, 50), (1, 30). -/
theorem copy_has_other_size :
    (do let m ← run (K := Nat) (V := Nat) id
          [.insert (0, 10), .insert (6, 20), .insert (1, 30), .insert (18, 40), .insert (18, 50)]
        let c ← m.copy_ctor id
        let a ← m.list.toList
        let b ← c.list.toList
        pure (m.size, c.size, a, b) :
      Except Err (Nat × Nat × List (Nat × Nat) × List (Nat × Nat))) =
      .ok (5, 4, [(1, 30), (0, 10), (18, 50), (6, 20), (18, 40)],
        [(6, 20), (0, 10), (18, 50), (1, 30)]) := by
  decide

/-- C18: for every map `M`, the map move-constructed from `M` has the node sequence, the element
sequence, the bucket cache, the bucket count and the maximum load factor of `M` before the move,
`find` and `at` give on it what they gave on `M`, every node holds the value it held, and the
moved-from `M` has `size() == 0`. -/
theorem move_ctor_transfers_contents {K V : Type} [DecidableEq K] (hash : K → Nat)
    (m : UnorderedMap K V) :
    (move_ctor m).1.list.nodes = m.list.nodes ∧
    (move_ctor m).1.list.toList = m.list.toList ∧
    (move_ctor m).1.buckets = m.buckets ∧
    (move_ctor m).1.buckets.length = m.buckets.length ∧
    (move_ctor m).1.max_load_factor = m.max_load_factor ∧
    (∀ k, (move_ctor m).1.find hash k = m.find hash k ∧
      (move_ctor m).1.at_ hash k = m.at_ hash k) ∧
    (move_ctor m).1.cend = m.cend ∧
    (∀ it, (move_ctor m).1.list.value it = m.list.value it) ∧
    (move_ctor m).2.size = 0 :=
  ⟨rfl, rfl, rfl, rfl, rfl, fun _ => ⟨rfl, rfl⟩, rfl, fun _ => rfl, rfl⟩

/-- C19: the concrete scenario with the identity hash. Starting from the default-constructed
map (2 buckets), after `insert((1, "a"))`, `insert((2, "b"))`, `insert((3, "c"))`, `find(2)`
returns the node with value "b"; after erasing the node of key 1, `find(1)` returns `end()` and
`size() == 2`. -/
theorem concrete_scenario :
    (UnorderedMap.new : UnorderedMap Nat String).buckets.length = 2 ∧
    (do let a ← (UnorderedMap.new : UnorderedMap Nat String).insert id (1, "a")
        let b ← a.2.insert id (2, "b")
        let c ← b.2.insert id (3, "c")
        let it ← c.2.find id 2
        let kv ← c.2.list.value it
        let it1 ← c.2.find id 1
        let kv1 ← c.2.list.value it1
        let m ← c.2.erase id it1
        let it2 ← m.find id 1
        pure ((decide (it ≠ c.2.cend), kv), kv1, (decide (it2 = m.cend), m.size)) :
      Except Err ((Bool × (Nat × String)) × (Nat × String) × (Bool × Nat))) =
      .ok ((true, (2, "b")), (1, "a"), (true, 2)) := by
  decide

/-- C20: `emplace_node` links before a position. For every well-shaped list with linked nodes
`xs`, every position `pos` (a linked node or `end()`) and every node `n` made by `create_node`
and not linked yet, `emplace_node(pos, n)` returns the position `n`; the node sequence becomes
`pre ++ n :: rest`, where `xs = pre ++ rest` and `rest` starts at `pos` (`rest` is empty for
`end()`); the element sequence is the old one with the value of `n` inserted at that place;
`size()` grows by one and `end()` stays the same node. -/
theorem emplace_node_links_before_pos {T : Type} (l : DList T) (xs pend : List Nat)
    (pos n : Nat) (hs : l.Shape xs pend) (hc : l.size = xs.length) (hpos : pos ∈ l.cend :: xs)
    (hn : n ∈ pend) :
    ∃ l2 pre rest vs v ws, l.nodes = .ok xs ∧ xs = pre ++ rest ∧
      (rest = [] ∧ pos = l.cend ∨ ∃ t, rest = pos :: t) ∧
      l.values pre = .ok vs ∧ l.value n = .ok v ∧ l.values rest = .ok ws ∧
      l.toList = .ok (vs ++ ws) ∧
      l.emplace_node pos n = .ok (n, l2) ∧
      l2.nodes = .ok (pre ++ n :: rest) ∧ l2.toList = .ok (vs ++ v :: ws) ∧
      l2.size = l.size + 1 ∧ l2.cend = l.cend ∧ l2.Shape (pre ++ n :: rest) (pend.erase n) := by
  have hfx : l.fake ∉ xs := fun h =>
    (List.nodup_cons.mp hs.nodup).1 (List.mem_append_left _ h)
  obtain ⟨pre, rest, rfl, rfl⟩ := DList.pos_split hpos hfx
  obtain ⟨l2, e2, s2, c2, f2, _, o2⟩ := DList.emplace_node_spec hs hc hn
  obtain ⟨vs, hvs⟩ := DList.values_ok (l := l) pre
    (fun a ha => hs.bufs a (List.mem_append_left _ (List.mem_append_left _ ha)))
  obtain ⟨ws, hws⟩ := DList.values_ok (l := l) rest
    (fun a ha => hs.bufs a (List.mem_append_left _ (List.mem_append_right _ ha)))
  obtain ⟨v, hv⟩ := hs.bufs n (List.mem_append_right _ hn)
  have hv2 := DList.value_eq_ok.mpr hv
  refine ⟨l2, pre, rest, vs, v, ws, hs.nodes_eq, rfl, ?_, hvs, hv2, hws, ?_, e2, s2.nodes_eq, ?_,
    ?_, f2, s2⟩
  · cases rest with
    | nil => exact Or.inl ⟨rfl, rfl⟩
    | cons y t => exact Or.inr ⟨t, rfl⟩
  · simp only [DList.toList, hs.nodes_eq, Except.bind_ok_eq]
    exact DList.values_append hvs hws
  · simp only [DList.toList, s2.nodes_eq, Except.bind_ok_eq]
    rw [DList.values_congr _ (fun a _ => o2 a)]
    refine DList.values_append hvs ?_
    simp only [DList.values, hv2, hws, Except.bind_ok_eq, Except.pure_eq_ok]
  · show l2.count = l.count + 1
    have : l.count = (pre ++ rest).length := hc
    rw [c2, this]
    simp only [List.length_append, List.length_cons]
    omega

/-- C20 on the list after `push_back(7)` and `create_node(8)`: `emplace_node` of the new node
(address 3) before the node of 7 (address 2) gives the nodes 3, 2 and the elements 8, 7. -/
theorem emplace_node_links_before_pos_witness :
    DList.with_pending_node.Shape [2] [3] ∧ DList.with_pending_node.size = [2].length ∧
    ∃ l2, DList.with_pending_node.emplace_node 2 3 = .ok (3, l2) ∧ l2.nodes = .ok [3, 2] ∧
      l2.toList = .ok [8, 7] ∧ l2.size = DList.with_pending_node.size + 1 ∧
      l2.cend = DList.with_pending_node.cend := by
  have h1 : ListReach (Except.resultD (DList.push_back (DList.new : DList Nat) 7) DList.new) [] :=
    ListReach.push_back 7 ListReach.ctor (Except.eq_ok_resultD _ (by decide))
  have h2 : ListReach DList.with_pending_node [3] :=
    ListReach.create_node 8 3 h1 (Except.eq_ok_of_fst _ (by decide) (by decide))
  obtain ⟨xs, hs, hc⟩ := DList.ListReach.shape h2
  have hx : xs = [2] := by
    have h3 := hs.nodes_eq
    have h4 : DList.with_pending_node.nodes = .ok [2] := by decide
    rw [h4] at h3
    cases h3
    rfl
  subst hx
  obtain ⟨l2, pre, rest, vs, v, ws, _, hsplit, halt, hvs, hv, hws, _, he, hnodes, hlist, hsize,
    hend, _⟩ := emplace_node_links_before_pos DList.with_pending_node [2] [3] 2 3 hs hc
      (by decide) (by decide)
  have hrest : pre = [] ∧ rest = [2] := by
    rcases halt with ⟨_, h⟩ | ⟨t, rfl⟩
    · exact absurd h (by decide)
    · cases pre with
      | nil => exact ⟨rfl, hsplit.symm⟩
      | cons a as =>
        have := congrArg List.length hsplit
        simp at this
  obtain ⟨rfl, rfl⟩ := hrest
  have hv8 : DList.with_pending_node.value 3 = .ok 8 := by decide
  have hw7 : DList.with_pending_node.values [2] = .ok [7] := by decide
  have hv0 : DList.with_pending_node.values [] = .ok [] := by decide
  rw [hv8] at hv
  rw [hw7] at hws
  rw [hv0] at hvs
  cases hv
  cases hws
  cases hvs
  exact ⟨hs, hc, l2, he, hnodes, hlist, hsize, hend⟩

/-- C21: `List::erase` unlinks exactly one node. For every well-shaped list with linked nodes
`xs` and every linked node `pos` (a position other than `end()`), `erase(pos)` returns; the node
sequence `pre ++ pos :: post` becomes `pre ++ post` and the element sequence loses exactly the
value of `pos`, the other elements keeping their order; `size()` is one smaller, `end()` stays
the same node and every other node keeps its value. -/
theorem erase_unlinks_exactly_pos {T : Type} (l : DList T) (xs pend : List Nat) (pos : Nat)
    (hs : l.Shape xs pend) (hc : l.size = xs.length) (hpos : pos ∈ xs) :
    ∃ l2 pre post vs v ws, l.nodes = .ok xs ∧ xs = pre ++ pos :: post ∧
      l.values pre = .ok vs ∧ l.value pos = .ok v ∧ l.values post = .ok ws ∧
      l.toList = .ok (vs ++ v :: ws) ∧
      l.erase pos = .ok l2 ∧ l2.nodes = .ok (pre ++ post) ∧ l2.toList = .ok (vs ++ ws) ∧
      l2.size + 1 = l.size ∧ l2.cend = l.cend ∧ l2.Shape (pre ++ post) pend ∧
      ∀ z, z ≠ pos → l2.value z = l.value z := by
  obtain ⟨pre, post, rfl⟩ := List.append_of_mem hpos
  obtain ⟨l2, vs, v, ws, hvs, hv, hws, hall, e2, s2, t2, c2, f2, o2⟩ :=
    DList.list_erase_elems hs hc
  exact ⟨l2, pre, post, vs, v, ws, hs.nodes_eq, rfl, hvs, hv, hws, hall, e2, s2.nodes_eq, t2,
    c2, f2, s2, fun z hz => DList.value_congr (o2 z hz)⟩

/-- C21 on the list holding 8 and 7 (nodes 3 and 2): `erase` of the node at address 3. -/
theorem erase_unlinks_exactly_pos_witness :
    DList.with_two_nodes.Shape [3, 2] [] ∧ DList.with_two_nodes.size = [3, 2].length ∧
    ∃ l2 pre post, [3, 2] = pre ++ 3 :: post ∧ DList.with_two_nodes.erase 3 = .ok l2 ∧
      l2.nodes = .ok (pre ++ post) ∧ l2.size + 1 = DList.with_two_nodes.size := by
  obtain ⟨l2, pre, post, _, _, _, _, h2, _, _, _, _, h7, h8, _, h10, _⟩ :=
    erase_unlinks_exactly_pos DList.with_two_nodes [3, 2] [] 3 DList.with_two_nodes_shape.1
      DList.with_two_nodes_shape.2 (by decide)
  exact ⟨DList.with_two_nodes_shape.1, DList.with_two_nodes_shape.2, l2, pre, post, h2, h7, h8,
    h10⟩

/-- C22: the end operations match the sequence model. Let `l` be a well-shaped list with
element sequence `vs` (empty or not). While memory is available, `push_back(x)` returns and the
element sequence becomes `vs ++ [x]`, and a following `pop_back()` returns and restores the
node sequence, the element sequence `vs` and `size()`; `push_front(x)` returns and the element
sequence becomes `x :: vs`; both make `size()` one larger. On a non-empty list `pop_back()`
returns and leaves `vs` without its last element, `pop_front()` returns and leaves `vs` without
its first element; both make `size()` one smaller. -/
theorem end_operations_match_sequence_model {T : Type} (l : DList T) (xs pend : List Nat)
    (vs : List T) (x : T) (hs : l.Shape xs pend) (hc : l.size = xs.length)
    (hv : l.toList = .ok vs) :
    (l.brk < addr_space →
      (∃ l2, l.push_back x = .ok l2 ∧ l2.toList = .ok (vs ++ [x]) ∧ l2.size = l.size + 1 ∧
        ∃ l3, l2.pop_back = .ok l3 ∧ l3.toList = .ok vs ∧ l3.size = l.size ∧
          l3.nodes = l.nodes) ∧
      (∃ l2, l.push_front x = .ok l2 ∧ l2.toList = .ok (x :: vs) ∧ l2.size = l.size + 1)) ∧
    (l.size ≠ 0 →
      (∃ l2, l.pop_back = .ok l2 ∧ l2.toList = .ok vs.dropLast ∧ l2.size + 1 = l.size) ∧
      (∃ l2, l.pop_front = .ok l2 ∧ l2.toList = .ok vs.tail ∧ l2.size + 1 = l.size)) := by
  have hvs := hs.values_of_toList hv
  have hold : ∀ a ∈ xs, a ≠ l.brk := fun a ha e => by
    have := (hs.lt_brk a (List.mem_cons_of_mem _ (List.mem_append_left _ ha))).2
    omega
  have hc0 : l.count = xs.length := hc
  constructor
  · intro hlt
    constructor
    · obtain ⟨l2, e2, s2, c2, _, _, v2, o2⟩ := DList.push_back_spec x hs hc hlt
      have hv2 : l2.values (xs ++ [l.brk]) = .ok (vs ++ [x]) := by
        refine DList.values_append ?_ (DList.values_singleton (DList.value_eq_ok.mpr v2))
        rw [DList.values_congr _ (fun a ha => o2 a (hold a ha))]
        exact hvs
      obtain ⟨l3, e3, s3, c3, _, _, o3⟩ := DList.pop_back_spec s2 c2
      refine ⟨l2, e2, s2.toList_eq hv2, ?_, l3, e3, ?_, ?_, ?_⟩
      · show l2.count = l.count + 1
        rw [c2, hc0]
        simp
      · apply s3.toList_eq
        rw [DList.values_congr _ (fun a ha => o3 a (hold a ha)),
          DList.values_congr _ (fun a ha => o2 a (hold a ha))]
        exact hvs
      · show l3.count = l.count
        rw [c3, hc0]
      · rw [s3.nodes_eq, hs.nodes_eq]
    · obtain ⟨l2, e2, s2, c2, _, _, v2, o2⟩ := DList.push_front_spec x hs hc hlt
      refine ⟨l2, e2, ?_, ?_⟩
      · apply s2.toList_eq
        refine DList.values_cons (DList.value_eq_ok.mpr v2) ?_
        rw [DList.values_congr _ (fun a ha => o2 a (hold a ha))]
        exact hvs
      · show l2.count = l.count + 1
        rw [c2, hc0]
        simp
  · intro hne
    have hxs : xs ≠ [] := fun e => hne (by rw [hc, e]; rfl)
    constructor
    · obtain ⟨pre, y, rfl⟩ : ∃ pre y, xs = pre ++ [y] :=
        ⟨xs.dropLast, xs.getLast hxs, (List.dropLast_append_getLast hxs).symm⟩
      obtain ⟨l2, e2, s2, c2, _, _, o2⟩ := DList.pop_back_spec hs hc
      obtain ⟨ws, w, us, hws, hw, hus, hall⟩ := hs.values_split
      rw [hvs] at hall
      cases hall
      simp only [DList.values, Except.pure_eq_ok, Except.ok.injEq] at hus
      subst hus
      have hnd := (List.nodup_cons.mp hs.nodup).2
      have hnd2 := List.nodup_append.mp (List.nodup_append.mp hnd).1
      refine ⟨l2, e2, ?_, ?_⟩
      · rw [List.dropLast_concat]
        apply s2.toList_eq
        rw [DList.values_congr _ (fun a ha => o2 a (fun e => hnd2.2.2 ha (by simp [e])))]
        exact hws
      · show l2.count + 1 = l.count
        rw [c2, hc0]
        simp
    · obtain ⟨y, post, rfl⟩ : ∃ y post, xs = y :: post := by
        cases xs with
        | nil => exact absurd rfl hxs
        | cons y post => exact ⟨y, post, rfl⟩
      obtain ⟨l2, e2, s2, c2, _, _, o2⟩ := DList.pop_front_spec hs hc
      have hs0 : l.Shape ([] ++ y :: post) pend := hs
      obtain ⟨ws, w, us, hws, hw, hus, hall⟩ := hs0.values_split
      simp only [List.nil_append] at hall
      rw [hvs] at hall
      cases hall
      simp only [DList.values, Except.pure_eq_ok, Except.ok.injEq] at hws
      subst hws
      have hnd := (List.nodup_cons.mp hs.nodup).2
      have hnd2 := List.nodup_cons.mp (List.nodup_append.mp hnd).1
      refine ⟨l2, e2, ?_, ?_⟩
      · simp only [List.nil_append, List.tail_cons]
        apply s2.toList_eq
        rw [DList.values_congr _ (fun a ha => o2 a (fun e => hnd2.1 (e ▸ ha)))]
        exact hus
      · show l2.count + 1 = l.count
        rw [c2, hc0]
        simp

/-- C22 on the list holding 8 and 7: `push_back(9)` gives 8, 7, 9, `push_front(9)` gives
9, 8, 7, `pop_back()` leaves 8 and `pop_front()` leaves 7. -/
theorem end_operations_match_sequence_model_witness :
    DList.with_two_nodes.Shape [3, 2] [] ∧ DList.with_two_nodes.toList = .ok [8, 7] ∧
    (∃ l2, DList.with_two_nodes.push_back 9 = .ok l2 ∧ l2.toList = .ok [8, 7, 9] ∧
      ∃ l3, l2.pop_back = .ok l3 ∧ l3.toList = .ok [8, 7]) ∧
    (∃ l2, DList.with_two_nodes.push_front 9 = .ok l2 ∧ l2.toList = .ok [9, 8, 7]) ∧
    (∃ l2, DList.with_two_nodes.pop_back = .ok l2 ∧ l2.toList = .ok [8]) ∧
    (∃ l2, DList.with_two_nodes.pop_front = .ok l2 ∧ l2.toList = .ok [7]) := by
  have hv : DList.with_two_nodes.toList = .ok [8, 7] := by decide
  obtain ⟨hpush, hpop⟩ := end_operations_match_sequence_model DList.with_two_nodes [3, 2] []
    [8, 7] 9 DList.with_two_nodes_shape.1 DList.with_two_nodes_shape.2 hv
  obtain ⟨⟨l2, a1, a2, _, l3, a3, a4, _⟩, ⟨l4, b1, b2, _⟩⟩ := hpush (by decide)
  obtain ⟨⟨l5, c1, c2, _⟩, ⟨l6, d1, d2, _⟩⟩ := hpop (by decide)
  exact ⟨DList.with_two_nodes_shape.1, hv, ⟨l2, a1, a2, l3, a3, a4⟩, ⟨l4, b1, b2⟩,
    ⟨l5, c1, c2⟩, ⟨l6, d1, d2⟩⟩

/-- C23: the copy constructor. For every well-shaped list `l` (linked nodes `xs`, element
sequence `vs`) `List(const List&)` returns a list with the element sequence `vs`, in the same
order, and the same `size()`. The constructor only reads its argument, which is therefore what
it was. -/
theorem copy_ctor_copies_elements {T : Type} (l : DList T) (xs pend : List Nat)
    (hs : l.Shape xs pend) (hc : l.size = xs.length) :
    ∃ c vs, l.copy_ctor = .ok c ∧ l.toList = .ok vs ∧ c.toList = .ok vs ∧ c.size = l.size ∧
      vs.length = l.size := by
  obtain ⟨vs, hl, hv⟩ := hs.toList_ok
  obtain ⟨c, ds, e, s, cc, w, n⟩ := DList.copy_ctor_spec hs hv
  refine ⟨c, vs, e, hl, s.toList_eq w, ?_, ?_⟩
  · show c.count = l.size
    rw [cc, n, hc]
  · rw [DList.values_length hv, hc]

/-- C23 on the list holding 8 and 7. -/
theorem copy_ctor_copies_elements_witness :
    DList.with_two_nodes.Shape [3, 2] [] ∧
    ∃ c, DList.with_two_nodes.copy_ctor = .ok c ∧ c.toList = .ok [8, 7] ∧ c.size = 2 := by
  obtain ⟨c, vs, h1, h2, h3, h4, _⟩ := copy_ctor_copies_elements DList.with_two_nodes [3, 2] []
    DList.with_two_nodes_shape.1 DList.with_two_nodes_shape.2
  have hv : DList.with_two_nodes.toList = .ok [8, 7] := by decide
  rw [hv] at h2
  cases h2
  exact ⟨DList.with_two_nodes_shape.1, c, h1, h3, h4.trans (by decide)⟩

/-- C26, evaluated on a run that contradicts it (identity hash): after `max_load_factor(1.0f)`
and the inserts of the keys 1 and 2 the map has 2 buckets and `max_load_factor()` returns
`1.0f`. An `emplace` whose pair constructor throws the exception 7 lets an object of type
`std::exception_ptr` out, not the exception 7, and leaves 4 buckets, a rebuilt cache and
`max_load_factor() == 0.66f`; the element sequence and `size()` are what they were. -/
theorem emplace_failure_changes_map :
    (do let m ← steps (K := Nat) (V := Nat) id
          ((UnorderedMap.new : UnorderedMap Nat Nat).set_max_load_factor (F32.ofNat 1))
          [.insert (1, 10), .insert (2, 20)]
        let r ← m.emplace_throw id 7
        pure (r.1, (m.buckets, r.2.buckets), (m.size, r.2.size)) :
      Except Err (Thrown × (List Nat × List Nat) × (Nat × Nat))) =
      .ok (.exception_ptr 7, ([3, 2], [0, 2, 3, 0]), (2, 2)) ∧
    (do let m ← steps (K := Nat) (V := Nat) id
          ((UnorderedMap.new : UnorderedMap Nat Nat).set_max_load_factor (F32.ofNat 1))
          [.insert (1, 10), .insert (2, 20)]
        let r ← m.emplace_throw id 7
        let a ← m.list.toList
        let b ← r.2.list.toList
        pure ((a, b), (decide (m.max_load_factor = F32.ofNat 1),
          decide (r.2.max_load_factor = F32.ofNat 1),
          decide (r.2.max_load_factor = F32.lit066))) :
      Except Err ((List (Nat × Nat) × List (Nat × Nat)) × (Bool × Bool × Bool))) =
      .ok (([(2, 20), (1, 10)], [(2, 20), (1, 10)]), (true, false, true)) := by
  decide

/-- A failing `emplace` with the default maximum load factor (identity hash): on the map holding
keys 1 and 2 in 2 buckets, an `emplace` whose pair constructor throws leaves 6 buckets and a
rebuilt cache; the element sequence and `size()` are what they were. -/
theorem emplace_failure_after_growth :
    (do let m ← run (K := Nat) (V := Nat) id [.insert (1, 10), .insert (2, 20)]
        let r ← m.emplace_throw id 7
        let a ← m.list.toList
        let b ← r.2.list.toList
        pure ((m.buckets, r.2.buckets), (a, b), (m.size, r.2.size)) :
      Except Err ((List Nat × List Nat) × (List (Nat × Nat) × List (Nat × Nat)) × (Nat × Nat))) =
      .ok (([3, 2], [0, 2, 3, 0, 0, 0]), ([(2, 20), (1, 10)], [(2, 20), (1, 10)]), (2, 2)) := by
  decide

/-- What a failing `emplace` keeps. Let `m` be a map with a well-shaped list. When constructing
the pair throws the exception `e` inside `emplace`, the node that was allocated is freed and an
`std::exception_ptr` object referring to `e` leaves `emplace`, with the node sequence, the
element sequence, `size()` and `end()` of the list as before the call, and with the bucket cache
and the maximum load factor that the growth check on entry left: those of `m` when
`load_factor() < max_load_factor()` held on entry. The throwing path is reached whenever the
growth check returns and memory for the node is available. -/
theorem emplace_failure_keeps_list {K V : Type} [DecidableEq K] (hash : K → Nat)
    (m : UnorderedMap K V) (xs pend : List Nat) (e : Nat) (hs : m.list.Shape xs pend) :
    (∀ r, m.emplace_throw hash e = .ok r →
      r.1 = .exception_ptr e ∧
      ∃ m1, m.rehash hash = .ok m1 ∧ r.2.buckets = m1.buckets ∧
        r.2.max_load_factor = m1.max_load_factor ∧
        r.2.list.nodes = m.list.nodes ∧ r.2.list.toList = m.list.toList ∧ r.2.size = m.size ∧
        r.2.cend = m.cend ∧
        (F32.lt m.load_factor m.max_load_factor = true →
          r.2.buckets = m.buckets ∧ r.2.max_load_factor = m.max_load_factor)) ∧
    (∀ m1, m.rehash hash = .ok m1 → m.list.brk < addr_space →
      ∃ r, m.emplace_throw hash e = .ok r) := by
  constructor
  · intro r he
    unfold emplace_throw at he
    obtain ⟨m1, h1, he⟩ := Except.bind_eq_ok_iff.mp he
    obtain ⟨c, h2, he⟩ := Except.bind_eq_ok_iff.mp he
    simp only [Except.pure_eq_ok, Except.ok.injEq] at he
    subst he
    have hl := rehash_list h1
    have hs1 : m1.list.Shape xs pend := by rw [hl]; exact hs
    obtain ⟨t2, s2, c2, f2, o2⟩ := DList.make_node_throw_spec hs1 h2
    have hvals : c.2.values xs = m.list.values xs := by
      rw [← hl]
      exact DList.values_congr xs (fun a _ => by unfold bufOf; rw [o2 a])
    refine ⟨t2, m1, h1, rfl, rfl, ?_, ?_, ?_, ?_, fun hlt => ?_⟩
    · show c.2.nodes = m.list.nodes
      rw [s2.nodes_eq, hs.nodes_eq]
    · show c.2.toList = m.list.toList
      simp only [DList.toList, s2.nodes_eq, hs.nodes_eq, Except.bind_ok_eq, hvals]
    · show c.2.count = m.list.count
      rw [c2, hl]
    · show c.2.fake = m.list.fake
      rw [f2, hl]
    · rw [rehash_of_lt hlt] at h1
      cases h1
      exact ⟨rfl, rfl⟩
  · intro m1 h1 hlt
    have hl := rehash_list h1
    refine ⟨(.exception_ptr e, { m1 with list := { m1.list with
      mem := (m1.list.mem.set m1.list.brk (some ⟨none, 0, 0⟩)).set m1.list.brk none,
      brk := m1.list.brk + 1 } }), ?_⟩
    simp only [emplace_throw, h1, Except.bind_ok_eq, DList.create_node_throw,
      DList.make_node_throw_eq, hl, if_pos hlt, Except.pure_eq_ok]

/-- A failing `emplace` on the map holding key 1 in 2 buckets (identity hash), where the growth
check leaves the map as it is. -/
theorem emplace_failure_keeps_list_witness :
    ∃ xs, (after (K := Nat) (V := Nat) id [.insert (1, 10)]).list.Shape xs [] ∧
      ∃ r, (after (K := Nat) (V := Nat) id [.insert (1, 10)]).emplace_throw id 7 = .ok r ∧
        r.1 = .exception_ptr 7 ∧
        r.2.buckets = (after (K := Nat) (V := Nat) id [.insert (1, 10)]).buckets ∧
        r.2.list.toList = .ok [(1, 10)] ∧ r.2.size = 1 := by
  have hr : run (K := Nat) (V := Nat) id [.insert (1, 10)] = .ok (after id [.insert (1, 10)]) :=
    run_eq_after (by decide)
  obtain ⟨xs, hi⟩ := run_inv hr
  have hlt : F32.lt (after (K := Nat) (V := Nat) id [.insert (1, 10)]).load_factor
      (after (K := Nat) (V := Nat) id [.insert (1, 10)]).max_load_factor = true := by decide
  obtain ⟨r, e⟩ := (emplace_failure_keeps_list id _ xs [] 7 hi.shape).2 _
    (rehash_of_lt hlt) (by decide)
  obtain ⟨h0, m1, _, _, _, _, h5, h6, _, h8⟩ :=
    (emplace_failure_keeps_list id _ xs [] 7 hi.shape).1 r e
  exact ⟨xs, hi.shape, r, e, h0, (h8 hlt).1, h5.trans (by decide), h6.trans (by decide)⟩

/-- C27, evaluated on a run of inserts that contradicts it (identity hash): after the inserts
of the keys 0, 6, 1, 18, 2 the map has 18 buckets and the list holds the keys 2, 1, 0, 6, 18,
whose slots are 2, 1, 0, 6, 0. Slot 0 references the node of key 0; the node of key 18 has slot
0 too, and the node of key 6 (slot 6) lies between them: the nodes of slot 0 are not one
contiguous run, and the scan from the node of key 0 stops at key 6 before it reaches key 18. -/
theorem same_slot_nodes_are_not_contiguous :
    (do let m ← run (K := Nat) (V := Nat) id
          [.insert (0, 10), .insert (6, 20), .insert (1, 30), .insert (18, 40), .insert (2, 50)]
        let ks ← m.keys
        let p ← m.bucket 0
        let kv ← m.list.value p
        let it ← m.scan id 18 0 m.list.brk p
        let st ← m.list.value it
        pure ((m.buckets.length, ks), (ks.map (fun k => k % m.buckets.length), kv.1, st.1)) :
      Except Err ((Nat × List Nat) × (List Nat × Nat × Nat))) =
      .ok ((18, [2, 1, 0, 6, 18]), ([2, 1, 0, 6, 0], 0, 6)) := by
  decide

/-- C29: placement on a successful insert. Let `m` be a map reached from the default-constructed
map by calls of `insert`, `emplace` and `erase` that return, let `insert(kv)` return
`inserted = true` and the position `it`, and let `m1` be the map after the growth check that
`insert` runs on entry (`m` itself when `load_factor() < max_load_factor()` holds on entry, so
that no growth runs), `xs` its node sequence, `h` the slot `hash(key) mod bucket-count` of the
key in `m1` and `p` the content of slot `h`. The scan starts
at `begin()` when `p` is null and at `p` otherwise, passes the nodes `mid`, all of slot `h`, and
stops at the first node of another slot or at `end()`; with `xs = done ++ mid ++ rest`, the
node sequence after the call is `done ++ mid ++ it :: rest`: the new node, which holds `kv`,
is linked immediately before the node the scan stopped at (`rest` is empty when that is `end()`,
`done` and `mid` are empty when the slot was empty). Slot `h` is set to the new node when it
was empty and keeps `p` otherwise; no other slot changes. -/
theorem insert_links_behind_same_slot_nodes {K V : Type} [DecidableEq K] (hash : K → Nat)
    (ops : List (MapOp K V)) (m : UnorderedMap K V) (hr : run hash ops = .ok m)
    (kv : K × V) (it : Nat) (m2 : UnorderedMap K V)
    (e : m.insert hash kv = .ok ((it, true), m2)) :
    ∃ m1 xs p done mid rest, m.rehash hash = .ok m1 ∧
      (F32.lt m.load_factor m.max_load_factor = true → m1 = m) ∧ m1.list.nodes = .ok xs ∧
      m1.bucket (hash kv.1 % m1.buckets.length) = .ok p ∧ xs = done ++ mid ++ rest ∧
      (p = 0 → done = [] ∧ mid = []) ∧ (p ≠ 0 → ∃ t, mid ++ rest = p :: t) ∧
      (∀ a ∈ mid, slotOf hash m1.list m1.buckets.length a =
        some (hash kv.1 % m1.buckets.length)) ∧
      (rest = [] ∨ ∃ b t, rest = b :: t ∧
        slotOf hash m1.list m1.buckets.length b ≠ some (hash kv.1 % m1.buckets.length)) ∧
      m2.list.nodes = .ok (done ++ mid ++ it :: rest) ∧ m2.list.value it = .ok kv ∧
      (p = 0 → m2.buckets = m1.buckets.set (hash kv.1 % m1.buckets.length) it) ∧
      (p ≠ 0 → m2.buckets = m1.buckets) := by
  obtain ⟨xs, hi⟩ := run_inv hr
  unfold UnorderedMap.insert at e
  obtain ⟨m1, hm1, e⟩ := Except.bind_eq_ok_iff.mp e
  obtain ⟨i1, _⟩ := rehash_spec hi hm1
  obtain ⟨h, hh, e⟩ := Except.bind_eq_ok_iff.mp e
  obtain ⟨it0, hit0, e⟩ := Except.bind_eq_ok_iff.mp e
  obtain ⟨ins0, hins, e⟩ := Except.bind_eq_ok_iff.mp e
  obtain ⟨⟨it1, m3⟩, hem, e⟩ := Except.bind_eq_ok_iff.mp e
  obtain ⟨m4, hub, e⟩ := Except.bind_eq_ok_iff.mp e
  simp only [Except.pure_eq_ok, Except.ok.injEq, Prod.mk.injEq] at e
  obtain ⟨⟨rfl, rfl⟩, rfl⟩ := e
  simp only [if_true] at hem
  obtain ⟨⟨n, l2⟩, hemp, hem⟩ := Except.bind_eq_ok_iff.mp hem
  simp only [Except.pure_eq_ok, Except.ok.injEq, Prod.mk.injEq] at hem
  obtain ⟨rfl, rfl⟩ := hem
  have hh2 := (get_hash_eq_ok.mp hh).2
  subst hh2
  obtain ⟨p, done, mid, rest, hp, hx, hit, hp0, hp1, hmid, _⟩ :=
    find_by_hash_split i1.shape i1.cache hit0
  subst hx
  subst hit
  have hrest : rest = [] ∨ ∃ b t, rest = b :: t ∧
      slotOf hash m1.list m1.buckets.length b ≠ some (hash kv.1 % m1.buckets.length) := by
    cases rest with
    | nil => exact Or.inl rfl
    | cons b t =>
      refine Or.inr ⟨b, t, rfl, ?_⟩
      rcases ins_flag_true hins with hf | hf
      · exfalso
        exact (List.nodup_cons.mp i1.shape.nodup).1 (List.mem_append_left _
          (List.mem_append_right _ (hf ▸ List.mem_cons_self _ _)))
      · exact hf
  by_cases hlt : m1.list.brk < addr_space
  · obtain ⟨l3, e3, s3, _, _, _, v3, _⟩ :=
      DList.list_emplace_spec kv i1.shape i1.count hlt
    rw [e3] at hemp
    cases hemp
    obtain ⟨q, hq, u1, u2⟩ := update_bucket_eq hub
    have hqp : q = p := by
      have h1 : m1.bucket (hash kv.1 % m1.buckets.length) = .ok q := hq
      rw [hp] at h1
      cases h1
      rfl
    subst hqp
    obtain ⟨k1, _, _⟩ := update_bucket_frame hub
    refine ⟨m1, done ++ mid ++ rest, q, done, mid, rest, hm1, fun hl => ?_, i1.shape.nodes_eq,
      hp, rfl, hp0,
      hp1, hmid, hrest, ?_, ?_, u1, u2⟩
    · rw [rehash_of_lt hl] at hm1
      cases hm1
      rfl
    · rw [k1]
      exact s3.nodes_eq
    · rw [k1]
      exact DList.value_eq_ok.mpr v3
  · simp [DList.emplace, DList.create_node, DList.make_node, DList.allocate, hlt,
      Except.bind_error_eq] at hemp

/-- C29 on the map holding key 0 (identity hash, 2 buckets) and the insert of key 2: slot 0
references the node of key 0 (address 2), and the new node (address 3) is linked behind it. -/
theorem insert_links_behind_same_slot_nodes_witness :
    run (K := Nat) (V := Nat) id [.insert (0, 10)] = .ok (after id [.insert (0, 10)]) ∧
    (after (K := Nat) (V := Nat) id [.insert (0, 10)]).insert id (2, 20) =
      .ok ((3, true), (((after id [.insert (0, 10)]).insert id (2, 20)).resultD
        ((0, false), UnorderedMap.new)).2) ∧
    ∃ m1 xs p done mid rest,
      (after (K := Nat) (V := Nat) id [.insert (0, 10)]).rehash id = .ok m1 ∧
      m1.list.nodes = .ok xs ∧ m1.bucket (id (2, 20).1 % m1.buckets.length) = .ok p ∧
      xs = done ++ mid ++ rest ∧
      (((after (K := Nat) (V := Nat) id [.insert (0, 10)]).insert id (2, 20)).resultD
        ((0, false), UnorderedMap.new)).2.list.nodes = .ok (done ++ mid ++ 3 :: rest) := by
  have hr : run (K := Nat) (V := Nat) id [.insert (0, 10)] = .ok (after id [.insert (0, 10)]) :=
    run_eq_after (by decide)
  have hins : (after (K := Nat) (V := Nat) id [.insert (0, 10)]).insert id (2, 20) =
      .ok ((3, true), (((after id [.insert (0, 10)]).insert id (2, 20)).resultD
        ((0, false), UnorderedMap.new)).2) :=
    Except.eq_ok_of_fst _ (by decide) (by decide)
  obtain ⟨m1, xs, p, done, mid, rest, h1, _, h2, h3, h4, _, _, _, _, h9, _⟩ :=
    insert_links_behind_same_slot_nodes id _ _ hr (2, 20) 3 _ hins
  exact ⟨hr, hins, m1, xs, p, done, mid, rest, h1, h2, h3, h4, h9⟩

/-- C30: `erase(it)` on a map. For every map with a well-shaped list with linked nodes `xs`, at
least one bucket, and every linked node `it` (with key `kv.1`): `erase(it)` returns; slot
`hash(key) mod bucket-count` is empty afterwards, whatever it referenced, and every other slot
is what it was; the node sequence `pre ++ it :: post` becomes `pre ++ post`, the element
sequence loses exactly the pair of `it`, the bucket count and the maximum load factor are
unchanged and `size()` is one smaller. -/
theorem erase_clears_slot_and_unlinks {K V : Type} [DecidableEq K] (hash : K → Nat)
    (m : UnorderedMap K V) (xs pend : List Nat) (it : Nat) (hs : m.list.Shape xs pend)
    (hc : m.size = xs.length) (hb : m.buckets.length ≠ 0) (hit : it ∈ xs) :
    ∃ m2 pre post kv vs ws, xs = pre ++ it :: post ∧ m.list.value it = .ok kv ∧
      m.list.toList = .ok (vs ++ kv :: ws) ∧ m.erase hash it = .ok m2 ∧
      m2.bucket (hash kv.1 % m.buckets.length) = .ok 0 ∧
      (∀ i, i ≠ hash kv.1 % m.buckets.length → m2.buckets[i]? = m.buckets[i]?) ∧
      m2.buckets.length = m.buckets.length ∧
      m2.list.nodes = .ok (pre ++ post) ∧ m2.list.toList = .ok (vs ++ ws) ∧
      m2.size + 1 = m.size ∧ m2.max_load_factor = m.max_load_factor := by
  obtain ⟨pre, post, rfl⟩ := List.append_of_mem hit
  obtain ⟨m2, kv, vs, ws, hv, _, _, hall, e, hbk, hmf, s2, t2, c2, _⟩ :=
    erase_elems hash hs hc hb
  have hlt : hash kv.1 % m.buckets.length < m.buckets.length :=
    Nat.mod_lt _ (Nat.pos_of_ne_zero hb)
  refine ⟨m2, pre, post, kv, vs, ws, rfl, hv, hall, e, ?_, fun i hi => ?_, ?_, s2.nodes_eq, t2,
    c2, hmf⟩
  · simp only [bucket, hbk, List.getElem?_set_self hlt]
    rfl
  · rw [hbk, List.getElem?_set_ne (Ne.symm hi)]
  · rw [hbk, List.length_set]

/-- C30 on the map holding keys 1 and 2 in 2 buckets (identity hash; nodes 3 and 2): `erase` of
the node of key 1 (address 2) empties slot 1. -/
theorem erase_clears_slot_and_unlinks_witness :
    (after (K := Nat) (V := Nat) id [.insert (1, 10), .insert (2, 20)]).list.Shape [3, 2] [] ∧
    ∃ m2, (after (K := Nat) (V := Nat) id [.insert (1, 10), .insert (2, 20)]).erase id 2 =
        .ok m2 ∧
      m2.bucket 1 = .ok 0 ∧ m2.buckets.length = 2 ∧ m2.size + 1 = 2 := by
  have hr : run (K := Nat) (V := Nat) id [.insert (1, 10), .insert (2, 20)] =
      .ok (after id [.insert (1, 10), .insert (2, 20)]) := run_eq_after (by decide)
  obtain ⟨hs, hc⟩ := run_shape [3, 2] hr (by decide)
  obtain ⟨m2, pre, post, kv, vs, ws, _, h2, _, h4, h5, _, h7, _, _, h10, _⟩ :=
    erase_clears_slot_and_unlinks id _ [3, 2] [] 2 hs hc (by decide) (by decide)
  have hv : (after (K := Nat) (V := Nat) id [.insert (1, 10), .insert (2, 20)]).list.value 2 =
      .ok (1, 10) := by decide
  rw [hv] at h2
  cases h2
  exact ⟨hs, m2, h4, h5, h7.trans (by decide), h10.trans (by decide)⟩

/-- C31: the speculative node lifecycle. Let `l` be a well-shaped list. While memory is
available, `create_node(x)` returns a node that holds `x` and is not linked: `size()`, the node
sequence and the element sequence from `begin()` to `end()` are what they were. `remove_node`
applied to a node made by `create_node` and not linked returns and leaves `size()`, the node
sequence and the element sequence unchanged as well; in particular it undoes `create_node`. -/
theorem create_and_remove_node_keep_sequence {T : Type} (l : DList T) (xs pend : List Nat)
    (x : T) (hs : l.Shape xs pend) (hc : l.size = xs.length) :
    (l.brk < addr_space → ∃ n l2 l3, l.create_node x = .ok (n, l2) ∧ n ∉ xs ∧
      l2.value n = .ok x ∧ l2.size = l.size ∧ l2.nodes = l.nodes ∧ l2.toList = l.toList ∧
      l2.remove_node n = .ok l3 ∧ l3.size = l.size ∧ l3.nodes = l.nodes ∧
      l3.toList = l.toList) ∧
    (∀ n ∈ pend, ∃ l3, l.remove_node n = .ok l3 ∧ l3.size = l.size ∧ l3.nodes = l.nodes ∧
      l3.toList = l.toList) := by
  have hrem : ∀ (k : DList T) (pd : List Nat), k.Shape xs pd → k.count = xs.length →
      ∀ n ∈ pd, ∃ l3, k.remove_node n = .ok l3 ∧ l3.size = k.size ∧ l3.nodes = k.nodes ∧
        l3.toList = k.toList := by
    intro k pd ks kc n hn
    obtain ⟨l3, e3, s3, c3, _, _, o3⟩ := DList.remove_node_spec ks kc hn
    refine ⟨l3, e3, c3, by rw [s3.nodes_eq, ks.nodes_eq], ks.toList_congr s3 (fun a ha => ?_)⟩
    exact o3 a (fun e => ks.pend_ne (List.mem_cons_of_mem _ ha) hn e.symm)
  refine ⟨fun hlt => ?_, hrem l pend hs hc⟩
  obtain ⟨l2, e2, s2, c2, _, _, v2, o2⟩ := DList.create_node_spec x hs hc hlt
  have hold : ∀ a ∈ xs, a ≠ l.brk := fun a ha e => by
    have := (hs.lt_brk a (List.mem_cons_of_mem _ (List.mem_append_left _ ha))).2
    omega
  have hl2 : l2.toList = l.toList := hs.toList_congr s2 (fun a ha => o2 a (hold a ha))
  have hn2 : l2.nodes = l.nodes := by rw [s2.nodes_eq, hs.nodes_eq]
  obtain ⟨l3, e3, z3, n3, t3⟩ := hrem l2 _ s2 (c2.trans hc) l.brk (List.mem_cons_self _ _)
  exact ⟨l.brk, l2, l3, e2, fun h => hold _ h rfl, DList.value_eq_ok.mpr v2, c2, hn2, hl2, e3,
    z3.trans c2, n3.trans hn2, t3.trans hl2⟩

/-- C31 on the list holding 8 and 7: `create_node(9)` makes the node at address 4, and
`remove_node` discards it again. -/
theorem create_and_remove_node_keep_sequence_witness :
    DList.with_two_nodes.Shape [3, 2] [] ∧
    ∃ l2 l3, DList.with_two_nodes.create_node 9 = .ok (4, l2) ∧ l2.size = 2 ∧
      l2.toList = .ok [8, 7] ∧ l2.remove_node 4 = .ok l3 ∧ l3.size = 2 ∧
      l3.toList = .ok [8, 7] := by
  obtain ⟨n, l2, l3, h1, _, _, h4, _, h6, h7, h8, _, h10⟩ :=
    (create_and_remove_node_keep_sequence DList.with_two_nodes [3, 2] [] 9
      DList.with_two_nodes_shape.1 DList.with_two_nodes_shape.2).1 (by decide)
  have hn : n = 4 := by
    have h : (Except.resultD (DList.with_two_nodes.create_node 9) (0, DList.new)).1 = 4 := by
      decide
    rw [h1] at h
    exact h
  subst hn
  have hv : DList.with_two_nodes.toList = .ok [8, 7] := by decide
  exact ⟨DList.with_two_nodes_shape.1, l2, l3, h1, h4.trans (by decide), h6.trans hv, h7,
    h8.trans (by decide), h10.trans hv⟩

/-- C32: the circular-sentinel invariant. In every `List` state reached from a freshly
constructed list by `push_back`, `push_front`, `pop_back` / `pop_front` on a non-empty list,
`insert`, `erase`, `emplace_node` (and `create_node`, `remove_node`, `emplace`), with `xs` the
nodes from `begin()` to `end()`: `next` of the sentinel is the first node of `xs` and `prev` of
the sentinel the last one (the sentinel itself when `xs` is empty); every node `x` of the ring,
the sentinel included, has `x.next.prev == x` and `x.prev.next == x`; and the walk from
`rbegin()` to `rend()` terminates and visits `xs` in reverse. -/
theorem ring_links_are_mutually_inverse {T : Type} (l : DList T) (pend : List Nat)
    (h : ListReach l pend) :
    ∃ xs, l.nodes = .ok xs ∧ l.getNext l.cend = .ok (headOr xs l.cend) ∧
      l.getPrev l.cend = .ok (lastOr xs l.cend) ∧
      (∀ x ∈ l.cend :: xs, ∃ n p, l.getNext x = .ok n ∧ l.getPrev n = .ok x ∧
        l.getPrev x = .ok p ∧ l.getNext p = .ok x) ∧
      l.nodes_back = .ok xs.reverse := by
  obtain ⟨xs, hs, _⟩ := DList.ListReach.shape h
  have hs0 : l.Shape ([] ++ xs) pend := by simpa using hs
  have hs1 : l.Shape (xs ++ []) pend := by simpa using hs
  have a2 := hs0.pos_facts.2.1
  have b1 := hs1.pos_facts.1
  simp only [lastOr, headOr] at a2 b1
  exact ⟨xs, hs.nodes_eq, DList.getNext_eq_ok.mpr a2, DList.getPrev_eq_ok.mpr b1,
    fun x hx => hs.ring_inverse hx, hs.nodes_back_eq⟩

/-- C32 on the list after `push_back(7)` and `push_front(8)` (nodes 3 and 2, sentinel 1). -/
theorem ring_links_are_mutually_inverse_witness :
    ListReach DList.with_two_nodes [] ∧ DList.with_two_nodes.nodes = .ok [3, 2] ∧
    DList.with_two_nodes.getNext 1 = .ok 3 ∧ DList.with_two_nodes.getPrev 1 = .ok 2 ∧
    DList.with_two_nodes.nodes_back = .ok [2, 3] := by
  have h1 : ListReach (Except.resultD (DList.push_back (DList.new : DList Nat) 7) DList.new) [] :=
    ListReach.push_back 7 ListReach.ctor (Except.eq_ok_resultD _ (by decide))
  have h2 : ListReach DList.with_two_nodes [] :=
    ListReach.push_front 8 h1 (Except.eq_ok_resultD DList.new (by decide))
  obtain ⟨xs, hx, hn, hp, _, hb⟩ := ring_links_are_mutually_inverse DList.with_two_nodes [] h2
  have hn2 : DList.with_two_nodes.nodes = .ok [3, 2] := by decide
  rw [hn2] at hx
  cases hx
  exact ⟨h2, hn2, hn, hp, hb⟩

/-- C33, evaluated on a run that contradicts it: in `stackallocator.cpp` the list holding 8 and
7 is moved from, once by the move constructor and once by move assignment into a fresh list;
either way `size()` of the source still returns 2 (its sentinel pointer is null). -/
theorem stack_list_moved_from_keeps_count :
    ((StackList.move_ctor DList.with_two_nodes).2.size,
      (StackList.move_ctor DList.with_two_nodes).2.cend,
      (StackList.move_assign DList.new DList.with_two_nodes).map
        (fun r => (r.2.size, r.2.cend))) = (2, 0, .ok (2, 0)) := by
  decide

/-- C34, evaluated on a run that contradicts it (identity hash): after `max_load_factor(1.0f)`
and the inserts of the keys 1 and 2, `max_load_factor()` returns `1.0f`; the insert of key 3
triggers growth (from 2 to 4 buckets), after which `max_load_factor()` returns `0.66f`. -/
theorem growth_resets_max_load_factor :
    (do let m ← steps (K := Nat) (V := Nat) id
          ((UnorderedMap.new : UnorderedMap Nat Nat).set_max_load_factor (F32.ofNat 1))
          [.insert (1, 10), .insert (2, 20)]
        let r ← m.insert id (3, 30)
        pure ((decide (m.max_load_factor = F32.ofNat 1), m.buckets.length),
          (decide (r.2.max_load_factor = F32.ofNat 1),
            decide (r.2.max_load_factor = F32.lit066), r.2.buckets.length)) :
      Except Err ((Bool × Nat) × (Bool × Bool × Nat))) =
      .ok ((true, 2), (false, true, 4)) := by
  decide

/-- C35, evaluated on two maps that contradict it (identity hash). On the default-constructed
map the non-const `find(5)` returns `end()`, and the const `find(5)` does not return: it reads
the key of the sentinel, which holds no value. On the map holding key 1 the same happens for
key 3. -/
theorem const_find_reads_sentinel :
    ((UnorderedMap.new : UnorderedMap Nat Nat).find id 5 =
        .ok (UnorderedMap.new : UnorderedMap Nat Nat).cend ∧
      (UnorderedMap.new : UnorderedMap Nat Nat).find_const id 5 = .error .ub) ∧
    (do let m ← run (K := Nat) (V := Nat) id [.insert (1, 10)]
        let it ← m.find id 3
        pure (decide (it = m.cend), m.find_const id 3) :
      Except Err (Bool × Except Err Nat)) = .ok (true, .error .ub) := by
  decide

/-- C36: cache validity. In every map reached from the default-constructed map by calls of
`insert`, `emplace`, `operator[]`, `erase(it)` and `erase(a, b)` that return (automatic growth
included), every non-empty bucket slot `i` references a node that is linked in the list and
whose key has hash modulo the bucket count equal to `i`. -/
theorem cache_references_linked_nodes {K V : Type} [DecidableEq K] (hash : K → Nat)
    (cs : List (MapCall K V)) (m : UnorderedMap K V) (hr : run_calls hash cs = .ok m) :
    ∃ xs, m.list.nodes = .ok xs ∧ ∀ i p, m.buckets[i]? = some p → p ≠ 0 →
      p ∈ xs ∧ ∃ kv, m.list.value p = .ok kv ∧ hash kv.1 % m.buckets.length = i := by
  obtain ⟨xs, hi⟩ := run_calls_inv hr
  refine ⟨xs, hi.shape.nodes_eq, fun i p hp hp0 => ?_⟩
  obtain ⟨h1, kv, h2, h3⟩ := hi.cache i p hp hp0
  exact ⟨h1, kv, DList.value_eq_ok.mpr h2, h3⟩

/-- C36 on the map after `insert((1, 10))`, `operator[](2)`, `emplace(3, 30)` and the erase of
the node of key 2 (identity hash): the keys 3 and 1 remain, in the nodes 4 and 2; slot 1
references node 2 and slot 3 node 4. -/
theorem cache_references_linked_nodes_witness :
    run_calls (K := Nat) (V := Nat) id
        [.insert (1, 10), .subscript 2 0, .emplace 3 30, .erase 3] =
      .ok (Except.resultD (run_calls (K := Nat) (V := Nat) id
        [.insert (1, 10), .subscript 2 0, .emplace 3 30, .erase 3]) UnorderedMap.new) ∧
    (Except.resultD (run_calls (K := Nat) (V := Nat) id
        [.insert (1, 10), .subscript 2 0, .emplace 3 30, .erase 3]) UnorderedMap.new).buckets =
      [0, 2, 0, 4, 0, 0] ∧
    ∃ xs, (Except.resultD (run_calls (K := Nat) (V := Nat) id
        [.insert (1, 10), .subscript 2 0, .emplace 3 30, .erase 3])
        UnorderedMap.new).list.nodes = .ok xs ∧ 4 ∈ xs := by
  have hr : run_calls (K := Nat) (V := Nat) id
      [.insert (1, 10), .subscript 2 0, .emplace 3 30, .erase 3] =
      .ok (Except.resultD (run_calls (K := Nat) (V := Nat) id
        [.insert (1, 10), .subscript 2 0, .emplace 3 30, .erase 3]) UnorderedMap.new) :=
    Except.eq_ok_resultD _ (by decide)
  obtain ⟨xs, hx, h⟩ := cache_references_linked_nodes id _ _ hr
  exact ⟨hr, by decide, xs, hx, (h 3 4 (by decide) (by decide)).1⟩

/-- C37: an insert that does not trigger growth keeps the run structure. Let `m` be a map with a
well-shaped list with linked nodes `xs`, in which every slot is non-empty exactly when some node
has that slot and then references the first such node in list order, and in which the nodes of
each slot are contiguous, and let `load_factor() < max_load_factor()`. When `insert((k, v))` or
`emplace(k, v)` returns, the same facts hold of the cache and the node sequence `ys` it leaves;
the call links a node only when no node of `xs` held the key `k`, otherwise it leaves the node
sequence as it was; and when the keys of `xs` are pairwise distinct, so are those of `ys`. With
at least one bucket and memory for one more node, both calls return. -/
theorem insert_without_growth_keeps_runs {K V : Type} [DecidableEq K] (hash : K → Nat)
    (m : UnorderedMap K V) (xs : List Nat) (k : K) (v : V) (hs : m.list.Shape xs [])
    (hc : m.size = xs.length) (hfw : FirstWriter hash m.list xs m.buckets)
    (hcg : Contiguous hash m.list m.buckets.length xs)
    (hlt : F32.lt m.load_factor m.max_load_factor = true) :
    (∀ r, m.insert hash (k, v) = .ok r →
      ∃ ys, r.2.list.nodes = .ok ys ∧ FirstWriter hash r.2.list ys r.2.buckets ∧
        Contiguous hash r.2.list r.2.buckets.length ys ∧
        (r.1.2 = true →
          ∀ a ∈ xs, ∀ kv2, bufOf m.list.mem a = some (some kv2) → kv2.1 ≠ k) ∧
        (r.1.2 = false → ys = xs) ∧
        (DistinctKeys m.list xs → DistinctKeys r.2.list ys)) ∧
    (∀ r, m.emplace hash k v = .ok r →
      ∃ ys, r.2.list.nodes = .ok ys ∧ FirstWriter hash r.2.list ys r.2.buckets ∧
        Contiguous hash r.2.list r.2.buckets.length ys ∧
        (r.1.2 = true →
          ∀ a ∈ xs, ∀ kv2, bufOf m.list.mem a = some (some kv2) → kv2.1 ≠ k) ∧
        (r.1.2 = false → ys = xs) ∧
        (DistinctKeys m.list xs → DistinctKeys r.2.list ys)) ∧
    (m.buckets.length ≠ 0 → m.list.brk < addr_space →
      (∃ r, m.insert hash (k, v) = .ok r) ∧ ∃ r, m.emplace hash k v = .ok r) := by
  refine ⟨fun r e => ?_, fun r e => ?_, fun hb hbrk => ?_⟩
  · obtain ⟨ys, s, _, fw, cg, h1, h2, h3⟩ := insert_runs_result hash hs hc hfw hcg hlt e
    exact ⟨ys, s.nodes_eq, fw, cg, h1, h2, h3⟩
  · obtain ⟨ys, s, _, fw, cg, h1, h2, h3⟩ := emplace_runs_result hash hs hc hfw hcg hlt e
    exact ⟨ys, s.nodes_eq, fw, cg, h1, h2, h3⟩
  · exact ⟨insert_returns hash hs hc hfw.cacheOK hlt hb hbrk (k, v),
      emplace_returns hash hs hc hfw.cacheOK hlt hb hbrk k v⟩

/-- C37 on the map holding key 1 in 2 buckets (identity hash): slot 1 references the node of
key 1 at address 2, and `insert((3, 30))`, whose key has slot 1 too, runs no growth, returns and
leaves a first-writer-wins cache over contiguous runs. -/
theorem insert_without_growth_keeps_runs_witness :
    (after (K := Nat) (V := Nat) id [.insert (1, 10)]).list.Shape [2] [] ∧
    FirstWriter id (after (K := Nat) (V := Nat) id [.insert (1, 10)]).list [2]
      (after (K := Nat) (V := Nat) id [.insert (1, 10)]).buckets ∧
    Contiguous id (after (K := Nat) (V := Nat) id [.insert (1, 10)]).list
      (after (K := Nat) (V := Nat) id [.insert (1, 10)]).buckets.length [2] ∧
    ∃ r ys, (after (K := Nat) (V := Nat) id [.insert (1, 10)]).insert id (3, 30) = .ok r ∧
      r.1 = (3, true) ∧ r.2.list.nodes = .ok ys ∧ FirstWriter id r.2.list ys r.2.buckets ∧
      Contiguous id r.2.list r.2.buckets.length ys := by
  have hr : run (K := Nat) (V := Nat) id [.insert (1, 10)] = .ok (after id [.insert (1, 10)]) :=
    run_eq_after (by decide)
  obtain ⟨xs, hi⟩ := run_inv hr
  have hx : xs = [2] := by
    have h1 := hi.shape.nodes_eq
    have h2 : (after (K := Nat) (V := Nat) id [.insert (1, 10)]).list.nodes = .ok [2] := by
      decide
    rw [h2] at h1
    cases h1
    rfl
  subst hx
  have hbk : (after (K := Nat) (V := Nat) id [.insert (1, 10)]).buckets = [0, 2] := by decide
  have hsl : slotOf id (after (K := Nat) (V := Nat) id [.insert (1, 10)]).list 2 2 = some 1 := by
    decide
  have hfw : FirstWriter id (after (K := Nat) (V := Nat) id [.insert (1, 10)]).list [2]
      (after (K := Nat) (V := Nat) id [.insert (1, 10)]).buckets := by
    rw [hbk]
    intro i p hp
    match i, hp with
    | 0, hp =>
      cases hp
      refine ⟨fun _ a ha => ?_, fun h => absurd rfl h⟩
      rw [List.mem_singleton.mp ha]
      show slotOf id _ 2 2 ≠ some 0
      rw [hsl]
      decide
    | 1, hp =>
      cases hp
      exact ⟨fun h => absurd h (by decide),
        fun _ => ⟨[], [], rfl, hsl, fun a ha => absurd ha (List.not_mem_nil _)⟩⟩
    | i + 2, hp => cases hp
  have hcg : Contiguous id (after (K := Nat) (V := Nat) id [.insert (1, 10)]).list
      (after (K := Nat) (V := Nat) id [.insert (1, 10)]).buckets.length [2] := by
    rw [hbk]
    intro i
    by_cases h1 : i = 1
    · refine ⟨[], [2], [], rfl, fun x hx => ?_, fun x hx => absurd hx (List.not_mem_nil _)⟩
      rw [List.mem_singleton.mp hx, h1]
      exact hsl
    · refine ⟨[2], [], [], rfl, fun x hx => absurd hx (List.not_mem_nil _), fun x hx => ?_⟩
      have hx2 : x = 2 := by simpa using hx
      rw [hx2]
      show slotOf id _ 2 2 ≠ some i
      rw [hsl]
      exact fun c => h1 (Option.some.inj c).symm
  have hins : (after (K := Nat) (V := Nat) id [.insert (1, 10)]).insert id (3, 30) =
      .ok ((3, true), (((after id [.insert (1, 10)]).insert id (3, 30)).resultD
        ((0, false), UnorderedMap.new)).2) :=
    Except.eq_ok_of_fst _ (by decide) (by decide)
  obtain ⟨ys, h1, h2, h3, _⟩ := (insert_without_growth_keeps_runs id _ [2] 3 30 hi.shape
    hi.count hfw hcg (by decide)).1 _ hins
  exact ⟨hi.shape, hfw, hcg, _, ys, hins, rfl, h1, h2, h3⟩

/-- C38: `emplace` and `insert` are equivalent. Let `m` be a map with a well-shaped list that
satisfies the cache validity invariant, with memory for one more node. For every key `k` and
value `v`, `insert((k, v))` returns exactly when `emplace(k, v)` returns, and then both return
the same position and the same `inserted` flag and leave the same node sequence, element
sequence, bucket cache (hence bucket count), `size()` and maximum load factor; when one does
not return, the other fails in the same way. -/
theorem emplace_agrees_with_insert {K V : Type} [DecidableEq K] (hash : K → Nat)
    (m : UnorderedMap K V) (xs : List Nat) (k : K) (v : V) (hs : m.list.Shape xs [])
    (hc : m.size = xs.length) (hk : CacheOK hash m.list xs m.buckets)
    (hlt : m.list.brk < addr_space) :
    (∀ e, m.insert hash (k, v) = .error e ↔ m.emplace hash k v = .error e) ∧
    (∀ ri, m.insert hash (k, v) = .ok ri → ∃ re, m.emplace hash k v = .ok re ∧
      re.1 = ri.1 ∧ re.2.list.nodes = ri.2.list.nodes ∧
      re.2.list.toList = ri.2.list.toList ∧ re.2.buckets = ri.2.buckets ∧
      re.2.size = ri.2.size ∧ re.2.max_load_factor = ri.2.max_load_factor) ∧
    (∀ re, m.emplace hash k v = .ok re → ∃ ri, m.insert hash (k, v) = .ok ri ∧
      re.1 = ri.1 ∧ re.2.list.nodes = ri.2.list.nodes ∧
      re.2.list.toList = ri.2.list.toList ∧ re.2.buckets = ri.2.buckets ∧
      re.2.size = ri.2.size ∧ re.2.max_load_factor = ri.2.max_load_factor) := by
  rcases emplace_insert_agree hash ⟨hs, hc, hk⟩ hlt k v with
    ⟨e0, h1, h2⟩ | ⟨it, ins, mi, me, ys, h1, h2, hb, hf, si, se, hcn, _, hv⟩
  · refine ⟨fun e => ?_, fun ri h => ?_, fun re h => ?_⟩
    · rw [h1, h2]
    · rw [h1] at h
      cases h
    · rw [h2] at h
      cases h
  · have hsame : ((it, ins), me).1 = ((it, ins), mi).1 ∧
        me.list.nodes = mi.list.nodes ∧ me.list.toList = mi.list.toList ∧
        me.buckets = mi.buckets ∧ me.size = mi.size ∧
        me.max_load_factor = mi.max_load_factor :=
      ⟨rfl, by rw [se.nodes_eq, si.nodes_eq], si.toList_congr se hv, hb, hcn, hf⟩
    refine ⟨fun e => ?_, fun ri h => ?_, fun re h => ?_⟩
    · rw [h1, h2]
      exact ⟨fun c => (by cases c), fun c => (by cases c)⟩
    · rw [h1] at h
      cases h
      exact ⟨_, h2, hsame⟩
    · rw [h2] at h
      cases h
      exact ⟨_, h1, hsame⟩

/-- C38 on the map holding key 1 (identity hash): `insert((2, 20))` and `emplace(2, 20)` both
link the node at address 3 and return `inserted = true`. -/
theorem emplace_agrees_with_insert_witness :
    (after (K := Nat) (V := Nat) id [.insert (1, 10)]).list.Shape [2] [] ∧
    (after (K := Nat) (V := Nat) id [.insert (1, 10)]).insert id (2, 20) =
      .ok ((3, true), (((after id [.insert (1, 10)]).insert id (2, 20)).resultD
        ((0, false), UnorderedMap.new)).2) ∧
    ∃ re, (after (K := Nat) (V := Nat) id [.insert (1, 10)]).emplace id 2 20 = .ok re ∧
      re.1 = (3, true) ∧ re.2.list.toList =
        (((after (K := Nat) (V := Nat) id [.insert (1, 10)]).insert id (2, 20)).resultD
          ((0, false), UnorderedMap.new)).2.list.toList := by
  have hr : run (K := Nat) (V := Nat) id [.insert (1, 10)] = .ok (after id [.insert (1, 10)]) :=
    run_eq_after (by decide)
  obtain ⟨xs, hi⟩ := run_inv hr
  have hx : xs = [2] := by
    have h1 := hi.shape.nodes_eq
    have h2 : (after (K := Nat) (V := Nat) id [.insert (1, 10)]).list.nodes = .ok [2] := by
      decide
    rw [h2] at h1
    cases h1
    rfl
  subst hx
  have hins : (after (K := Nat) (V := Nat) id [.insert (1, 10)]).insert id (2, 20) =
      .ok ((3, true), (((after id [.insert (1, 10)]).insert id (2, 20)).resultD
        ((0, false), UnorderedMap.new)).2) :=
    Except.eq_ok_of_fst _ (by decide) (by decide)
  obtain ⟨re, h1, h2, _, h4, _⟩ := (emplace_agrees_with_insert id _ [2] 2 20 hi.shape hi.count
    hi.cache (by decide)).2.1 _ hins
  exact ⟨hi.shape, hins, re, h1, h2, h4⟩

/-- C39: range erase. Let `m` be a map with at least one bucket that satisfies the cache
validity invariant, with a well-shaped list whose node sequence is `pre ++ range ++ post`, let
`a` be the first node of `range ++ post` and `b` the first node of `post` (`end()` when there is
none), so that `range` is the nodes of `[a, b)`. Then `erase(a, b)` returns; the node sequence
becomes `pre ++ post` and every remaining node keeps its value, so the element sequence is the
old one without the elements of the range; `size()` decreases by the length of the range; the
bucket count is unchanged and the cache validity invariant holds again. In particular
`erase(begin(), end())` leaves `size() == 0`, `begin() == end()` and every slot empty. -/
theorem erase_range_removes_exactly_the_range {K V : Type} [DecidableEq K] (hash : K → Nat)
    (m : UnorderedMap K V) (pre range post : List Nat)
    (hs : m.list.Shape (pre ++ range ++ post) [])
    (hc : m.size = (pre ++ range ++ post).length)
    (hk : CacheOK hash m.list (pre ++ range ++ post) m.buckets) (hb : m.buckets.length ≠ 0) :
    ∃ m2, m.erase_range hash (headOr (range ++ post) m.cend) (headOr post m.cend) = .ok m2 ∧
      m.list.nodes = .ok (pre ++ range ++ post) ∧ m2.list.nodes = .ok (pre ++ post) ∧
      (∀ z, z ∉ range → m2.list.value z = m.list.value z) ∧
      m2.list.toList = m.list.values (pre ++ post) ∧
      m2.size + range.length = m.size ∧ m2.buckets.length = m.buckets.length ∧
      m2.cend = m.cend ∧ CacheOK hash m2.list (pre ++ post) m2.buckets ∧
      (pre = [] → post = [] →
        m2.size = 0 ∧ m2.begin = .ok m2.cend ∧ ∀ (i p : Nat), m2.buckets[i]? = some p → p = 0) := by
  have hroom := hs.room
  obtain ⟨m2, e, i2, f2, b2, _, o2⟩ := erase_loop_spec hash range pre m m.list.brk
    ⟨hs, hc, hk⟩ hb (by
      simp only [List.length_append] at hroom
      omega)
  have hsz : m2.size + range.length = m.size := by
    show m2.list.count + range.length = m.size
    rw [i2.count, hc]
    simp only [List.length_append]
    omega
  refine ⟨m2, e, hs.nodes_eq, i2.shape.nodes_eq, fun z hz => DList.value_congr (o2 z hz), ?_,
    hsz, b2, f2, i2.cache, fun hp hq => ?_⟩
  · simp only [DList.toList, i2.shape.nodes_eq, Except.bind_ok_eq]
    refine DList.values_congr _ (fun a ha => o2 a (fun hr => ?_))
    have hnd := (List.nodup_cons.mp hs.nodup).2
    rw [List.append_nil] at hnd
    have h1 := List.nodup_append.mp hnd
    have h2 := List.nodup_append.mp h1.1
    rcases List.mem_append.mp ha with h | h
    · exact h2.2.2 h hr
    · exact h1.2.2 (List.mem_append_right _ hr) h
  · subst hp
    subst hq
    have i3 : m2.Inv hash [] := i2
    refine ⟨i3.count, ?_, fun i p hp => ?_⟩
    · have := i3.shape.fwd
      simp only [Chain] at this
      exact DList.getNext_eq_ok.mpr this
    · by_contra hp0
      exact absurd (i3.cache i p hp hp0).1 (List.not_mem_nil _)

/-- C39 on the map holding keys 1, 2, 3 in the nodes 4, 3, 2 (identity hash, node sequence
4, 3, 2): `erase(begin(), end())` erases everything. -/
theorem erase_range_removes_exactly_the_range_witness :
    (after (K := Nat) (V := Nat) id [.insert (1, 10), .insert (2, 20), .insert (3, 30)]
      ).list.Shape ([] ++ [4, 3, 2] ++ []) [] ∧
    ∃ m2, (after (K := Nat) (V := Nat) id [.insert (1, 10), .insert (2, 20), .insert (3, 30)]
        ).erase_range id 4 1 = .ok m2 ∧
      m2.size = 0 ∧ m2.begin = .ok m2.cend ∧ ∀ (i p : Nat), m2.buckets[i]? = some p → p = 0 := by
  have hr : run (K := Nat) (V := Nat) id [.insert (1, 10), .insert (2, 20), .insert (3, 30)] =
      .ok (after id [.insert (1, 10), .insert (2, 20), .insert (3, 30)]) :=
    run_eq_after (by decide)
  obtain ⟨xs, hi⟩ := run_inv hr
  have hx : xs = [] ++ [4, 3, 2] ++ [] := by
    have h1 := hi.shape.nodes_eq
    have h2 : (after (K := Nat) (V := Nat) id
        [.insert (1, 10), .insert (2, 20), .insert (3, 30)]).list.nodes = .ok [4, 3, 2] := by
      decide
    rw [h2] at h1
    cases h1
    rfl
  subst hx
  obtain ⟨m2, e, _, _, _, _, _, _, _, _, h⟩ := erase_range_removes_exactly_the_range id _
    [] [4, 3, 2] [] hi.shape hi.count hi.cache (by decide)
  exact ⟨hi.shape, m2, e, h rfl rfl⟩

/-- C40, evaluated on a list that contradicts it: on the list holding 8 and 7 (nodes 3 and 2),
with the iterator on the node at address 2, `it -= 1` ends on the node at address 3, but
`it += -1` does not return, whatever bound is put on its loops: after the call of `it -= 1`
the loop `while (n--)` runs on with the negative `n`. The same holds for `it -= -1`. -/
theorem iterator_add_of_negative_count_does_not_return :
    DList.with_two_nodes.iter_sub_assign 10 2 2 1 = .ok 3 ∧
    (∀ fuel depth, (DList.with_two_nodes.iter_add_assign fuel depth 2 (-1)).toBool = false) ∧
    (∀ fuel depth, (DList.with_two_nodes.iter_sub_assign fuel depth 2 (-1)).toBool = false) :=
  ⟨by decide, fun fuel depth => DList.iter_assign_neg _ fuel depth true 2 (-1) (by decide),
    fun fuel depth => DList.iter_assign_neg _ fuel depth false 2 (-1) (by decide)⟩

end Claims
